import Mathlib

/-!
Minesweeper board: a shallow embedding of `minesweeper.go`.

The Go program keeps one mutable `board`; here every operation takes the board
and returns the new one.  Go `int` values are modelled by `Int` (no counter of
the program can leave the 64-bit range: all of them are bounded by the number
of allocated cells).  Slice indexing that would panic in Go yields `none`.

The two sources of nondeterminism are made explicit inputs:
* `rand.Intn` — `makeBoard` receives the list of `(x, y)` pairs that the
  successive calls `rand.Intn(height), rand.Intn(width)` return;
* the clock — `updateOnReveal` / `updateOnFlag` receive the reading `t₁` of
  `time.Now()` and the reading `t₂` taken inside `time.Since` (at most one of
  each is taken per call).

The messages the two operations print are not part of the board and are left
out.

`String` is modelled on lists of bytes (`List Char`, all of them ASCII), with
`strconv.Itoa` as the decimal conversion `itoa`; the text that `%.0f` produces
for the elapsed seconds is an input of the model.
-/

namespace Minesweeper

/-! ## Data model -/

/-- The eight neighbour offsets `{x, y}` in source order.  The first component
is added to the first grid index (the row), the second to the second. -/
def neighbors : List (Int × Int) :=
  [(-1, -1), (0, -1), (1, -1), (-1, 0), (1, 0), (-1, 1), (0, 1), (1, 1)]

/-- Go `type cell struct`. -/
structure cell where
  num : Int
  revealed : Bool
  flagged : Bool
  isMine : Bool
deriving DecidableEq

/-- Go `type board struct`.  `started` is `none` for the zero `time.Time`
(`IsZero()`), otherwise the clock reading in nanoseconds.  The
`gameDurationSeconds` field holds the frozen duration as the exact nanosecond
count from which Go computes its `float64` seconds. -/
structure board where
  width : Int
  height : Int
  numMines : Int
  grid : List (List cell)
  numFlagged : Int
  numRevealed : Int
  active : Bool
  started : Option Nat
  gameDurationSeconds : Int
deriving DecidableEq

/-- The expression `grid[x][y]` read; `none` stands for the index panic. -/
def cellAt (g : List (List cell)) (x y : Int) : Option cell :=
  if x < 0 ∨ y < 0 then none
  else
    match g[x.toNat]? with
    | none => none
    | some row => row[y.toNat]?

/-- An assignment through `grid[x][y]`: the cell is replaced by `f` of it;
`none` stands for the index panic. -/
def updCell (g : List (List cell)) (x y : Int) (f : cell → cell) :
    Option (List (List cell)) :=
  if x < 0 ∨ y < 0 then none
  else
    match g[x.toNat]? with
    | none => none
    | some row =>
      match row[y.toNat]? with
      | none => none
      | some c => some (g.set x.toNat (row.set y.toNat (f c)))

/-- Go `withinBoarder`. -/
def board.withinBoarder (b : board) (x y : Int) : Bool :=
  decide (x ≥ 0) && decide (x < b.height) && decide (y ≥ 0) && decide (y < b.width)

/-- Go `isWin`. -/
def board.isWin (b : board) : Bool :=
  decide (b.numFlagged = b.numMines) &&
    decide (b.numRevealed = b.width * b.height - b.numMines)

/-- Go `secondsElapsed`; `now` is the clock reading used by `time.Since`. -/
def board.secondsElapsed (b : board) (now : Nat) : Int :=
  if !b.active then b.gameDurationSeconds
  else
    match b.started with
    | none => 0
    | some s => (now : Int) - (s : Int)

/-! ## Construction -/

/-- The zero value of `cell`, as produced by `make([]cell, width)`. -/
def zeroCell : cell := ⟨0, false, false, false⟩

/-- The inner loop of `makeBoard` (lines 74–79) over the remaining offsets:
`num++` on every neighbour inside the border. -/
def bumpNeighbors (b : board) (x y : Int) : List (Int × Int) → Option board
  | [] => some b
  | d :: ds =>
    if b.withinBoarder (x + d.1) (y + d.2) then
      match updCell b.grid (x + d.1) (y + d.2) (fun c => { c with num := c.num + 1 }) with
      | none => none
      | some g => bumpNeighbors { b with grid := g } x y ds
    else bumpNeighbors b x y ds

/-- The loop `for board.numMines < numMines` of `makeBoard` (lines 69–81),
run on the given random picks.  `none` is returned when the loop has not
finished on these picks, when `rand.Intn` panics (non-positive bound) or when
an index is out of range. -/
def placeMines (numMines : Int) : board → List (Int × Int) → Option board
  | b, [] => if b.numMines < numMines then none else some b
  | b, (x, y) :: rest =>
    if b.numMines < numMines then
      if b.height ≤ 0 ∨ b.width ≤ 0 then none
      else
        match cellAt b.grid x y with
        | none => none
        | some c =>
          if !c.isMine then
            match updCell b.grid x y (fun c => { c with isMine := true }) with
            | none => none
            | some g =>
              match bumpNeighbors { b with grid := g, numMines := b.numMines + 1 } x y
                  neighbors with
              | none => none
              | some b1 => placeMines numMines b1 rest
          else placeMines numMines b rest
    else some b

/-- Go `makeBoard`.  `make` panics on a negative length. -/
def makeBoard (width height numMines : Int) (picks : List (Int × Int)) : Option board :=
  if height < 0 then none
  else if 0 < height ∧ width < 0 then none
  else
    placeMines numMines
      { width := width, height := height, numMines := 0,
        grid := List.replicate height.toNat (List.replicate width.toNat zeroCell),
        numFlagged := 0, numRevealed := 0, active := true, started := none,
        gameDurationSeconds := 0 }
      picks

/-! ## Reveal and flag -/

/-- The loop of `explore` (lines 95–100) over the remaining offsets, `visit`
being the recursive call. -/
def visitNeighbors (visit : board → Int → Int → Option board) (x y : Int) :
    board → List (Int × Int) → Option board
  | b, [] => some b
  | b, d :: ds =>
    if b.withinBoarder (x + d.1) (y + d.2) then
      match visit b (x + d.1) (y + d.2) with
      | none => none
      | some b1 => visitNeighbors visit x y b1 ds
    else visitNeighbors visit x y b ds

/-- Go `explore`, with the offset list as a parameter and the recursion depth
bounded by `fuel`; `none` stands for an index panic or for exhausted fuel. -/
def exploreAux (nbrs : List (Int × Int)) : Nat → board → Int → Int → Option board
  | 0, _, _, _ => none
  | fuel + 1, b, x, y =>
    match cellAt b.grid x y with
    | none => none
    | some c =>
      if c.revealed || c.flagged || c.isMine then some b
      else
        match (if c.num ≥ 0 then
                match updCell b.grid x y (fun c => { c with revealed := true }) with
                | none => none
                | some g => some { b with grid := g, numRevealed := b.numRevealed + 1 }
              else some b) with
        | none => none
        | some b1 =>
          if c.num = 0 then visitNeighbors (exploreAux nbrs fuel) x y b1 nbrs
          else some b1

/-- The number of cells of a grid. -/
def gridSize (g : List (List cell)) : Nat := (g.map List.length).sum

/-- Go `explore`: the recursion is at most one deeper than the number of
unrevealed cells, so `gridSize + 1` levels are always enough. -/
def board.explore (b : board) (x y : Int) : Option board :=
  exploreAux neighbors (gridSize b.grid + 1) b x y

/-- The loop of `explore` (lines 95–100) as in `visitNeighbors`, which also
records, in order, the coordinates of the recursive calls it makes (line 98). -/
def visitNeighborsLog (visit : board → Int → Int → Option board) (x y : Int) :
    board → List (Int × Int) → Option (board × List (Int × Int))
  | b, [] => some (b, [])
  | b, d :: ds =>
    if b.withinBoarder (x + d.1) (y + d.2) then
      match visit b (x + d.1) (y + d.2) with
      | none => none
      | some b1 =>
        match visitNeighborsLog visit x y b1 ds with
        | none => none
        | some r => some (r.1, (x + d.1, y + d.2) :: r.2)
    else visitNeighborsLog visit x y b ds

/-- Go `explore` as in `exploreAux`, which also returns the coordinates of the
recursive calls made directly by this call, in the order in which they are
made. -/
def exploreCalls (nbrs : List (Int × Int)) :
    Nat → board → Int → Int → Option (board × List (Int × Int))
  | 0, _, _, _ => none
  | fuel + 1, b, x, y =>
    match cellAt b.grid x y with
    | none => none
    | some c =>
      if c.revealed || c.flagged || c.isMine then some (b, [])
      else
        match (if c.num ≥ 0 then
                match updCell b.grid x y (fun c => { c with revealed := true }) with
                | none => none
                | some g => some { b with grid := g, numRevealed := b.numRevealed + 1 }
              else some b) with
        | none => none
        | some b1 =>
          if c.num = 0 then visitNeighborsLog (exploreAux nbrs fuel) x y b1 nbrs
          else some (b1, [])

/-- The common tail of both operations: the win check (lines 123–127 and
144–148). -/
def board.checkWin (b : board) (t₂ : Nat) : board :=
  if b.isWin then { b with gameDurationSeconds := b.secondsElapsed t₂, active := false }
  else b

/-- The clock start shared by both operations (lines 108–110 and 134–136):
`if b.started.IsZero() { b.started = time.Now() }`, `t₁` being the reading. -/
def board.startClock (b : board) (t₁ : Nat) : board :=
  if b.started.isNone then { b with started := some t₁ } else b

/-- Go `updateOnReveal`. -/
def board.updateOnReveal (b : board) (x y : Int) (t₁ t₂ : Nat) : Option board :=
  if !b.withinBoarder x y || !b.active then some b
  else
    let b0 : board := b.startClock t₁
    match cellAt b0.grid x y with
    | none => none
    | some c =>
      if c.revealed || c.flagged then some b0
      else
        match (if c.isMine then
                match updCell b0.grid x y (fun c => { c with revealed := true }) with
                | none => none
                | some g =>
                  let b1 : board := { b0 with grid := g, numRevealed := b0.numRevealed + 1 }
                  some { b1 with gameDurationSeconds := b1.secondsElapsed t₂, active := false }
              else some b0) with
        | none => none
        | some b2 =>
          match b2.explore x y with
          | none => none
          | some b3 => some (b3.checkWin t₂)

/-- Go `updateOnFlag`. -/
def board.updateOnFlag (b : board) (x y : Int) (t₁ t₂ : Nat) : Option board :=
  if !b.withinBoarder x y then some b
  else
    match cellAt b.grid x y with
    | none => none
    | some c =>
      if c.revealed || !b.active then some b
      else
        let b0 : board := b.startClock t₁
        match (if !c.flagged then
                match updCell b0.grid x y (fun c => { c with flagged := true }) with
                | none => none
                | some g => some { b0 with grid := g, numFlagged := b0.numFlagged + 1 }
              else
                match updCell b0.grid x y (fun c => { c with flagged := false }) with
                | none => none
                | some g => some { b0 with grid := g, numFlagged := b0.numFlagged - 1 }) with
        | none => none
        | some b1 => some (b1.checkWin t₂)

/-! ## Vocabulary of the specification -/

/-- The number of cells of a grid that satisfy `p`. -/
def countCells (p : cell → Bool) (g : List (List cell)) : Nat :=
  (g.map (List.countP p)).sum

/-- The grid has exactly `height` rows of exactly `width` cells. -/
def board.wellFormed (b : board) : Prop :=
  b.grid.length = b.height.toNat ∧ ∀ row ∈ b.grid, row.length = b.width.toNat

/-- Whether `(x, y)` is a cell of the grid that holds a mine. -/
def isMineAt (g : List (List cell)) (x y : Int) : Bool :=
  match cellAt g x y with
  | some c => c.isMine
  | none => false

/-- The number of 8-neighbours of `(x, y)` inside the border that are mines. -/
def mineNeighbors (b : board) (x y : Int) : Nat :=
  neighbors.countP fun d =>
    b.withinBoarder (x + d.1) (y + d.2) && isMineAt b.grid (x + d.1) (y + d.2)

/-- Every cell's `num` is the number of its in-border neighbours that are
mines. -/
def board.consistent (b : board) : Prop :=
  ∀ x y c, cellAt b.grid x y = some c → c.num = (mineNeighbors b x y : Int)

/-- No cell is revealed or flagged, both counters are zero, the game is active
and its clock has not started. -/
def board.untouched (b : board) : Prop :=
  (∀ x y c, cellAt b.grid x y = some c → c.revealed = false ∧ c.flagged = false) ∧
    b.numFlagged = 0 ∧ b.numRevealed = 0 ∧ b.active = true ∧ b.started = none

/-- Whether `(x, y)` is a cell of the grid that is revealed. -/
def revealedAt (g : List (List cell)) (x y : Int) : Bool :=
  match cellAt g x y with
  | some c => c.revealed
  | none => false

/-- Whether `(x, y)` is a cell of the grid that is flagged. -/
def flaggedAt (g : List (List cell)) (x y : Int) : Bool :=
  match cellAt g x y with
  | some c => c.flagged
  | none => false

/-- Whether `(x, y)` is a cell of the grid with `num = 0`. -/
def zeroAt (g : List (List cell)) (x y : Int) : Bool :=
  match cellAt g x y with
  | some c => decide (c.num = 0)
  | none => false

/-- Whether `(x, y)` is a cell on which `explore` returns at once: revealed,
flagged or a mine. -/
def settledAt (g : List (List cell)) (x y : Int) : Bool :=
  match cellAt g x y with
  | some c => c.revealed || c.flagged || c.isMine
  | none => false

/-- Whether `(x, y)` is a cell that `explore` would reveal: not revealed, not
flagged, not a mine. -/
def openAt (g : List (List cell)) (x y : Int) : Bool :=
  match cellAt g x y with
  | some c => !(c.revealed || c.flagged || c.isMine)
  | none => false

/-- `q` is `p` moved by one of the offsets of `nbrs`. -/
def adjacentBy (nbrs : List (Int × Int)) (p q : Int × Int) : Prop :=
  ∃ d ∈ nbrs, q = (p.1 + d.1, p.2 + d.2)

/-- `q` is one of the eight neighbours of `p`. -/
def adjacent (p q : Int × Int) : Prop := adjacentBy neighbors p q

/-- `q` is connected to `p` by a path of adjacent positions that all satisfy
`ok`, both ends included. -/
inductive connected (ok : Int → Int → Bool) (p : Int × Int) : Int × Int → Prop
  | start : ok p.1 p.2 = true → connected ok p p
  | next {q r : Int × Int} :
      connected ok p q → adjacent q r → ok r.1 r.2 = true → connected ok p r

/-- The cells the flood-fill started at `p` can get to on board `b`: `p` itself,
and every in-border neighbour of a cell it can get to that is open and has
`num = 0`. -/
inductive spread (nbrs : List (Int × Int)) (b : board) (p : Int × Int) : Int × Int → Prop
  | start : spread nbrs b p p
  | next {q r : Int × Int} :
      spread nbrs b p q → openAt b.grid q.1 q.2 = true → zeroAt b.grid q.1 q.2 = true →
      adjacentBy nbrs q r → b.withinBoarder r.1 r.2 = true → spread nbrs b p r

/-- The statement of the flood-fill property for one call that turns `b` into
`b1` by revealing `(x, y)`: every cell connected to `(x, y)` by a path of
adjacent cells with `num = 0` is revealed, every in-border neighbour of such a
cell is revealed, and no mine that was unrevealed is revealed. -/
def floodFillsZeroRegion (b b1 : board) (x y : Int) : Prop :=
  (∀ q, connected (zeroAt b.grid) (x, y) q → revealedAt b1.grid q.1 q.2 = true) ∧
    (∀ q r, connected (zeroAt b.grid) (x, y) q → adjacent q r →
      b.withinBoarder r.1 r.2 = true → revealedAt b1.grid r.1 r.2 = true) ∧
    (∀ i j, isMineAt b.grid i j = true → revealedAt b.grid i j = false →
      revealedAt b1.grid i j = false)

/-- Whether `(x, y)` is a cell with `num = 0` that is neither revealed nor
flagged. -/
def freeZeroAt (g : List (List cell)) (x y : Int) : Bool :=
  zeroAt g x y && !revealedAt g x y && !flaggedAt g x y

/-- The flood-fill property with the flags and the earlier reveals taken into
account: the paths run through cells with `num = 0` that were neither revealed
nor flagged before the call, and a neighbour of such a cell is revealed unless
it is flagged. -/
def floodFillsFreeZeroRegion (b b1 : board) (x y : Int) : Prop :=
  (∀ q, connected (freeZeroAt b.grid) (x, y) q → revealedAt b1.grid q.1 q.2 = true) ∧
    (∀ q r, connected (freeZeroAt b.grid) (x, y) q → adjacent q r →
      b.withinBoarder r.1 r.2 = true → flaggedAt b.grid r.1 r.2 = false →
      revealedAt b1.grid r.1 r.2 = true) ∧
    (∀ i j, isMineAt b.grid i j = true → revealedAt b.grid i j = false →
      revealedAt b1.grid i j = false)

/-- The cells that are expected to be revealed after `p` has been revealed on a
fresh board: `p` alone if it is a mine or has `num > 0`; otherwise the cells
connected to `p` through cells with `num = 0`, together with all in-border
neighbours of these. -/
def expectedRevealed (b : board) (p q : Int × Int) : Prop :=
  match cellAt b.grid p.1 p.2 with
  | none => False
  | some c =>
    if c.isMine = true ∨ 0 < c.num then q = p
    else connected (zeroAt b.grid) p q ∨
      ∃ z, connected (zeroAt b.grid) p z ∧ adjacent z q ∧ b.withinBoarder q.1 q.2 = true

/-- The effect of revealing cells: `b1` is `b` except that some cells that were
neither revealed nor flagged are now revealed, and `numRevealed` has advanced
by their number.  A mine is among them only if `mines` holds. -/
def revealsFrom (mines : Prop) (b b1 : board) : Prop :=
  b1 = { b with grid := b1.grid, numRevealed := b1.numRevealed } ∧
    b1.wellFormed ∧
    gridSize b1.grid = gridSize b.grid ∧
    countCells (fun c => !c.revealed) b1.grid ≤ countCells (fun c => !c.revealed) b.grid ∧
    b1.numRevealed + (countCells (fun c => !c.revealed) b1.grid : Int) =
      b.numRevealed + (countCells (fun c => !c.revealed) b.grid : Int) ∧
    b1.numRevealed - (countCells (fun c => c.revealed) b1.grid : Int) =
      b.numRevealed - (countCells (fun c => c.revealed) b.grid : Int) ∧
    (∀ p : cell → Bool, (∀ c r, p { c with revealed := r } = p c) →
      countCells p b1.grid = countCells p b.grid) ∧
    ∀ i j c, cellAt b.grid i j = some c →
      ∃ c1, cellAt b1.grid i j = some c1 ∧ c1 = { c with revealed := c1.revealed } ∧
        (c.revealed = true → c1.revealed = true) ∧
        (c1.revealed = true → c.revealed = false →
          c.flagged = false ∧ (c.isMine = true → mines))

/-- What a flood-fill started at `(x, y)` on `b` has done when it returns `b1`:
it has only revealed open cells; the start cell, if it was open, is revealed;
all in-border neighbours of every newly revealed cell with `num = 0` are
settled (revealed, flagged or mines); and every newly revealed cell is one the
fill can get to from `(x, y)`. -/
def explorePost (nbrs : List (Int × Int)) (b : board) (x y : Int) (b1 : board) : Prop :=
  revealsFrom False b b1 ∧
    (openAt b.grid x y = true → revealedAt b1.grid x y = true) ∧
    (∀ i j, revealedAt b.grid i j = false → revealedAt b1.grid i j = true →
      zeroAt b.grid i j = true → ∀ d ∈ nbrs, b.withinBoarder (i + d.1) (j + d.2) = true →
        settledAt b1.grid (i + d.1) (j + d.2) = true) ∧
    (∀ i j, revealedAt b.grid i j = false → revealedAt b1.grid i j = true →
      spread nbrs b (x, y) (i, j))

/-- No cell has a negative `num`. -/
def numNonneg (g : List (List cell)) : Prop :=
  ∀ x y c, cellAt g x y = some c → 0 ≤ c.num

/-- The invariant of the boards reachable from a constructed one: the grid is
`height × width`, every `num` counts the neighbouring mines, the three counters
count the mine, revealed and flagged cells, no cell is both revealed and
flagged, and while the clock has not started nothing is revealed or flagged. -/
def board.inv (b : board) : Prop :=
  b.wellFormed ∧ b.consistent ∧
    b.numMines = (countCells (fun c => c.isMine) b.grid : Int) ∧
    b.numRevealed = (countCells (fun c => c.revealed) b.grid : Int) ∧
    b.numFlagged = (countCells (fun c => c.flagged) b.grid : Int) ∧
    (∀ x y c, cellAt b.grid x y = some c → ¬ (c.revealed = true ∧ c.flagged = true)) ∧
    (b.started = none →
      ∀ x y c, cellAt b.grid x y = some c → c.revealed = false ∧ c.flagged = false)

/-- The invariant that ties `active` to the outcome of the game: an active
board is not won and shows no mine, an inactive one is won or shows a mine. -/
def board.invActive (b : board) : Prop :=
  (b.active = true → b.isWin = false ∧
      ∀ x y c, cellAt b.grid x y = some c → ¬ (c.isMine = true ∧ c.revealed = true)) ∧
    (b.active = false → b.isWin = true ∨
      ∃ x y c, cellAt b.grid x y = some c ∧ c.isMine = true ∧ c.revealed = true)

/-- A call of one of the two public mutating operations, with its clock
readings. -/
inductive action where
  | reveal (x y : Int) (t₁ t₂ : Nat)
  | flag (x y : Int) (t₁ t₂ : Nat)
deriving DecidableEq

/-- One public call. -/
def board.step (b : board) : action → Option board
  | .reveal x y t₁ t₂ => b.updateOnReveal x y t₁ t₂
  | .flag x y t₁ t₂ => b.updateOnFlag x y t₁ t₂

/-- A finite sequence of public calls, from left to right. -/
def board.run (b : board) : List action → Option board
  | [] => some b
  | a :: rest =>
    match b.step a with
    | none => none
    | some b1 => b1.run rest

/-- Two calls of `updateOnFlag` on the same cell, one after the other. -/
def board.flagTwice (b : board) (x y : Int) (t₁ t₂ t₃ t₄ : Nat) : Option board :=
  match b.updateOnFlag x y t₁ t₂ with
  | none => none
  | some b1 => b1.updateOnFlag x y t₃ t₄

/-- The parts of a board that are fixed at construction are the same in `b1` as
in `b`: `width`, `height`, `numMines`, which positions are cells, and every
cell's `num` and `isMine`. -/
def sameLayout (b b1 : board) : Prop :=
  b1.width = b.width ∧ b1.height = b.height ∧ b1.numMines = b.numMines ∧
    ∀ i j, (cellAt b1.grid i j).map (fun c => (c.num, c.isMine)) =
      (cellAt b.grid i j).map (fun c => (c.num, c.isMine))

/-- Whether `(x, y)` is a cell that `explore` reveals when it is called on it:
not revealed, not flagged, not a mine, and with `num ≥ 0` (line 90). -/
def liveAt (g : List (List cell)) (x y : Int) : Bool :=
  match cellAt g x y with
  | some c => !(c.revealed || c.flagged || c.isMine) && decide (0 ≤ c.num)
  | none => false

/-- What a flood-fill started at `(x, y)` on `b` has done when it returns `b1`,
on any board: it has only revealed cells; the start cell, if it was live, is
revealed; no in-border neighbour of a newly revealed cell with `num = 0` is
still live; and every newly revealed cell was live, as was the start cell, and
is one the fill can get to from `(x, y)`. -/
def exploreEffect (nbrs : List (Int × Int)) (b : board) (x y : Int) (b1 : board) : Prop :=
  revealsFrom False b b1 ∧
    (liveAt b.grid x y = true → revealedAt b1.grid x y = true) ∧
    (∀ i j, revealedAt b.grid i j = false → revealedAt b1.grid i j = true →
      zeroAt b.grid i j = true → ∀ d ∈ nbrs, b.withinBoarder (i + d.1) (j + d.2) = true →
        liveAt b1.grid (i + d.1) (j + d.2) = false) ∧
    (∀ i j, revealedAt b.grid i j = false → revealedAt b1.grid i j = true →
      liveAt b.grid i j = true ∧ liveAt b.grid x y = true ∧ spread nbrs b (x, y) (i, j))

/-- The visiting order in the words of the specification: NW, N, NE, W, E, SW,
S, SE as (row, col) offsets, N being row - 1 and W being col - 1. -/
def specOrder : List (Int × Int) :=
  [(-1, -1), (-1, 0), (-1, 1), (0, -1), (0, 1), (1, -1), (1, 0), (1, 1)]

/-- All positions of a `height × width` grid, row by row. -/
def allCells (width height : Int) : List (Int × Int) :=
  (List.range height.toNat).flatMap fun (i : Nat) =>
    (List.range width.toNat).map fun (j : Nat) => (Int.ofNat i, Int.ofNat j)

/-- The layout of the test fixture (`TestReveal`), by its mine positions. -/
def fixturePicks : List (Int × Int) :=
  [(0, 0), (0, 2), (0, 3), (1, 0), (2, 0), (2, 4), (3, 2), (4, 2), (6, 5), (7, 4)]

/-! ## Rendering -/

/-- Go `strconv.Itoa` on a number that is not negative: the decimal digits, the
most significant first.  The first argument bounds the number of digits. -/
def itoaNat : Nat → Nat → List Char
  | 0, _ => []
  | fuel + 1, n =>
    if n < 10 then [Nat.digitChar n]
    else itoaNat fuel (n / 10) ++ [Nat.digitChar (n % 10)]

/-- Go `strconv.Itoa`, a string being the list of its bytes.  A number `n` has
at most `n + 1` digits. -/
def itoa (n : Int) : List Char :=
  if n < 0 then '-' :: itoaNat (n.natAbs + 1) n.natAbs
  else itoaNat (n.toNat + 1) n.toNat

/-- Go `strings.Repeat`, which panics on a negative count. -/
def strRepeat (s : List Char) (count : Int) : Option (List Char) :=
  if count < 0 then none else some (List.replicate count.toNat s).flatten

/-- The loop of Go `pad` (lines 157–159), run at most `fuel` times. -/
def padLoop (numDigits : Int) (char : Char) : Nat → List Char → List Char
  | 0, result => result
  | fuel + 1, result =>
    if (result.length : Int) < numDigits then padLoop numDigits char fuel (char :: result)
    else result

/-- Go `pad`.  Every call of the program passes a string of one byte as `char`,
so that the loop runs at most `numDigits` times. -/
def pad (s : List Char) (numDigits : Int) (char : Char) : List Char :=
  padLoop numDigits char numDigits.toNat s

/-- The text of one cell: the `switch` of `String` (lines 181–190). -/
def cellText (digitsHorizontal : Int) (c : cell) : List Char :=
  if c.flagged then pad ['#'] (digitsHorizontal + 1) ' '
  else if !c.revealed then pad ['-'] (digitsHorizontal + 1) ' '
  else if c.revealed && c.isMine then pad ['X'] (digitsHorizontal + 1) ' '
  else pad (itoa c.num) (digitsHorizontal + 1) ' '

/-- Go `String`.  `elapsed` is the text that `%.0f` produces for
`secondsElapsed()`; `none` stands for a panic (`grid[0]` on an empty grid, or a
negative count in `strings.Repeat`). -/
def board.String (b : board) (elapsed : List Char) : Option (List Char) := do
  let digitsHorizontal : Int := (itoa (b.width - 1)).length
  let digitsVertical : Int := (itoa (b.height - 1)).length
  let result := "Mines remaining: ".toList ++ itoa (b.numMines - b.numFlagged) ++
    "\nTime elapsed: ".toList ++ elapsed ++ " seconds\n".toList
  let indent ← strRepeat [' '] (digitsVertical + 1)
  let result := result ++ indent
  let row0 ← b.grid[0]?
  let result := (List.range row0.length).foldl
    (fun (result : List Char) (c : Nat) =>
      result ++ (' ' :: pad (itoa c) digitsHorizontal '0')) result
  let indent ← strRepeat [' '] (digitsVertical + 1)
  let rule ← strRepeat ['-'] (b.width * (digitsHorizontal + 1))
  let result := result ++ ['\n'] ++ indent ++ rule ++ ['\n']
  pure (b.grid.enum.foldl
    (fun (result : List Char) (rr : Nat × List cell) =>
      rr.2.foldl (fun result cell => result ++ cellText digitsHorizontal cell)
        (result ++ pad (itoa rr.1) digitsVertical '0' ++ ['|']) ++ ['\n'])
    result)

/-- A field of `w` bytes with `s` at its right end, filled up with `fill`. -/
def rightAlign (w : Nat) (fill : Char) (s : List Char) : List Char :=
  List.replicate (w - s.length) fill ++ s

/-- The number of decimal digits of the largest index below `n`. -/
def indexDigits (n : Int) : Nat := (itoa (n - 1)).length

/-- What a cell shows, in the words of the specification. -/
def glyph (c : cell) : List Char :=
  if c.flagged then ['#']
  else if !c.revealed then ['-']
  else if c.isMine then ['X']
  else itoa c.num

/-- The header of the rendering. -/
def headerText (b : board) (elapsed : List Char) : List Char :=
  "Mines remaining: ".toList ++ itoa (b.numMines - b.numFlagged) ++
    "\nTime elapsed: ".toList ++ elapsed ++ " seconds\n".toList

/-- The line of column labels, in the words of the specification. -/
def labelLine (b : board) : List Char :=
  List.replicate (indexDigits b.height + 1) ' ' ++
    (List.range b.width.toNat).flatMap
      (fun c => ' ' :: rightAlign (indexDigits b.width) '0' (itoa c))

/-- The separator line. -/
def ruleLine (b : board) : List Char :=
  List.replicate (indexDigits b.height + 1) ' ' ++
    List.replicate (b.width.toNat * (indexDigits b.width + 1)) '-'

/-- The line of row `r`, in the words of the specification: the zero-padded
row index, a bar, and one right-aligned field per cell. -/
def rowLine (b : board) (r : Nat) (row : List cell) : List Char :=
  rightAlign (indexDigits b.height) '0' (itoa r) ++ ['|'] ++
    row.flatMap (fun c => rightAlign (indexDigits b.width + 1) ' ' (glyph c))

/-! ## Grid access, counting and the construction loop -/

theorem cellAt_eq_some_iff (g : List (List cell)) (x y : Int) (c : cell) :
    cellAt g x y = some c ↔
      0 ≤ x ∧ 0 ≤ y ∧ ∃ row, g[x.toNat]? = some row ∧ row[y.toNat]? = some c := by
  unfold cellAt
  by_cases hx : x < 0
  · simp [hx]
  by_cases hy : y < 0
  · simp [hx, hy]
  simp only [hx, hy, or_self, if_false]
  constructor
  · intro h
    refine ⟨by omega, by omega, ?_⟩
    cases hr : g[x.toNat]? with
    | none => simp [hr] at h
    | some row => simp [hr] at h; exact ⟨row, rfl, h⟩
  · rintro ⟨_, _, row, hr, hc⟩
    simp [hr, hc]

theorem updCell_eq_some_iff (g g1 : List (List cell)) (x y : Int) (f : cell → cell) :
    updCell g x y f = some g1 ↔
      0 ≤ x ∧ 0 ≤ y ∧ ∃ row c, g[x.toNat]? = some row ∧ row[y.toNat]? = some c ∧
        g1 = g.set x.toNat (row.set y.toNat (f c)) := by
  unfold updCell
  by_cases hx : x < 0
  · simp [hx]
  by_cases hy : y < 0
  · simp [hx, hy]
  simp only [hx, hy, or_self, if_false]
  constructor
  · intro h
    refine ⟨by omega, by omega, ?_⟩
    cases hr : g[x.toNat]? with
    | none => simp [hr] at h
    | some row =>
      cases hc : row[y.toNat]? with
      | none => simp [hr, hc] at h
      | some c => simp [hr, hc] at h; exact ⟨row, c, rfl, hc, h.symm⟩
  · rintro ⟨_, _, row, c, hr, hc, rfl⟩
    simp [hr, hc]

theorem updCell_of_cellAt {g : List (List cell)} {x y : Int} {c : cell}
    (h : cellAt g x y = some c) (f : cell → cell) :
    ∃ g1, updCell g x y f = some g1 := by
  obtain ⟨hx, hy, row, hr, hc⟩ := (cellAt_eq_some_iff g x y c).1 h
  exact ⟨_, (updCell_eq_some_iff g _ x y f).2 ⟨hx, hy, row, c, hr, hc, rfl⟩⟩

theorem cellAt_updCell_same {g g1 : List (List cell)} {x y : Int} {f : cell → cell}
    (h : updCell g x y f = some g1) :
    cellAt g1 x y = (cellAt g x y).map f := by
  obtain ⟨hx, hy, row, c, hr, hc, rfl⟩ := (updCell_eq_some_iff g g1 x y f).1 h
  have h1 : cellAt g x y = some c := (cellAt_eq_some_iff g x y c).2 ⟨hx, hy, row, hr, hc⟩
  rw [h1]
  refine (cellAt_eq_some_iff _ x y (f c)).2 ⟨hx, hy, row.set y.toNat (f c), ?_, ?_⟩
  · have hlt : x.toNat < g.length := by
      rcases List.getElem?_eq_some.1 hr with ⟨h, _⟩; exact h
    simp [List.getElem?_set_self, hlt]
  · have hlt : y.toNat < row.length := by
      rcases List.getElem?_eq_some.1 hc with ⟨h, _⟩; exact h
    simp [List.getElem?_set_self, hlt]

theorem cellAt_updCell_other {g g1 : List (List cell)} {x y i j : Int} {f : cell → cell}
    (h : updCell g x y f = some g1) (hne : ¬ (i = x ∧ j = y)) :
    cellAt g1 i j = cellAt g i j := by
  obtain ⟨hx, hy, row, c, hr, hc, rfl⟩ := (updCell_eq_some_iff g g1 x y f).1 h
  unfold cellAt
  by_cases hi : i < 0 ∨ j < 0
  · simp [hi]
  simp only [hi, if_false]
  by_cases hix : i = x
  · subst hix
    have hjy : j.toNat ≠ y.toNat := by
      intro he; apply hne; refine ⟨rfl, ?_⟩; omega
    have hlt : i.toNat < g.length := by
      rcases List.getElem?_eq_some.1 hr with ⟨h, _⟩; exact h
    simp [List.getElem?_set_self, hlt, hr, List.getElem?_set_ne (Ne.symm hjy)]
  · have hne2 : x.toNat ≠ i.toNat := by omega
    rw [List.getElem?_set_ne hne2]

theorem countP_set_add {α : Type} (p : α → Bool) (l : List α) (j : Nat) (a a1 : α)
    (h : l[j]? = some a) :
    List.countP p (l.set j a1) + (if p a then 1 else 0) =
      List.countP p l + (if p a1 then 1 else 0) := by
  induction l generalizing j with
  | nil => simp at h
  | cons hd tl ih =>
    cases j with
    | zero =>
      simp at h
      subst h
      simp [List.countP_cons]
      omega
    | succ k =>
      simp at h
      have := ih k h
      simp [List.countP_cons]
      omega

theorem sum_map_set_add {α : Type} (f : α → Nat) (l : List α) (i : Nat) (a a1 : α)
    (h : l[i]? = some a) :
    ((l.set i a1).map f).sum + f a = (l.map f).sum + f a1 := by
  induction l generalizing i with
  | nil => simp at h
  | cons hd tl ih =>
    cases i with
    | zero =>
      simp at h
      subst h
      simp only [List.set_cons_zero, List.map_cons, List.sum_cons]
      omega
    | succ k =>
      simp at h
      have := ih k h
      simp only [List.set_cons_succ, List.map_cons, List.sum_cons]
      omega

theorem countCells_updCell {g g1 : List (List cell)} {x y : Int} {f : cell → cell} {c : cell}
    (p : cell → Bool) (h : updCell g x y f = some g1) (hc : cellAt g x y = some c) :
    countCells p g1 + (if p c then 1 else 0) = countCells p g + (if p (f c) then 1 else 0) := by
  obtain ⟨hx, hy, row, c0, hr, hc0, rfl⟩ := (updCell_eq_some_iff g g1 x y f).1 h
  obtain ⟨_, _, row1, hr1, hc1⟩ := (cellAt_eq_some_iff g x y c).1 hc
  rw [hr] at hr1
  cases hr1
  rw [hc0] at hc1
  cases hc1
  have h1 := sum_map_set_add (List.countP p) g x.toNat row (row.set y.toNat (f c)) hr
  have h2 := countP_set_add p row y.toNat c (f c) hc0
  unfold countCells
  omega

theorem gridSize_updCell {g g1 : List (List cell)} {x y : Int} {f : cell → cell}
    (h : updCell g x y f = some g1) : gridSize g1 = gridSize g := by
  obtain ⟨hx, hy, row, c0, hr, hc0, rfl⟩ := (updCell_eq_some_iff g g1 x y f).1 h
  have h1 := sum_map_set_add List.length g x.toNat row (row.set y.toNat (f c0)) hr
  have h2 : (row.set y.toNat (f c0)).length = row.length := by simp
  unfold gridSize
  omega

theorem length_updCell {g g1 : List (List cell)} {x y : Int} {f : cell → cell}
    (h : updCell g x y f = some g1) : g1.length = g.length := by
  obtain ⟨hx, hy, row, c0, hr, hc0, rfl⟩ := (updCell_eq_some_iff g g1 x y f).1 h
  simp

theorem rows_updCell {g g1 : List (List cell)} {x y : Int} {f : cell → cell} {w : Nat}
    (h : updCell g x y f = some g1) (hw : ∀ row ∈ g, row.length = w) :
    ∀ row ∈ g1, row.length = w := by
  obtain ⟨hx, hy, row, c0, hr, hc0, rfl⟩ := (updCell_eq_some_iff g g1 x y f).1 h
  intro r hr1
  rcases List.mem_or_eq_of_mem_set hr1 with hm | he
  · exact hw r hm
  · subst he
    simp
    exact hw row (List.getElem?_mem hr)

theorem within_iff_cellAt {b : board} (hwf : b.wellFormed) (x y : Int) :
    b.withinBoarder x y = true ↔ ∃ c, cellAt b.grid x y = some c := by
  obtain ⟨hl, hrows⟩ := hwf
  constructor
  · intro h
    simp [board.withinBoarder] at h
    obtain ⟨⟨⟨h1, h2⟩, h3⟩, h4⟩ := h
    have hlt : x.toNat < b.grid.length := by omega
    have hrl := hrows _ (List.getElem_mem hlt)
    have hlt2 : y.toNat < (b.grid[x.toNat]).length := by omega
    refine ⟨(b.grid[x.toNat])[y.toNat], ?_⟩
    refine (cellAt_eq_some_iff _ x y _).2 ⟨h1, h3, b.grid[x.toNat], ?_, ?_⟩
    · exact List.getElem?_eq_getElem hlt
    · exact List.getElem?_eq_getElem hlt2
  · rintro ⟨c, hc⟩
    obtain ⟨hx, hy, row, hr, hcc⟩ := (cellAt_eq_some_iff _ x y c).1 hc
    obtain ⟨hlt, hre⟩ := List.getElem?_eq_some.1 hr
    obtain ⟨hlt2, _⟩ := List.getElem?_eq_some.1 hcc
    have hrl := hrows row (List.getElem?_mem hr)
    simp [board.withinBoarder]
    omega

theorem neighbors_map_neg :
    neighbors.map (fun d => (-d.1, -d.2)) = neighbors.reverse := by decide

theorem countP_neighbors_symm (x y i j : Int) :
    neighbors.countP (fun d => decide (x + d.1 = i) && decide (y + d.2 = j)) =
      neighbors.countP (fun d => decide (i + d.1 = x) && decide (j + d.2 = y)) := by
  have h1 : neighbors.countP (fun d => decide (i + d.1 = x) && decide (j + d.2 = y)) =
      neighbors.reverse.countP (fun d => decide (i + d.1 = x) && decide (j + d.2 = y)) :=
    ((List.reverse_perm neighbors).countP_eq _).symm
  rw [h1, ← neighbors_map_neg, List.countP_map]
  apply List.countP_congr
  intro d _
  simp only [Function.comp, Bool.and_eq_true, decide_eq_true_eq]
  constructor <;> rintro ⟨h2, h3⟩ <;> constructor <;> omega

theorem countP_or_disjoint {α : Type} (p q : α → Bool) (l : List α)
    (h : ∀ a ∈ l, ¬ (p a = true ∧ q a = true)) :
    l.countP (fun a => p a || q a) = l.countP p + l.countP q := by
  induction l with
  | nil => simp
  | cons hd tl ih =>
    have h1 := ih (fun a ha => h a (List.mem_cons_of_mem _ ha))
    have h2 := h hd (List.mem_cons_self _ _)
    simp only [List.countP_cons, h1]
    cases hp : p hd <;> cases hq : q hd <;> simp_all <;> omega


theorem wellFormed_setGrid {b : board} {g : List (List cell)} {x y : Int} {f : cell → cell}
    (hwf : b.wellFormed) (h : updCell b.grid x y f = some g) :
    board.wellFormed { b with grid := g } := by
  refine ⟨?_, ?_⟩
  · show g.length = _
    rw [length_updCell h]; exact hwf.1
  · exact rows_updCell h hwf.2

theorem bumpNeighbors_spec (x y : Int) (ds : List (Int × Int)) (b : board)
    (hwf : b.wellFormed) :
    ∃ b1, bumpNeighbors b x y ds = some b1 ∧ b1.wellFormed ∧
      b1 = { b with grid := b1.grid } ∧
      (∀ p : cell → Bool, (∀ c n, p { c with num := n } = p c) →
        countCells p b1.grid = countCells p b.grid) ∧
      ∀ i j c, cellAt b.grid i j = some c →
        cellAt b1.grid i j = some { c with num := c.num +
          (ds.countP (fun d => decide (x + d.1 = i) && decide (y + d.2 = j)) : Nat) } := by
  induction ds generalizing b with
  | nil =>
    refine ⟨b, rfl, hwf, rfl, fun _ _ => rfl, ?_⟩
    intro i j c hc
    simp [hc]
  | cons d ds ih =>
    by_cases hin : b.withinBoarder (x + d.1) (y + d.2) = true
    · obtain ⟨c0, hc0⟩ := (within_iff_cellAt hwf _ _).1 hin
      obtain ⟨g, hg⟩ := updCell_of_cellAt hc0 (fun c => { c with num := c.num + 1 })
      have hwf2 := wellFormed_setGrid hwf hg
      obtain ⟨b1, hb1, hwf1, heq, hcnt, hcells⟩ := ih { b with grid := g } hwf2
      refine ⟨b1, ?_, hwf1, ?_, ?_, ?_⟩
      · simp only [bumpNeighbors, hin, if_true, hg]; exact hb1
      · rw [heq]
      · intro p hp
        rw [hcnt p hp]
        have h1 := countCells_updCell p hg hc0
        have h3 := hp c0 (c0.num + 1)
        simp only [h3] at h1
        show countCells p g = _
        omega
      · intro i j c hc
        by_cases hij : i = x + d.1 ∧ j = y + d.2
        · obtain ⟨rfl, rfl⟩ := hij
          have h1 := cellAt_updCell_same hg
          rw [hc] at h1
          have h2 := hcells _ _ _ h1
          rw [h2]
          simp only [List.countP_cons, decide_True, Bool.and_self, if_true, Option.some.injEq]
          congr 1
          push_cast
          omega
        · have h1 := cellAt_updCell_other hg hij
          rw [hc] at h1
          have h2 := hcells _ _ _ h1
          rw [h2]
          have : (decide (x + d.1 = i) && decide (y + d.2 = j)) = false := by
            simp only [Bool.and_eq_false_imp, decide_eq_true_eq, decide_eq_false_iff_not]
            intro h3 h4; exact hij ⟨h3.symm, h4.symm⟩
          simp [List.countP_cons, this]
    · obtain ⟨b1, hb1, hwf1, heq, hcnt, hcells⟩ := ih b hwf
      refine ⟨b1, ?_, hwf1, heq, hcnt, ?_⟩
      · simp only [bumpNeighbors, hin]; exact hb1
      · intro i j c hc
        rw [hcells _ _ _ hc]
        have : (decide (x + d.1 = i) && decide (y + d.2 = j)) = false := by
          simp only [Bool.and_eq_false_imp, decide_eq_true_eq, decide_eq_false_iff_not]
          intro h3 h4
          apply hin
          rw [h3, h4]
          exact (within_iff_cellAt hwf _ _).2 ⟨c, hc⟩
        simp [List.countP_cons, this]

theorem cellAt_none_of_wellFormed {b b1 : board} (hwf : b.wellFormed) (hwf1 : b1.wellFormed)
    (hw : b1.width = b.width) (hh : b1.height = b.height) {x y : Int}
    (h : cellAt b.grid x y = none) : cellAt b1.grid x y = none := by
  cases h1 : cellAt b1.grid x y with
  | none => rfl
  | some c =>
    have h2 := (within_iff_cellAt hwf1 x y).2 ⟨c, h1⟩
    have h3 : b.withinBoarder x y = true := by
      simpa [board.withinBoarder, hw, hh] using h2
    obtain ⟨c0, hc0⟩ := (within_iff_cellAt hwf x y).1 h3
    rw [h] at hc0
    cases hc0

theorem placeMine_step {b : board} {x y : Int} {c : cell}
    (hwf : b.wellFormed) (hcons : b.consistent) (hunt : b.untouched)
    (hcnt : b.numMines = (countCells (fun c => c.isMine) b.grid : Int))
    (hc : cellAt b.grid x y = some c) (hm : c.isMine = false) :
    ∃ g b1, updCell b.grid x y (fun c => { c with isMine := true }) = some g ∧
      bumpNeighbors { b with grid := g, numMines := b.numMines + 1 } x y neighbors = some b1 ∧
      b1.wellFormed ∧ b1.consistent ∧ b1.untouched ∧
      b1.numMines = (countCells (fun c => c.isMine) b1.grid : Int) ∧
      b1.numMines = b.numMines + 1 ∧ b1.width = b.width ∧ b1.height = b.height ∧
      ∀ i j, isMineAt b1.grid i j =
        (isMineAt b.grid i j || (decide (i = x) && decide (j = y))) := by
  obtain ⟨g, hg⟩ := updCell_of_cellAt hc (fun c => { c with isMine := true })
  have hwfA : board.wellFormed { b with grid := g, numMines := b.numMines + 1 } :=
    wellFormed_setGrid hwf hg
  obtain ⟨b1, hb1, hwf1, heq, hcount, hcells⟩ := bumpNeighbors_spec x y neighbors _ hwfA
  have hw : b1.width = b.width := by rw [heq]
  have hh : b1.height = b.height := by rw [heq]
  have hnm : b1.numMines = b.numMines + 1 := by rw [heq]
  -- the cells of the new grid, from those of the old one
  have hcell : ∀ i j c0, cellAt b.grid i j = some c0 →
      ∃ c1, cellAt b1.grid i j = some c1 ∧ c1.revealed = c0.revealed ∧
        c1.flagged = c0.flagged ∧
        c1.isMine = (c0.isMine || (decide (i = x) && decide (j = y))) ∧
        c1.num = c0.num +
          (neighbors.countP (fun d => decide (x + d.1 = i) && decide (y + d.2 = j)) : Nat) := by
    intro i j c0 hc0
    by_cases hij : i = x ∧ j = y
    · obtain ⟨rfl, rfl⟩ := hij
      have h1 := cellAt_updCell_same hg
      rw [hc0] at h1
      refine ⟨_, hcells _ _ _ h1, rfl, rfl, ?_, rfl⟩
      simp
    · have h1 := cellAt_updCell_other hg hij
      rw [hc0] at h1
      refine ⟨_, hcells _ _ _ h1, rfl, rfl, ?_, rfl⟩
      have : (decide (i = x) && decide (j = y)) = false := by
        simp only [Bool.and_eq_false_imp, decide_eq_true_eq, decide_eq_false_iff_not]
        intro h3 h4; exact hij ⟨h3, h4⟩
      simp [this]
  have hmineAt : ∀ i j, isMineAt b1.grid i j =
      (isMineAt b.grid i j || (decide (i = x) && decide (j = y))) := by
    intro i j
    cases h0 : cellAt b.grid i j with
    | none =>
      have h1 := cellAt_none_of_wellFormed hwf hwf1 hw hh h0
      have : (decide (i = x) && decide (j = y)) = false := by
        simp only [Bool.and_eq_false_imp, decide_eq_true_eq, decide_eq_false_iff_not]
        intro h3 h4
        rw [h3, h4, hc] at h0
        cases h0
      simp [isMineAt, h0, h1, this]
    | some c0 =>
      obtain ⟨c1, h1, _, _, h2, _⟩ := hcell i j c0 h0
      simp [isMineAt, h0, h1, h2]
  have hxy : b.withinBoarder x y = true := (within_iff_cellAt hwf x y).2 ⟨c, hc⟩
  have hmn : ∀ i j, mineNeighbors b1 i j = mineNeighbors b i j +
      neighbors.countP (fun d => decide (i + d.1 = x) && decide (j + d.2 = y)) := by
    intro i j
    unfold mineNeighbors
    rw [← countP_or_disjoint]
    · apply List.countP_congr
      intro d _
      have hwb : b1.withinBoarder (i + d.1) (j + d.2) = b.withinBoarder (i + d.1) (j + d.2) := by
        simp [board.withinBoarder, hw, hh]
      rw [hwb, hmineAt]
      by_cases hd : i + d.1 = x ∧ j + d.2 = y
      · obtain ⟨h1, h2⟩ := hd
        simp [h1, h2, hxy]
      · have : (decide (i + d.1 = x) && decide (j + d.2 = y)) = false := by
          simp only [Bool.and_eq_false_imp, decide_eq_true_eq, decide_eq_false_iff_not]
          intro h3 h4; exact hd ⟨h3, h4⟩
        simp [this]
    · intro d _ hd
      obtain ⟨h1, h2⟩ := hd
      simp only [Bool.and_eq_true, decide_eq_true_eq] at h1 h2
      obtain ⟨h3, h4⟩ := h2
      rw [h3, h4] at h1
      have : isMineAt b.grid x y = false := by simp [isMineAt, hc, hm]
      rw [this] at h1
      exact absurd h1.2 (by simp)
  refine ⟨g, b1, hg, hb1, hwf1, ?_, ?_, ?_, hnm, hw, hh, hmineAt⟩
  · -- consistency
    intro i j c1 hc1
    cases h0 : cellAt b.grid i j with
    | none =>
      rw [cellAt_none_of_wellFormed hwf hwf1 hw hh h0] at hc1
      cases hc1
    | some c0 =>
      obtain ⟨c2, h1, _, _, _, h2⟩ := hcell i j c0 h0
      rw [hc1] at h1
      cases h1
      rw [h2, hcons i j c0 h0, hmn, countP_neighbors_symm]
      push_cast
      rfl
  · -- nothing revealed or flagged
    obtain ⟨hu1, hu2, hu3, hu4, hu5⟩ := hunt
    refine ⟨?_, ?_, ?_, ?_, ?_⟩
    · intro i j c1 hc1
      cases h0 : cellAt b.grid i j with
      | none =>
        rw [cellAt_none_of_wellFormed hwf hwf1 hw hh h0] at hc1
        cases hc1
      | some c0 =>
        obtain ⟨c2, h1, h2, h3, _, _⟩ := hcell i j c0 h0
        rw [hc1] at h1
        cases h1
        rw [h2, h3]
        exact hu1 i j c0 h0
    · rw [heq]; exact hu2
    · rw [heq]; exact hu3
    · rw [heq]; exact hu4
    · rw [heq]; exact hu5
  · -- the mine counter
    have h2 := hcount (fun c => c.isMine) (fun _ _ => rfl)
    rw [hnm, hcnt, h2]
    have h1 := countCells_updCell (fun c => c.isMine) hg hc
    simp only [hm] at h1
    show _ = ((countCells (fun c => c.isMine) g : Nat) : Int)
    simp at h1
    omega

theorem placeMines_spec (n : Int) (picks : List (Int × Int)) (b b1 : board)
    (hwf : b.wellFormed) (hcons : b.consistent) (hunt : b.untouched)
    (hcnt : b.numMines = (countCells (fun c => c.isMine) b.grid : Int))
    (hret : placeMines n b picks = some b1) :
    b1.wellFormed ∧ b1.consistent ∧ b1.untouched ∧
      b1.numMines = (countCells (fun c => c.isMine) b1.grid : Int) ∧
      (b.numMines ≤ n → b1.numMines = n) ∧ b1.width = b.width ∧ b1.height = b.height := by
  induction picks generalizing b with
  | nil =>
    by_cases hlt : b.numMines < n
    · simp [placeMines, hlt] at hret
    · simp only [placeMines, hlt, if_false, Option.some.injEq] at hret
      subst hret
      exact ⟨hwf, hcons, hunt, hcnt, fun _ => by omega, rfl, rfl⟩
  | cons p rest ih =>
    obtain ⟨x, y⟩ := p
    by_cases hlt : b.numMines < n
    · simp only [placeMines, hlt, if_true] at hret
      by_cases hdim : b.height ≤ 0 ∨ b.width ≤ 0
      · simp [hdim] at hret
      · simp only [hdim, if_false] at hret
        cases hc : cellAt b.grid x y with
        | none => simp [hc] at hret
        | some c =>
          simp only [hc] at hret
          cases hm : c.isMine with
          | true =>
            simp only [hm, Bool.not_true] at hret
            exact ih b hwf hcons hunt hcnt hret
          | false =>
            obtain ⟨g, b2, hg, hb2, hwf2, hcons2, hunt2, hcnt2, hnm2, hw2, hh2, _⟩ :=
              placeMine_step hwf hcons hunt hcnt hc hm
            simp only [hm, Bool.not_false, if_true, hg, hb2] at hret
            obtain ⟨h1, h2, h3, h4, h5, h6, h7⟩ :=
              ih b2 hwf2 hcons2 hunt2 hcnt2 hret
            exact ⟨h1, h2, h3, h4, fun _ => h5 (by omega), by rw [h6, hw2], by rw [h7, hh2]⟩
    · simp only [placeMines, hlt, if_false, Option.some.injEq] at hret
      subst hret
      exact ⟨hwf, hcons, hunt, hcnt, fun _ => by omega, rfl, rfl⟩

theorem cellAt_replicate {h w : Nat} {x y : Int} {c : cell}
    (hc : cellAt (List.replicate h (List.replicate w zeroCell)) x y = some c) :
    c = zeroCell := by
  obtain ⟨_, _, row, hr, hcc⟩ := (cellAt_eq_some_iff _ x y c).1 hc
  have h1 := List.getElem?_mem hr
  rw [List.mem_replicate] at h1
  rw [h1.2] at hcc
  have h2 := List.getElem?_mem hcc
  rw [List.mem_replicate] at h2
  exact h2.2

theorem makeBoard_spec (width height numMines : Int) (picks : List (Int × Int)) (b : board)
    (hret : makeBoard width height numMines picks = some b) :
    b.wellFormed ∧ b.consistent ∧ b.untouched ∧
      b.numMines = (countCells (fun c => c.isMine) b.grid : Int) ∧
      (0 ≤ numMines → b.numMines = numMines) ∧ b.width = width ∧ b.height = height := by
  unfold makeBoard at hret
  by_cases h1 : height < 0
  · simp [h1] at hret
  by_cases h2 : 0 < height ∧ width < 0
  · simp [h1, h2] at hret
  simp only [h1, h2, if_false] at hret
  refine placeMines_spec numMines picks _ b ?_ ?_ ?_ ?_ hret
  · refine ⟨by simp, ?_⟩
    intro row hrow
    rw [List.mem_replicate] at hrow
    simp [hrow.2]
  · intro x y c hc
    have hz := cellAt_replicate hc
    subst hz
    have : mineNeighbors
        { width := width, height := height, numMines := 0,
          grid := List.replicate height.toNat (List.replicate width.toNat zeroCell),
          numFlagged := 0, numRevealed := 0, active := true, started := none,
          gameDurationSeconds := 0 } x y = 0 := by
      unfold mineNeighbors
      rw [List.countP_eq_zero]
      intro d _
      cases h3 : cellAt (List.replicate height.toNat (List.replicate width.toNat zeroCell))
          (x + d.1) (y + d.2) with
      | none => simp [isMineAt, h3]
      | some c1 =>
        have := cellAt_replicate h3
        subst this
        simp only [isMineAt, h3]
        simp [zeroCell]
    rw [this]
    rfl
  · refine ⟨?_, rfl, rfl, rfl, rfl⟩
    intro x y c hc
    have hz := cellAt_replicate hc
    subst hz
    exact ⟨rfl, rfl⟩
  · show (0 : Int) = _
    have : countCells (fun c => c.isMine)
        (List.replicate height.toNat (List.replicate width.toNat zeroCell)) = 0 := by
      simp [countCells, List.countP_replicate, zeroCell]
    rw [this]
    rfl

theorem countCells_eq_gridSize {p : cell → Bool} {g : List (List cell)}
    (h : ∀ x y c, cellAt g x y = some c → p c = true) : countCells p g = gridSize g := by
  unfold countCells gridSize
  congr 1
  apply List.map_congr_left
  intro row hrow
  rw [List.countP_eq_length]
  intro c hc
  obtain ⟨i, hi⟩ := List.getElem?_of_mem hrow
  obtain ⟨j, hj⟩ := List.getElem?_of_mem hc
  exact h (i : Int) (j : Int) c
    ((cellAt_eq_some_iff g _ _ c).2
      ⟨by omega, by omega, row, by simpa using hi, by simpa using hj⟩)

theorem gridSize_of_wellFormed {b : board} (hwf : b.wellFormed) :
    gridSize b.grid = b.height.toNat * b.width.toNat := by
  obtain ⟨hl, hrows⟩ := hwf
  unfold gridSize
  rw [← hl]
  generalize b.grid = g at hrows
  induction g with
  | nil => simp
  | cons r rest ih =>
    have h1 := hrows r (List.mem_cons_self _ _)
    have h2 := ih (fun row hrow => hrows row (List.mem_cons_of_mem _ hrow))
    simp only [List.map_cons, List.sum_cons, List.length_cons, h1, h2]
    rw [Nat.succ_mul]
    omega

theorem mem_allCells {width height : Int} {p : Int × Int} :
    p ∈ allCells width height ↔ 0 ≤ p.1 ∧ p.1 < height ∧ 0 ≤ p.2 ∧ p.2 < width := by
  obtain ⟨i, j⟩ := p
  unfold allCells
  rw [List.mem_flatMap]
  constructor
  · rintro ⟨a, ha, hmem⟩
    rw [List.mem_map] at hmem
    obtain ⟨c, hc, heq⟩ := hmem
    rw [List.mem_range] at ha hc
    simp only [Prod.mk.injEq] at heq
    obtain ⟨h1, h2⟩ := heq
    subst h1 h2
    simp only [Int.ofNat_eq_coe]
    refine ⟨?_, ?_, ?_, ?_⟩ <;> omega
  · rintro ⟨h1, h2, h3, h4⟩
    refine ⟨i.toNat, List.mem_range.2 (by omega), ?_⟩
    rw [List.mem_map]
    refine ⟨j.toNat, List.mem_range.2 (by omega), ?_⟩
    simp only [Prod.mk.injEq, Int.ofNat_eq_coe]
    constructor <;> omega

/-- The placement loop finishes on every list of in-range picks that contains
all cells that are not mines yet, when fewer mines are asked for than there
are cells. -/
theorem placeMines_returns (n : Int) (picks : List (Int × Int)) (b : board)
    (hwf : b.wellFormed) (hcons : b.consistent) (hunt : b.untouched)
    (hcnt : b.numMines = (countCells (fun c => c.isMine) b.grid : Int))
    (hh : 0 < b.height) (hw : 0 < b.width)
    (hin : ∀ p ∈ picks, b.withinBoarder p.1 p.2 = true)
    (hcover : ∀ i j, b.withinBoarder i j = true → isMineAt b.grid i j = false →
      (i, j) ∈ picks)
    (hn : n ≤ (gridSize b.grid : Int)) :
    ∃ b1, placeMines n b picks = some b1 := by
  induction picks generalizing b with
  | nil =>
    by_cases hlt : b.numMines < n
    · exfalso
      have hall : ∀ x y c, cellAt b.grid x y = some c → c.isMine = true := by
        intro x y c hc
        cases hm : c.isMine with
        | true => rfl
        | false =>
          have := hcover x y ((within_iff_cellAt hwf x y).2 ⟨c, hc⟩)
            (by simp [isMineAt, hc, hm])
          cases this
      have h1 : countCells (fun c => c.isMine) b.grid = gridSize b.grid :=
        countCells_eq_gridSize hall
      omega
    · exact ⟨b, by simp [placeMines, hlt]⟩
  | cons p rest ih =>
    obtain ⟨x, y⟩ := p
    by_cases hlt : b.numMines < n
    · have hdim : ¬ (b.height ≤ 0 ∨ b.width ≤ 0) := by omega
      have hxy := hin (x, y) (List.mem_cons_self _ _)
      obtain ⟨c, hc⟩ := (within_iff_cellAt hwf x y).1 hxy
      cases hm : c.isMine with
      | true =>
        have hcov2 : ∀ i j, b.withinBoarder i j = true → isMineAt b.grid i j = false →
            (i, j) ∈ rest := by
          intro i j h1 h2
          rcases List.mem_cons.1 (hcover i j h1 h2) with h3 | h3
          · simp only [Prod.mk.injEq] at h3
            obtain ⟨rfl, rfl⟩ := h3
            simp [isMineAt, hc, hm] at h2
          · exact h3
        obtain ⟨b1, hb1⟩ := ih b hwf hcons hunt hcnt hh hw
          (fun q hq => hin q (List.mem_cons_of_mem _ hq)) hcov2 hn
        exact ⟨b1, by simp only [placeMines, hlt, hdim, hc, hm, if_true, if_false,
          Bool.not_true, Bool.false_eq_true]; exact hb1⟩
      | false =>
        obtain ⟨g, b2, hg, hb2, hwf2, hcons2, hunt2, hcnt2, _, hw2, hh2, hmine2⟩ :=
          placeMine_step hwf hcons hunt hcnt hc hm
        have hwb : ∀ i j, b2.withinBoarder i j = b.withinBoarder i j := by
          intro i j; simp [board.withinBoarder, hw2, hh2]
        have hcov2 : ∀ i j, b2.withinBoarder i j = true → isMineAt b2.grid i j = false →
            (i, j) ∈ rest := by
          intro i j h1 h2
          rw [hmine2] at h2
          simp only [Bool.or_eq_false_iff, Bool.and_eq_false_imp, decide_eq_true_eq,
            decide_eq_false_iff_not] at h2
          rcases List.mem_cons.1 (hcover i j (by rw [← hwb]; exact h1) h2.1) with h3 | h3
          · simp only [Prod.mk.injEq] at h3
            exact absurd h3.2 (h2.2 h3.1)
          · exact h3
        have hgs : gridSize b2.grid = gridSize b.grid := by
          rw [gridSize_of_wellFormed hwf2, gridSize_of_wellFormed hwf, hw2, hh2]
        obtain ⟨b1, hb1⟩ := ih b2 hwf2 hcons2 hunt2 hcnt2 (by rw [hh2]; exact hh)
          (by rw [hw2]; exact hw)
          (fun q hq => by rw [hwb]; exact hin q (List.mem_cons_of_mem _ hq)) hcov2
          (by rw [hgs]; exact hn)
        exact ⟨b1, by simp only [placeMines, hlt, hdim, hc, hm, hg, hb2, if_true, if_false,
          Bool.not_false]; exact hb1⟩
    · exact ⟨b, by simp [placeMines, hlt]⟩

/-- For all valid parameters there are in-range random picks on which
`makeBoard` returns: every cell once, row by row. -/
theorem makeBoard_returns (width height numMines : Int) (hw : 0 < width) (hh : 0 < height)
    (hn : numMines < width * height) :
    (∀ p ∈ allCells width height, 0 ≤ p.1 ∧ p.1 < height ∧ 0 ≤ p.2 ∧ p.2 < width) ∧
      ∃ b, makeBoard width height numMines (allCells width height) = some b := by
  refine ⟨fun p hp => mem_allCells.1 hp, ?_⟩
  have h1 : ¬ height < 0 := by omega
  have h2 : ¬ (0 < height ∧ width < 0) := by omega
  simp only [makeBoard, h1, h2, if_false]
  have hwf0 : board.wellFormed
      { width := width, height := height, numMines := 0,
        grid := List.replicate height.toNat (List.replicate width.toNat zeroCell),
        numFlagged := 0, numRevealed := 0, active := true, started := none,
        gameDurationSeconds := 0 } := by
    refine ⟨by simp, ?_⟩
    intro row hrow
    rw [List.mem_replicate] at hrow
    simp [hrow.2]
  have hm0 : ∀ i j, isMineAt
      (List.replicate height.toNat (List.replicate width.toNat zeroCell)) i j = false := by
    intro i j
    cases h3 : cellAt (List.replicate height.toNat (List.replicate width.toNat zeroCell))
        i j with
    | none => simp [isMineAt, h3]
    | some c1 =>
      have := cellAt_replicate h3
      subst this
      simp only [isMineAt, h3]
      simp [zeroCell]
  refine placeMines_returns numMines (allCells width height) _ hwf0 ?_ ?_ ?_ hh hw ?_ ?_ ?_
  · intro x y c hc
    have hz := cellAt_replicate hc
    subst hz
    have : mineNeighbors
        { width := width, height := height, numMines := 0,
          grid := List.replicate height.toNat (List.replicate width.toNat zeroCell),
          numFlagged := 0, numRevealed := 0, active := true, started := none,
          gameDurationSeconds := 0 } x y = 0 := by
      unfold mineNeighbors
      rw [List.countP_eq_zero]
      intro d _
      simp [hm0]
    rw [this]
    rfl
  · refine ⟨?_, rfl, rfl, rfl, rfl⟩
    intro x y c hc
    have hz := cellAt_replicate hc
    subst hz
    exact ⟨rfl, rfl⟩
  · show (0 : Int) = _
    have : countCells (fun c => c.isMine)
        (List.replicate height.toNat (List.replicate width.toNat zeroCell)) = 0 := by
      simp [countCells, List.countP_replicate, zeroCell]
    rw [this]
    rfl
  · intro p hp
    have := mem_allCells.1 hp
    simp [board.withinBoarder]
    omega
  · intro i j hin _
    simp [board.withinBoarder] at hin
    exact mem_allCells.2 (by omega)
  · rw [gridSize_of_wellFormed hwf0]
    show numMines ≤ ((height.toNat * width.toNat : Nat) : Int)
    push_cast
    rw [Int.toNat_of_nonneg (le_of_lt hh), Int.toNat_of_nonneg (le_of_lt hw)]
    have := Int.mul_comm width height
    omega

/-! ## The effect of the flood-fill and the invariant of the public calls -/

theorem revealsFrom_refl {m : Prop} {b : board} (hwf : b.wellFormed) : revealsFrom m b b := by
  refine ⟨rfl, hwf, rfl, le_refl _, rfl, rfl, fun _ _ => rfl, ?_⟩
  intro i j c hc
  exact ⟨c, hc, rfl, id, fun h1 h2 => by rw [h1] at h2; cases h2⟩

theorem revealsFrom_trans {m : Prop} {b b1 b2 : board} (h1 : revealsFrom m b b1)
    (h2 : revealsFrom m b1 b2) : revealsFrom m b b2 := by
  obtain ⟨e1, _, s1, l1, n1, r1, p1, c1⟩ := h1
  obtain ⟨e2, w2, s2, l2, n2, r2, p2, c2⟩ := h2
  refine ⟨?_, w2, by omega, by omega, by omega, by omega, ?_, ?_⟩
  · rw [e2, e1]
  · intro p hp
    rw [p2 p hp, p1 p hp]
  · intro i j c hc
    obtain ⟨ca, hca, ea, ma, oa⟩ := c1 i j c hc
    obtain ⟨cb, hcb, eb, mb, ob⟩ := c2 i j ca hca
    refine ⟨cb, hcb, ?_, fun h => mb (ma h), ?_⟩
    · rw [eb, ea]
    · intro hr hn
      cases hra : ca.revealed with
      | true => exact oa hra hn
      | false =>
        have := ob hr hra
        rw [ea] at this
        exact this

theorem revealsFrom_step (m : Prop) {b : board} {x y : Int} {c : cell} {g : List (List cell)}
    (hwf : b.wellFormed) (hc : cellAt b.grid x y = some c)
    (hr : c.revealed = false) (hf : c.flagged = false) (hm : c.isMine = true → m)
    (hg : updCell b.grid x y (fun c => { c with revealed := true }) = some g) :
    revealsFrom m b { b with grid := g, numRevealed := b.numRevealed + 1 } ∧
      countCells (fun c => !c.revealed) g + 1 = countCells (fun c => !c.revealed) b.grid := by
  have hU := countCells_updCell (fun c => !c.revealed) hg hc
  have hR := countCells_updCell (fun c => c.revealed) hg hc
  simp only [hr] at hU hR
  simp at hU hR
  refine ⟨⟨rfl, wellFormed_setGrid hwf hg, gridSize_updCell hg, ?_, ?_, ?_, ?_, ?_⟩, by omega⟩
  · show countCells (fun c => !c.revealed) g ≤ _
    omega
  · show b.numRevealed + 1 + ((countCells (fun c => !c.revealed) g : Nat) : Int) = _
    omega
  · show b.numRevealed + 1 - ((countCells (fun c => c.revealed) g : Nat) : Int) = _
    omega
  · intro p hp
    have h1 := countCells_updCell p hg hc
    have h3 := hp c true
    simp only [h3] at h1
    show countCells p g = _
    omega
  · intro i j c0 hc0
    by_cases hij : i = x ∧ j = y
    · obtain ⟨rfl, rfl⟩ := hij
      rw [hc] at hc0
      cases hc0
      have h1 := cellAt_updCell_same hg
      rw [hc] at h1
      exact ⟨_, h1, rfl, fun _ => rfl, fun _ _ => ⟨hf, hm⟩⟩
    · have h1 := cellAt_updCell_other hg hij
      rw [hc0] at h1
      exact ⟨c0, h1, rfl, id, fun h1 h2 => by rw [h1] at h2; cases h2⟩

theorem visitNeighbors_total (visit : board → Int → Int → Option board) (fuel : Nat)
    (x y : Int)
    (hv : ∀ b2 x2 y2, b2.wellFormed → b2.withinBoarder x2 y2 = true →
      countCells (fun c => !c.revealed) b2.grid < fuel →
      ∃ b3, visit b2 x2 y2 = some b3 ∧ revealsFrom False b2 b3)
    (ds : List (Int × Int)) (b : board) (hwf : b.wellFormed)
    (hlt : countCells (fun c => !c.revealed) b.grid < fuel) :
    ∃ b1, visitNeighbors visit x y b ds = some b1 ∧ revealsFrom False b b1 := by
  induction ds generalizing b with
  | nil => exact ⟨b, rfl, revealsFrom_refl hwf⟩
  | cons d ds ih =>
    by_cases hin : b.withinBoarder (x + d.1) (y + d.2) = true
    · obtain ⟨b3, hb3, hr3⟩ := hv b _ _ hwf hin hlt
      have hlt3 : countCells (fun c => !c.revealed) b3.grid < fuel :=
        lt_of_le_of_lt hr3.2.2.2.1 hlt
      obtain ⟨b1, hb1, hr1⟩ := ih b3 hr3.2.1 hlt3
      refine ⟨b1, ?_, revealsFrom_trans hr3 hr1⟩
      simp only [visitNeighbors, hin, if_true, hb3]
      exact hb1
    · obtain ⟨b1, hb1, hr1⟩ := ih b hwf hlt
      refine ⟨b1, ?_, hr1⟩
      simp only [visitNeighbors, hin]
      exact hb1

theorem exploreAux_total (nbrs : List (Int × Int)) (fuel : Nat) (b : board) (x y : Int)
    (hwf : b.wellFormed) (hin : b.withinBoarder x y = true)
    (hlt : countCells (fun c => !c.revealed) b.grid < fuel) :
    ∃ b1, exploreAux nbrs fuel b x y = some b1 ∧ revealsFrom False b b1 := by
  induction fuel generalizing b x y with
  | zero => omega
  | succ fuel ih =>
    obtain ⟨c, hc⟩ := (within_iff_cellAt hwf x y).1 hin
    by_cases hclosed : (c.revealed || c.flagged || c.isMine) = true
    · refine ⟨b, ?_, revealsFrom_refl hwf⟩
      simp only [exploreAux, hc, hclosed, if_true]
    · have hr : c.revealed = false := by
        cases h : c.revealed <;> simp [h] at hclosed ⊢
      have hf : c.flagged = false := by
        cases h : c.flagged <;> simp [h] at hclosed ⊢
      have hm : c.isMine = false := by
        cases h : c.isMine <;> simp [h] at hclosed ⊢
      by_cases hnum : c.num ≥ 0
      · obtain ⟨g, hg⟩ := updCell_of_cellAt hc (fun c => { c with revealed := true })
        obtain ⟨hstep, hcount⟩ :=
          revealsFrom_step False hwf hc hr hf (by simp [hm]) hg
        by_cases hz : c.num = 0
        · have hlt2 : countCells (fun c => !c.revealed)
              ({ b with grid := g, numRevealed := b.numRevealed + 1 } : board).grid < fuel := by
            show countCells (fun c => !c.revealed) g < fuel
            omega
          obtain ⟨b1, hb1, hr1⟩ := visitNeighbors_total (exploreAux nbrs fuel) fuel x y
            (fun b2 x2 y2 h1 h2 h3 => ih b2 x2 y2 h1 h2 h3) nbrs _ hstep.2.1 hlt2
          refine ⟨b1, ?_, revealsFrom_trans hstep hr1⟩
          simp only [exploreAux, hc, hr, hf, hm, hnum, hg, hz, if_true, Bool.or_self,
            Bool.false_eq_true, if_false]
          exact hb1
        · refine ⟨_, ?_, hstep⟩
          simp only [exploreAux, hc, hr, hf, hm, hnum, hg, hz, if_true, Bool.or_self,
            Bool.false_eq_true, if_false]
      · refine ⟨b, ?_, revealsFrom_refl hwf⟩
        have hz : ¬ c.num = 0 := by omega
        simp only [exploreAux, hc, hr, hf, hm, hnum, hz, Bool.or_self,
          Bool.false_eq_true, if_false]

theorem countCells_le_gridSize (p : cell → Bool) (g : List (List cell)) :
    countCells p g ≤ gridSize g := by
  induction g with
  | nil => simp [countCells, gridSize]
  | cons row rest ih =>
    have h1 : List.countP p row ≤ row.length := List.countP_le_length p
    simp only [countCells, gridSize, List.map_cons, List.sum_cons] at ih ⊢
    omega

theorem cellAt_of_mem {g : List (List cell)} {row : List cell} {c : cell}
    (hrow : row ∈ g) (hc : c ∈ row) : ∃ x y, cellAt g x y = some c := by
  obtain ⟨i, hi⟩ := List.getElem?_of_mem hrow
  obtain ⟨j, hj⟩ := List.getElem?_of_mem hc
  refine ⟨(i : Int), (j : Int), ?_⟩
  exact (cellAt_eq_some_iff g _ _ c).2 ⟨by omega, by omega, row, by simpa using hi, by simpa using hj⟩

theorem countCells_eq_zero {p : cell → Bool} {g : List (List cell)}
    (h : ∀ x y c, cellAt g x y = some c → p c = false) : countCells p g = 0 := by
  unfold countCells
  rw [List.sum_eq_zero_iff]
  intro n hn
  rw [List.mem_map] at hn
  obtain ⟨row, hrow, rfl⟩ := hn
  rw [List.countP_eq_zero]
  intro c hc
  obtain ⟨x, y, hxy⟩ := cellAt_of_mem hrow hc
  simp [h x y c hxy]

theorem explore_total (b : board) (x y : Int) (hwf : b.wellFormed)
    (hin : b.withinBoarder x y = true) :
    ∃ b1, b.explore x y = some b1 ∧ revealsFrom False b b1 := by
  have h := countCells_le_gridSize (fun c => !c.revealed) b.grid
  exact exploreAux_total neighbors (gridSize b.grid + 1) b x y hwf hin (by omega)

theorem explore_closed (b : board) (x y : Int) (c : cell) (hc : cellAt b.grid x y = some c)
    (h : (c.revealed || c.flagged || c.isMine) = true) : b.explore x y = some b := by
  simp only [board.explore, exploreAux, hc, h, if_true]

theorem revealsFrom_cellAt_none {m : Prop} {b b1 : board} (hwf : b.wellFormed)
    (h : revealsFrom m b b1) {x y : Int} (hn : cellAt b.grid x y = none) :
    cellAt b1.grid x y = none := by
  obtain ⟨e, w1, _⟩ := h
  exact cellAt_none_of_wellFormed hwf w1 (by rw [e]) (by rw [e]) hn

theorem revealsFrom_within {m : Prop} {b b1 : board} (h : revealsFrom m b b1) (x y : Int) :
    b1.withinBoarder x y = b.withinBoarder x y := by
  obtain ⟨e, _⟩ := h
  have hw : b1.width = b.width := by rw [e]
  have hh : b1.height = b.height := by rw [e]
  simp [board.withinBoarder, hw, hh]

theorem revealsFrom_isMineAt {m : Prop} {b b1 : board} (hwf : b.wellFormed)
    (h : revealsFrom m b b1) (x y : Int) : isMineAt b1.grid x y = isMineAt b.grid x y := by
  cases h0 : cellAt b.grid x y with
  | none => simp [isMineAt, h0, revealsFrom_cellAt_none hwf h h0]
  | some c =>
    obtain ⟨c1, h1, h2, _⟩ := h.2.2.2.2.2.2.2 x y c h0
    simp only [isMineAt, h0, h1]
    rw [h2]

theorem revealsFrom_mineNeighbors {m : Prop} {b b1 : board} (hwf : b.wellFormed)
    (h : revealsFrom m b b1) (x y : Int) : mineNeighbors b1 x y = mineNeighbors b x y := by
  unfold mineNeighbors
  apply List.countP_congr
  intro d _
  rw [revealsFrom_within h, revealsFrom_isMineAt hwf h]

/-- Revealing cells keeps the invariant, once the clock has started. -/
theorem inv_of_revealsFrom {m : Prop} {b b1 : board} (hinv : b.inv)
    (h : revealsFrom m b b1) (hs : b.started ≠ none) : b1.inv := by
  obtain ⟨hwf, hcons, hmines, hrev, hflag, hex, _⟩ := hinv
  have h0 := h
  obtain ⟨e, w1, _, _, _, r1, p1, c1⟩ := h
  have hnm : b1.numMines = b.numMines := by rw [e]
  have hnf : b1.numFlagged = b.numFlagged := by rw [e]
  have hst : b1.started = b.started := by rw [e]
  refine ⟨w1, ?_, ?_, ?_, ?_, ?_, ?_⟩
  · intro x y c1x hc1
    cases hb : cellAt b.grid x y with
    | none =>
      rw [revealsFrom_cellAt_none hwf h0 hb] at hc1
      cases hc1
    | some c =>
      obtain ⟨c2, h1, h2, _⟩ := c1 x y c hb
      rw [hc1] at h1
      cases h1
      rw [revealsFrom_mineNeighbors hwf h0, ← hcons x y c hb, h2]
  · rw [hnm, hmines, p1 (fun c => c.isMine) (fun _ _ => rfl)]
  · omega
  · rw [hnf, hflag, p1 (fun c => c.flagged) (fun _ _ => rfl)]
  · intro x y c1x hc1 hboth
    cases hb : cellAt b.grid x y with
    | none =>
      rw [revealsFrom_cellAt_none hwf h0 hb] at hc1
      cases hc1
    | some c =>
      obtain ⟨c2, h1, h2, h3, h4⟩ := c1 x y c hb
      rw [hc1] at h1
      cases h1
      have hf : c.flagged = true := by
        have := hboth.2
        rw [h2] at this
        exact this
      cases hr : c.revealed with
      | true => exact hex x y c hb ⟨hr, hf⟩
      | false =>
        have := (h4 hboth.1 hr).1
        rw [hf] at this
        cases this
  · intro hnone
    rw [hst] at hnone
    exact absurd hnone hs


theorem startClock_started (b : board) (t₁ : Nat) : (b.startClock t₁).started ≠ none := by
  unfold board.startClock
  cases h : b.started <;> simp [h]

theorem startClock_eq (b : board) (t₁ : Nat) :
    b.startClock t₁ = { b with started := (b.startClock t₁).started } := by
  unfold board.startClock
  cases h : b.started with
  | none => simp
  | some s =>
    simp only [Option.isNone_some, Bool.false_eq_true, if_false]

theorem startClock_of_started {b : board} (h : b.started ≠ none) (t₁ : Nat) :
    b.startClock t₁ = b := by
  unfold board.startClock
  cases h1 : b.started with
  | none => exact absurd h1 h
  | some s => simp

theorem checkWin_eq (b : board) (t₂ : Nat) :
    b.checkWin t₂ = { b with gameDurationSeconds := (b.checkWin t₂).gameDurationSeconds,
                             active := (b.checkWin t₂).active } := by
  unfold board.checkWin
  cases h : b.isWin <;> simp

theorem inv_congr {b b1 : board} (hinv : b.inv) (hg : b1.grid = b.grid)
    (hw : b1.width = b.width) (hh : b1.height = b.height)
    (hm : b1.numMines = b.numMines) (hr : b1.numRevealed = b.numRevealed)
    (hf : b1.numFlagged = b.numFlagged) (hs : b1.started = none → b.started = none) :
    b1.inv := by
  simp only [board.inv, board.wellFormed, board.consistent, mineNeighbors,
    board.withinBoarder, hg, hw, hh, hm, hr, hf] at hinv ⊢
  obtain ⟨h1, h2, h3, h4, h5, h6, h7⟩ := hinv
  exact ⟨h1, h2, h3, h4, h5, h6, fun h => h7 (hs h)⟩

theorem inv_startClock {b : board} (hinv : b.inv) (t₁ : Nat) : (b.startClock t₁).inv := by
  refine inv_congr hinv ?_ ?_ ?_ ?_ ?_ ?_ ?_
  all_goals first
    | (rw [startClock_eq]; done)
    | (intro h; exact absurd h (startClock_started b t₁))

theorem inv_checkWin {b : board} (hinv : b.inv) (t₂ : Nat) : (b.checkWin t₂).inv := by
  refine inv_congr hinv ?_ ?_ ?_ ?_ ?_ ?_ ?_
  all_goals first
    | (rw [checkWin_eq]; done)
    | (rw [checkWin_eq]; exact id)

theorem updateOnReveal_cases (b : board) (x y : Int) (t₁ t₂ : Nat) (hwf : b.wellFormed) :
    ((b.withinBoarder x y = false ∨ b.active = false) ∧
        b.updateOnReveal x y t₁ t₂ = some b) ∨
      (b.withinBoarder x y = true ∧ b.active = true ∧ ∃ c, cellAt b.grid x y = some c ∧
        (((c.revealed = true ∨ c.flagged = true) ∧
            b.updateOnReveal x y t₁ t₂ = some (b.startClock t₁)) ∨
          (c.revealed = false ∧ c.flagged = false ∧ c.isMine = true ∧
            ∃ g, updCell (b.startClock t₁).grid x y (fun c => { c with revealed := true })
                = some g ∧
              b.updateOnReveal x y t₁ t₂ = some (board.checkWin
                { b.startClock t₁ with
                  grid := g, numRevealed := (b.startClock t₁).numRevealed + 1,
                  gameDurationSeconds :=
                    board.secondsElapsed
                      { b.startClock t₁ with
                        grid := g, numRevealed := (b.startClock t₁).numRevealed + 1 } t₂,
                  active := false } t₂)) ∨
          (c.revealed = false ∧ c.flagged = false ∧ c.isMine = false ∧
            ∃ b3, (b.startClock t₁).explore x y = some b3 ∧
              revealsFrom False (b.startClock t₁) b3 ∧
              b.updateOnReveal x y t₁ t₂ = some (b3.checkWin t₂)))) := by
  by_cases hin : b.withinBoarder x y = true
  swap
  · left
    have hin2 : b.withinBoarder x y = false := by simpa using hin
    exact ⟨Or.inl hin2, by simp [board.updateOnReveal, hin2]⟩
  by_cases hact : b.active = true
  swap
  · left
    have hact2 : b.active = false := by simpa using hact
    exact ⟨Or.inr hact2, by simp [board.updateOnReveal, hact2]⟩
  right
  obtain ⟨c, hc⟩ := (within_iff_cellAt hwf x y).1 hin
  have hg0 : (b.startClock t₁).grid = b.grid := by rw [startClock_eq]
  have hwf0 : (b.startClock t₁).wellFormed := by
    have h1 : (b.startClock t₁).width = b.width := by rw [startClock_eq]
    have h2 : (b.startClock t₁).height = b.height := by rw [startClock_eq]
    simpa [board.wellFormed, hg0, h1, h2] using hwf
  have hin0 : (b.startClock t₁).withinBoarder x y = true := by
    have h1 : (b.startClock t₁).width = b.width := by rw [startClock_eq]
    have h2 : (b.startClock t₁).height = b.height := by rw [startClock_eq]
    simpa [board.withinBoarder, h1, h2] using hin
  have hc0 : cellAt (b.startClock t₁).grid x y = some c := by rw [hg0]; exact hc
  refine ⟨hin, hact, c, hc, ?_⟩
  by_cases hrf : (c.revealed || c.flagged) = true
  · left
    refine ⟨by simpa using hrf, ?_⟩
    simp only [board.updateOnReveal, hin, hact, hc0, hrf, Bool.not_true, Bool.or_self,
      Bool.false_eq_true, if_false, if_true]
  · have hr : c.revealed = false := by
      cases h : c.revealed <;> simp [h] at hrf ⊢
    have hf : c.flagged = false := by
      cases h : c.flagged <;> simp [h] at hrf ⊢
    right
    cases hm : c.isMine with
    | true =>
      left
      obtain ⟨g, hg⟩ := updCell_of_cellAt hc0 (fun c => { c with revealed := true })
      refine ⟨hr, hf, rfl, g, hg, ?_⟩
      have h1 := cellAt_updCell_same hg
      rw [hc0] at h1
      have hex := explore_closed
        { b.startClock t₁ with
          grid := g, numRevealed := (b.startClock t₁).numRevealed + 1,
          gameDurationSeconds :=
            board.secondsElapsed
              { b.startClock t₁ with
                grid := g, numRevealed := (b.startClock t₁).numRevealed + 1 } t₂,
          active := false } x y _ h1 (by simp)
      simp only [board.updateOnReveal, hin, hact, hc0, hr, hf, hm, hg, hex, Bool.not_true,
        Bool.or_self, Bool.false_eq_true, if_false, if_true]
    | false =>
      right
      obtain ⟨b3, hb3, hr3⟩ := explore_total (b.startClock t₁) x y hwf0 hin0
      refine ⟨hr, hf, rfl, b3, hb3, hr3, ?_⟩
      simp only [board.updateOnReveal, hin, hact, hc0, hr, hf, hm, hb3, Bool.not_true,
        Bool.or_self, Bool.false_eq_true, if_false]

theorem updateOnFlag_cell (b : board) (x y : Int) (t₁ t₂ : Nat) (c : cell)
    (hin : b.withinBoarder x y = true) (hc : cellAt b.grid x y = some c) :
    ((c.revealed = true ∨ b.active = false) ∧ b.updateOnFlag x y t₁ t₂ = some b) ∨
      (c.revealed = false ∧ b.active = true ∧
        ∃ g, updCell (b.startClock t₁).grid x y
            (fun c0 => { c0 with flagged := !c.flagged }) = some g ∧
          b.updateOnFlag x y t₁ t₂ = some (board.checkWin
            { b.startClock t₁ with
              grid := g,
              numFlagged := (b.startClock t₁).numFlagged +
                (if c.flagged then -1 else 1) } t₂)) := by
  have hg0 : (b.startClock t₁).grid = b.grid := by rw [startClock_eq]
  have hc0 : cellAt (b.startClock t₁).grid x y = some c := by rw [hg0]; exact hc
  by_cases hra : (c.revealed || !b.active) = true
  · left
    refine ⟨by simpa using hra, ?_⟩
    simp only [board.updateOnFlag, hin, hc, hra, Bool.not_true, Bool.false_eq_true,
      if_false, if_true]
  · have hr : c.revealed = false := by
      cases h : c.revealed <;> simp [h] at hra ⊢
    have hact : b.active = true := by
      cases h : b.active <;> simp [h] at hra ⊢
    right
    refine ⟨hr, hact, ?_⟩
    cases hf : c.flagged with
    | false =>
      obtain ⟨g, hg⟩ := updCell_of_cellAt hc0 (fun c0 => { c0 with flagged := true })
      refine ⟨g, hg, ?_⟩
      simp only [board.updateOnFlag, hin, hc, hr, hact, hf, hg, Bool.not_true, Bool.not_false,
        Bool.or_self, Bool.false_eq_true, if_false, if_true]
    | true =>
      obtain ⟨g, hg⟩ := updCell_of_cellAt hc0 (fun c0 => { c0 with flagged := false })
      refine ⟨g, hg, ?_⟩
      simp only [board.updateOnFlag, hin, hc, hr, hact, hf, hg, Bool.not_true,
        Bool.or_self, Bool.false_eq_true, if_false, if_true]
      rfl

theorem updateOnFlag_cases (b : board) (x y : Int) (t₁ t₂ : Nat) (hwf : b.wellFormed) :
    (b.withinBoarder x y = false ∧ b.updateOnFlag x y t₁ t₂ = some b) ∨
      (b.withinBoarder x y = true ∧ ∃ c, cellAt b.grid x y = some c ∧
        (((c.revealed = true ∨ b.active = false) ∧ b.updateOnFlag x y t₁ t₂ = some b) ∨
          (c.revealed = false ∧ b.active = true ∧
            ∃ g, updCell (b.startClock t₁).grid x y
                (fun c0 => { c0 with flagged := !c.flagged }) = some g ∧
              b.updateOnFlag x y t₁ t₂ = some (board.checkWin
                { b.startClock t₁ with
                  grid := g,
                  numFlagged := (b.startClock t₁).numFlagged +
                    (if c.flagged then -1 else 1) } t₂)))) := by
  by_cases hin : b.withinBoarder x y = true
  · obtain ⟨c, hc⟩ := (within_iff_cellAt hwf x y).1 hin
    exact Or.inr ⟨hin, c, hc, updateOnFlag_cell b x y t₁ t₂ c hin hc⟩
  · have hin2 : b.withinBoarder x y = false := by simpa using hin
    exact Or.inl ⟨hin2, by simp [board.updateOnFlag, hin2]⟩

theorem isMineAt_updCell {g g1 : List (List cell)} {x y : Int} {f : cell → cell}
    (hg : updCell g x y f = some g1) (hf : ∀ c, (f c).isMine = c.isMine) (i j : Int) :
    isMineAt g1 i j = isMineAt g i j := by
  by_cases hij : i = x ∧ j = y
  · obtain ⟨rfl, rfl⟩ := hij
    have h1 := cellAt_updCell_same hg
    unfold isMineAt
    rw [h1]
    cases h2 : cellAt g i j <;> simp [hf]
  · unfold isMineAt
    rw [cellAt_updCell_other hg hij]

/-- Toggling the flag of an unrevealed cell keeps the invariant, once the clock
has started. -/
theorem inv_flag {b : board} {x y : Int} {c : cell} {g : List (List cell)}
    (hinv : b.inv) (hs : b.started ≠ none) (hc : cellAt b.grid x y = some c)
    (hr : c.revealed = false)
    (hg : updCell b.grid x y (fun c0 => { c0 with flagged := !c.flagged }) = some g) :
    board.inv { b with grid := g,
                       numFlagged := b.numFlagged + (if c.flagged then -1 else 1) } := by
  obtain ⟨hwf, hcons, hmines, hrev, hflag, hex, _⟩ := hinv
  have hwf1 := wellFormed_setGrid hwf hg
  have hcell : ∀ i j c1, cellAt g i j = some c1 →
      ∃ c0, cellAt b.grid i j = some c0 ∧ c1.num = c0.num ∧ c1.isMine = c0.isMine ∧
        c1.revealed = c0.revealed ∧ (c1.flagged = true → c0.revealed = false) := by
    intro i j c1 hc1
    by_cases hij : i = x ∧ j = y
    · obtain ⟨rfl, rfl⟩ := hij
      have h1 := cellAt_updCell_same hg
      rw [hc, hc1] at h1
      simp only [Option.map_some', Option.some.injEq] at h1
      subst h1
      exact ⟨c, hc, rfl, rfl, rfl, fun _ => hr⟩
    · have h1 := cellAt_updCell_other hg hij
      rw [hc1] at h1
      refine ⟨c1, h1.symm, rfl, rfl, rfl, ?_⟩
      intro hfl
      cases hrv : c1.revealed with
      | false => rfl
      | true => exact absurd ⟨hrv, hfl⟩ (hex i j c1 h1.symm)
  refine ⟨hwf1, ?_, ?_, ?_, ?_, ?_, ?_⟩
  · intro i j c1 hc1
    obtain ⟨c0, h0, hn, _⟩ := hcell i j c1 hc1
    rw [hn, hcons i j c0 h0]
    congr 1
    unfold mineNeighbors
    apply List.countP_congr
    intro d _
    have : isMineAt g (i + d.1) (j + d.2) = isMineAt b.grid (i + d.1) (j + d.2) :=
      isMineAt_updCell hg (fun _ => rfl) _ _
    simp only [board.withinBoarder, this]
  · have h1 := countCells_updCell (fun c => c.isMine) hg hc
    show b.numMines = ((countCells (fun c => c.isMine) g : Nat) : Int)
    rw [hmines]
    simp only at h1
    omega
  · have h1 := countCells_updCell (fun c => c.revealed) hg hc
    show b.numRevealed = ((countCells (fun c => c.revealed) g : Nat) : Int)
    rw [hrev]
    simp only at h1
    omega
  · have h1 := countCells_updCell (fun c => c.flagged) hg hc
    show b.numFlagged + (if c.flagged then -1 else 1) =
      ((countCells (fun c => c.flagged) g : Nat) : Int)
    rw [hflag]
    cases hf : c.flagged <;> simp [hf] at h1 ⊢ <;> omega
  · intro i j c1 hc1 hboth
    obtain ⟨c0, _, _, _, h3, h4⟩ := hcell i j c1 hc1
    have := h4 hboth.2
    rw [← h3, hboth.1] at this
    cases this
  · intro hnone
    exact absurd hnone hs


theorem inv_updateOnReveal {b : board} (hinv : b.inv) (x y : Int) (t₁ t₂ : Nat) :
    ∃ b1, b.updateOnReveal x y t₁ t₂ = some b1 ∧ b1.inv := by
  have hinv0 := inv_startClock hinv t₁
  rcases updateOnReveal_cases b x y t₁ t₂ hinv.1 with
    ⟨_, h⟩ | ⟨_, _, c, hc, ⟨_, h⟩ | ⟨hr, hf, _, g, hg, h⟩ | ⟨_, _, _, b3, _, hr3, h⟩⟩
  · exact ⟨_, h, hinv⟩
  · exact ⟨_, h, hinv0⟩
  · refine ⟨_, h, inv_checkWin ?_ t₂⟩
    have hc0 : cellAt (b.startClock t₁).grid x y = some c := by
      rw [startClock_eq]; exact hc
    have h1 := (revealsFrom_step True hinv0.1 hc0 hr hf (fun _ => trivial) hg).1
    have h2 := inv_of_revealsFrom hinv0 h1 (startClock_started b t₁)
    exact inv_congr h2 rfl rfl rfl rfl rfl rfl id
  · exact ⟨_, h, inv_checkWin (inv_of_revealsFrom hinv0 hr3 (startClock_started b t₁)) t₂⟩

theorem inv_updateOnFlag {b : board} (hinv : b.inv) (x y : Int) (t₁ t₂ : Nat) :
    ∃ b1, b.updateOnFlag x y t₁ t₂ = some b1 ∧ b1.inv := by
  have hinv0 := inv_startClock hinv t₁
  rcases updateOnFlag_cases b x y t₁ t₂ hinv.1 with
    ⟨_, h⟩ | ⟨_, c, hc, ⟨_, h⟩ | ⟨hr, _, g, hg, h⟩⟩
  · exact ⟨_, h, hinv⟩
  · exact ⟨_, h, hinv⟩
  · refine ⟨_, h, inv_checkWin ?_ t₂⟩
    have hc0 : cellAt (b.startClock t₁).grid x y = some c := by
      rw [startClock_eq]; exact hc
    exact inv_flag hinv0 (startClock_started b t₁) hc0 hr hg

theorem inv_step {b : board} (hinv : b.inv) (a : action) :
    ∃ b1, b.step a = some b1 ∧ b1.inv := by
  cases a with
  | reveal x y t₁ t₂ => exact inv_updateOnReveal hinv x y t₁ t₂
  | flag x y t₁ t₂ => exact inv_updateOnFlag hinv x y t₁ t₂

/-- Every sequence of public calls runs to completion on a board that satisfies
the invariant, and ends in such a board. -/
theorem inv_run {b : board} (hinv : b.inv) (acts : List action) :
    ∃ b1, b.run acts = some b1 ∧ b1.inv := by
  induction acts generalizing b with
  | nil => exact ⟨b, rfl, hinv⟩
  | cons a rest ih =>
    obtain ⟨b1, h1, hinv1⟩ := inv_step hinv a
    obtain ⟨b2, h2, hinv2⟩ := ih hinv1
    exact ⟨b2, by simp only [board.run, h1]; exact h2, hinv2⟩

theorem inv_of_untouched {b : board} (hwf : b.wellFormed) (hcons : b.consistent)
    (hunt : b.untouched)
    (hmines : b.numMines = (countCells (fun c => c.isMine) b.grid : Int)) : b.inv := by
  obtain ⟨h1, h2, h3, _, _⟩ := hunt
  refine ⟨hwf, hcons, hmines, ?_, ?_, ?_, fun _ => h1⟩
  · rw [h3, countCells_eq_zero (fun x y c hc => (h1 x y c hc).1)]
    rfl
  · rw [h2, countCells_eq_zero (fun x y c hc => (h1 x y c hc).2)]
    rfl
  · intro x y c hc hboth
    have := (h1 x y c hc).1
    rw [hboth.1] at this
    cases this

/-- The board returned by `makeBoard` satisfies the invariant. -/
theorem inv_makeBoard {width height numMines : Int} {picks : List (Int × Int)} {b : board}
    (hret : makeBoard width height numMines picks = some b) : b.inv := by
  obtain ⟨h1, h2, h3, h4, _⟩ := makeBoard_spec width height numMines picks b hret
  exact inv_of_untouched h1 h2 h3 h4

/-- From a constructed board every sequence of public calls, with arbitrary
integer coordinates, runs to completion (no index panic, no endless
recursion), and the state it reaches satisfies the invariant. -/
theorem reachable_inv {width height numMines : Int} {picks : List (Int × Int)}
    {b0 b : board} {acts : List action}
    (hmk : makeBoard width height numMines picks = some b0)
    (hrun : b0.run acts = some b) : b.inv := by
  obtain ⟨b1, h1, hinv1⟩ := inv_run (inv_makeBoard hmk) acts
  rw [hrun] at h1
  cases h1
  exact hinv1

/-! ## Win check, activity invariant and frame properties -/

theorem inv_startClock_wf {b : board} (hwf : b.wellFormed) (t₁ : Nat) :
    (b.startClock t₁).wellFormed := by
  have hg0 : (b.startClock t₁).grid = b.grid := by rw [startClock_eq]
  have h1 : (b.startClock t₁).width = b.width := by rw [startClock_eq]
  have h2 : (b.startClock t₁).height = b.height := by rw [startClock_eq]
  simpa [board.wellFormed, hg0, h1, h2] using hwf

theorem checkWin_isWin (b : board) (t₂ : Nat) : (b.checkWin t₂).isWin = b.isWin := by
  unfold board.isWin
  rw [checkWin_eq]

theorem checkWin_grid (b : board) (t₂ : Nat) : (b.checkWin t₂).grid = b.grid := by
  rw [checkWin_eq]

theorem checkWin_active (b : board) (t₂ : Nat) :
    (b.checkWin t₂).active = (b.active && !b.isWin) := by
  unfold board.checkWin
  cases h : b.isWin <;> simp

theorem checkWin_of_not_isWin {b : board} (h : b.isWin = false) (t₂ : Nat) :
    b.checkWin t₂ = b := by
  simp [board.checkWin, h]

theorem invActive_congr {b b1 : board} (h : b.invActive) (hg : b1.grid = b.grid)
    (hw : b1.width = b.width) (hh : b1.height = b.height)
    (hm : b1.numMines = b.numMines) (hr : b1.numRevealed = b.numRevealed)
    (hf : b1.numFlagged = b.numFlagged) (ha : b1.active = b.active) : b1.invActive := by
  simpa only [board.invActive, board.isWin, hg, hw, hh, hm, hr, hf, ha] using h

/-- The win check turns a board without a revealed mine and with `active = true`
into one that satisfies the activity invariant. -/
theorem invActive_checkWin {b : board} (t₂ : Nat) (hact : b.active = true)
    (hno : ∀ x y c, cellAt b.grid x y = some c → ¬ (c.isMine = true ∧ c.revealed = true)) :
    (b.checkWin t₂).invActive := by
  constructor
  · intro ha
    rw [checkWin_active, hact] at ha
    have hw : b.isWin = false := by simpa using ha
    rw [checkWin_of_not_isWin hw]
    exact ⟨hw, hno⟩
  · intro ha
    rw [checkWin_active, hact] at ha
    left
    rw [checkWin_isWin]
    simpa using ha

theorem invActive_updateOnReveal {b b1 : board} (hwf : b.wellFormed) (h : b.invActive)
    {x y : Int} {t₁ t₂ : Nat} (hb1 : b.updateOnReveal x y t₁ t₂ = some b1) :
    b1.invActive := by
  rcases updateOnReveal_cases b x y t₁ t₂ hwf with
    ⟨_, h1⟩ | ⟨_, hact, c, hc, ⟨_, h1⟩ | ⟨hr, hf, hm, g, hg, h1⟩ |
      ⟨_, _, _, b3, _, hr3, h1⟩⟩
  all_goals rw [hb1] at h1; cases h1
  · exact h
  · refine invActive_congr h ?_ ?_ ?_ ?_ ?_ ?_ ?_ <;> rw [startClock_eq]
  · have hc0 : cellAt (b.startClock t₁).grid x y = some c := by
      rw [startClock_eq]; exact hc
    have h2 := cellAt_updCell_same hg
    rw [hc0] at h2
    have hina : (board.checkWin
        { b.startClock t₁ with
          grid := g, numRevealed := (b.startClock t₁).numRevealed + 1,
          gameDurationSeconds :=
            board.secondsElapsed
              { b.startClock t₁ with
                grid := g, numRevealed := (b.startClock t₁).numRevealed + 1 } t₂,
          active := false } t₂).active = false := by
      rw [checkWin_active]; rfl
    constructor
    · intro ha
      rw [hina] at ha
      cases ha
    · intro _
      right
      refine ⟨x, y, { c with revealed := true }, ?_, hm, rfl⟩
      rw [checkWin_grid]
      exact h2
  · have hact0 : (b.startClock t₁).active = true := by rw [startClock_eq]; exact hact
    have hg0 : (b.startClock t₁).grid = b.grid := by rw [startClock_eq]
    have hwf0 : (b.startClock t₁).wellFormed := (inv_startClock_wf hwf t₁)
    obtain ⟨e, _, _, _, _, _, _, hcells⟩ := id hr3
    apply invActive_checkWin
    · rw [e]; exact hact0
    · intro i j c1 hc1 hboth
      cases hb : cellAt (b.startClock t₁).grid i j with
      | none =>
        rw [revealsFrom_cellAt_none hwf0 hr3 hb] at hc1
        cases hc1
      | some c0 =>
        obtain ⟨c2, h2, h3, _, h5⟩ := hcells i j c0 hb
        rw [hc1] at h2
        cases h2
        have hm0 : c0.isMine = true := by
          have := hboth.1
          rw [h3] at this
          exact this
        cases hr0 : c0.revealed with
        | true =>
          rw [hg0] at hb
          exact (h.1 hact).2 i j c0 hb ⟨hm0, hr0⟩
        | false => exact (h5 hboth.2 hr0).2 hm0

theorem invActive_updateOnFlag {b b1 : board} (hwf : b.wellFormed) (h : b.invActive)
    {x y : Int} {t₁ t₂ : Nat} (hb1 : b.updateOnFlag x y t₁ t₂ = some b1) :
    b1.invActive := by
  rcases updateOnFlag_cases b x y t₁ t₂ hwf with
    ⟨_, h1⟩ | ⟨_, c, hc, ⟨_, h1⟩ | ⟨hr, hact, g, hg, h1⟩⟩
  all_goals rw [hb1] at h1; cases h1
  · exact h
  · exact h
  · have hact0 : (b.startClock t₁).active = true := by rw [startClock_eq]; exact hact
    have hg0 : (b.startClock t₁).grid = b.grid := by rw [startClock_eq]
    apply invActive_checkWin
    · exact hact0
    · intro i j c1 hc1 hboth
      by_cases hij : i = x ∧ j = y
      · obtain ⟨rfl, rfl⟩ := hij
        have h2 := cellAt_updCell_same hg
        rw [hg0, hc] at h2
        have h3 : cellAt g i j = some c1 := hc1
        rw [h3] at h2
        simp only [Option.map_some', Option.some.injEq] at h2
        subst h2
        have := hboth.2
        simp only [hr] at this
        cases this
      · have h2 := cellAt_updCell_other hg hij
        have h3 : cellAt g i j = some c1 := hc1
        rw [h3, hg0] at h2
        exact (h.1 hact).2 i j c1 h2.symm hboth

theorem invActive_of_untouched {b : board} (hunt : b.untouched)
    (hw : 0 < b.width) (hh : 0 < b.height) : b.invActive := by
  obtain ⟨h1, h2, h3, h4, _⟩ := hunt
  constructor
  · intro _
    constructor
    · have hpos : 0 < b.width * b.height := Int.mul_pos hw hh
      simp only [board.isWin, h2, h3, Bool.and_eq_false_imp, decide_eq_true_eq,
        decide_eq_false_iff_not]
      intro h5
      omega
    · intro x y c hc hboth
      have := (h1 x y c hc).1
      rw [hboth.2] at this
      cases this
  · intro ha
    rw [h4] at ha
    cases ha

theorem invActive_run {b b1 : board} (hinv : b.inv) (h : b.invActive) (acts : List action)
    (hrun : b.run acts = some b1) : b1.invActive := by
  induction acts generalizing b with
  | nil =>
    simp only [board.run, Option.some.injEq] at hrun
    subst hrun
    exact h
  | cons a rest ih =>
    obtain ⟨b2, h2, hinv2⟩ := inv_step hinv a
    simp only [board.run, h2] at hrun
    refine ih hinv2 ?_ hrun
    cases a with
    | reveal x y t₁ t₂ => exact invActive_updateOnReveal hinv.1 h h2
    | flag x y t₁ t₂ => exact invActive_updateOnFlag hinv.1 h h2

/-- In every state reached from a board constructed with positive dimensions
the activity invariant holds. -/
theorem reachable_invActive {width height numMines : Int} {picks : List (Int × Int)}
    {b0 b : board} {acts : List action} (hw : 0 < width) (hh : 0 < height)
    (hmk : makeBoard width height numMines picks = some b0)
    (hrun : b0.run acts = some b) : b.invActive := by
  obtain ⟨_, _, h3, _, _, h6, h7⟩ := makeBoard_spec width height numMines picks b0 hmk
  exact invActive_run (inv_makeBoard hmk)
    (invActive_of_untouched h3 (by rw [h6]; exact hw) (by rw [h7]; exact hh)) acts hrun

/-- No public call changes which cells are mines. -/
theorem step_isMineAt {b b1 : board} (hwf : b.wellFormed) {a : action}
    (h : b.step a = some b1) (i j : Int) : isMineAt b1.grid i j = isMineAt b.grid i j := by
  cases a with
  | reveal x y t₁ t₂ =>
    have hg0 : (b.startClock t₁).grid = b.grid := by rw [startClock_eq]
    rcases updateOnReveal_cases b x y t₁ t₂ hwf with
      ⟨_, h1⟩ | ⟨_, _, c, _, ⟨_, h1⟩ | ⟨_, _, _, g, hg, h1⟩ | ⟨_, _, _, b3, _, hr3, h1⟩⟩
    all_goals rw [show b.updateOnReveal x y t₁ t₂ = some b1 from h] at h1; cases h1
    · rfl
    · rw [hg0]
    · rw [checkWin_grid, ← hg0]
      exact isMineAt_updCell hg (fun _ => rfl) i j
    · rw [checkWin_grid, revealsFrom_isMineAt (inv_startClock_wf hwf t₁) hr3, hg0]
  | flag x y t₁ t₂ =>
    have hg0 : (b.startClock t₁).grid = b.grid := by rw [startClock_eq]
    rcases updateOnFlag_cases b x y t₁ t₂ hwf with
      ⟨_, h1⟩ | ⟨_, c, _, ⟨_, h1⟩ | ⟨_, _, g, hg, h1⟩⟩
    all_goals rw [show b.updateOnFlag x y t₁ t₂ = some b1 from h] at h1; cases h1
    · rfl
    · rfl
    · rw [checkWin_grid, ← hg0]
      exact isMineAt_updCell hg (fun _ => rfl) i j

/-- No public call changes `width`, `height` or `numMines`. -/
theorem step_dims {b b1 : board} (hwf : b.wellFormed) {a : action}
    (h : b.step a = some b1) :
    b1.width = b.width ∧ b1.height = b.height ∧ b1.numMines = b.numMines := by
  cases a with
  | reveal x y t₁ t₂ =>
    rcases updateOnReveal_cases b x y t₁ t₂ hwf with
      ⟨_, h1⟩ | ⟨_, _, c, _, ⟨_, h1⟩ | ⟨_, _, _, g, hg, h1⟩ | ⟨_, _, _, b3, _, hr3, h1⟩⟩
    all_goals rw [show b.updateOnReveal x y t₁ t₂ = some b1 from h] at h1; cases h1
    · exact ⟨rfl, rfl, rfl⟩
    · refine ⟨?_, ?_, ?_⟩ <;> rw [startClock_eq]
    · refine ⟨?_, ?_, ?_⟩ <;> rw [checkWin_eq] <;>
        first
          | (show (b.startClock t₁).width = _; rw [startClock_eq])
          | (show (b.startClock t₁).height = _; rw [startClock_eq])
          | (show (b.startClock t₁).numMines = _; rw [startClock_eq])
    · obtain ⟨e, _⟩ := hr3
      refine ⟨?_, ?_, ?_⟩ <;> rw [checkWin_eq] <;>
        first
          | (show b3.width = _; rw [e]; show (b.startClock t₁).width = _; rw [startClock_eq])
          | (show b3.height = _; rw [e]; show (b.startClock t₁).height = _; rw [startClock_eq])
          | (show b3.numMines = _; rw [e]; show (b.startClock t₁).numMines = _;
             rw [startClock_eq])
  | flag x y t₁ t₂ =>
    rcases updateOnFlag_cases b x y t₁ t₂ hwf with
      ⟨_, h1⟩ | ⟨_, c, _, ⟨_, h1⟩ | ⟨_, _, g, hg, h1⟩⟩
    all_goals rw [show b.updateOnFlag x y t₁ t₂ = some b1 from h] at h1; cases h1
    · exact ⟨rfl, rfl, rfl⟩
    · exact ⟨rfl, rfl, rfl⟩
    · refine ⟨?_, ?_, ?_⟩ <;> rw [checkWin_eq] <;>
        first
          | (show (b.startClock t₁).width = _; rw [startClock_eq])
          | (show (b.startClock t₁).height = _; rw [startClock_eq])
          | (show (b.startClock t₁).numMines = _; rw [startClock_eq])

theorem run_dims {b b1 : board} (hinv : b.inv) (acts : List action)
    (hrun : b.run acts = some b1) :
    b1.width = b.width ∧ b1.height = b.height ∧ b1.numMines = b.numMines := by
  induction acts generalizing b with
  | nil =>
    simp only [board.run, Option.some.injEq] at hrun
    subst hrun
    exact ⟨rfl, rfl, rfl⟩
  | cons a rest ih =>
    obtain ⟨b2, h2, hinv2⟩ := inv_step hinv a
    simp only [board.run, h2] at hrun
    obtain ⟨e1, e2, e3⟩ := step_dims hinv.1 h2
    obtain ⟨f1, f2, f3⟩ := ih hinv2 hrun
    exact ⟨by rw [f1, e1], by rw [f2, e2], by rw [f3, e3]⟩

theorem isWin_iff (b : board) :
    b.isWin = true ↔
      (b.numFlagged = b.numMines ∧ b.numRevealed = b.width * b.height - b.numMines) := by
  simp [board.isWin]

/-- The flag toggle of `updateOnFlag` on an unrevealed cell of an active board,
before the win check. -/
theorem updateOnFlag_toggle (b : board) (x y : Int) (c : cell) (t₁ t₂ : Nat)
    (hact : b.active = true) (hin : b.withinBoarder x y = true)
    (hc : cellAt b.grid x y = some c) (hr : c.revealed = false) :
    ∃ b1, b.updateOnFlag x y t₁ t₂ = some b1 ∧
      cellAt b1.grid x y = some { c with flagged := !c.flagged } ∧
      b1.numFlagged = b.numFlagged + (if c.flagged then -1 else 1) ∧
      (∀ i j, ¬ (i = x ∧ j = y) → cellAt b1.grid i j = cellAt b.grid i j) ∧
      b1.numRevealed = b.numRevealed ∧ b1.width = b.width ∧ b1.height = b.height ∧
      b1.numMines = b.numMines ∧ b1.started ≠ none ∧
      b1.active = !(decide (b1.numFlagged = b1.numMines) &&
        decide (b1.numRevealed = b1.width * b1.height - b1.numMines)) := by
  have hg0 : (b.startClock t₁).grid = b.grid := by rw [startClock_eq]
  rcases updateOnFlag_cell b x y t₁ t₂ c hin hc with ⟨h1 | h1, _⟩ | ⟨_, _, g, hg, h1⟩
  · rw [hr] at h1; cases h1
  · rw [hact] at h1; cases h1
  · have h2 := cellAt_updCell_same hg
    rw [hg0, hc] at h2
    refine ⟨_, h1, ?_, ?_, ?_, ?_, ?_, ?_, ?_, ?_, ?_⟩
    · rw [checkWin_grid]; exact h2
    · rw [checkWin_eq]
      show (b.startClock t₁).numFlagged + _ = _
      rw [startClock_eq]
    · intro i j hij
      rw [checkWin_grid, ← hg0]
      exact cellAt_updCell_other hg hij
    · rw [checkWin_eq]
      show (b.startClock t₁).numRevealed = _
      rw [startClock_eq]
    · rw [checkWin_eq]
      show (b.startClock t₁).width = _
      rw [startClock_eq]
    · rw [checkWin_eq]
      show (b.startClock t₁).height = _
      rw [startClock_eq]
    · rw [checkWin_eq]
      show (b.startClock t₁).numMines = _
      rw [startClock_eq]
    · rw [checkWin_eq]
      exact startClock_started b t₁
    · have hact0 : (b.startClock t₁).active = true := by rw [startClock_eq]; exact hact
      rw [checkWin_active]
      show ((b.startClock t₁).active && _) = _
      rw [hact0, Bool.true_and]
      congr 1
      unfold board.isWin
      rw [checkWin_eq]

/-! ## What the flood-fill reveals -/

theorem revealsFrom_cell {m : Prop} {b b1 : board} (hwf : b.wellFormed)
    (h : revealsFrom m b b1) (i j : Int) :
    (cellAt b.grid i j = none ∧ cellAt b1.grid i j = none) ∨
      ∃ c c1, cellAt b.grid i j = some c ∧ cellAt b1.grid i j = some c1 ∧
        c1 = { c with revealed := c1.revealed } ∧
        (c.revealed = true → c1.revealed = true) ∧
        (c1.revealed = true → c.revealed = false →
          c.flagged = false ∧ (c.isMine = true → m)) := by
  cases h0 : cellAt b.grid i j with
  | none => exact Or.inl ⟨rfl, revealsFrom_cellAt_none hwf h h0⟩
  | some c =>
    obtain ⟨c1, h1, h2, h3, h4⟩ := h.2.2.2.2.2.2.2 i j c h0
    exact Or.inr ⟨c, c1, rfl, h1, h2, h3, h4⟩

theorem revealsFrom_revealedAt {m : Prop} {b b1 : board} (hwf : b.wellFormed)
    (h : revealsFrom m b b1) {i j : Int} (hr : revealedAt b.grid i j = true) :
    revealedAt b1.grid i j = true := by
  rcases revealsFrom_cell hwf h i j with ⟨h0, _⟩ | ⟨c, c1, h0, h1, _, h3, _⟩
  · simp [revealedAt, h0] at hr
  · simp only [revealedAt, h0] at hr
    simp only [revealedAt, h1]
    exact h3 hr

theorem revealsFrom_zeroAt {m : Prop} {b b1 : board} (hwf : b.wellFormed)
    (h : revealsFrom m b b1) (i j : Int) : zeroAt b1.grid i j = zeroAt b.grid i j := by
  rcases revealsFrom_cell hwf h i j with ⟨h0, h1⟩ | ⟨c, c1, h0, h1, h2, _, _⟩
  · simp [zeroAt, h0, h1]
  · simp only [zeroAt, h0, h1]
    rw [h2]

theorem revealsFrom_settledAt {m : Prop} {b b1 : board} (hwf : b.wellFormed)
    (h : revealsFrom m b b1) {i j : Int} (hs : settledAt b.grid i j = true) :
    settledAt b1.grid i j = true := by
  rcases revealsFrom_cell hwf h i j with ⟨h0, _⟩ | ⟨c, c1, h0, h1, h2, h3, _⟩
  · simp [settledAt, h0] at hs
  · simp only [settledAt, h0] at hs
    simp only [settledAt, h1]
    rw [h2]
    simp only [Bool.or_eq_true] at hs ⊢
    rcases hs with (hs | hs) | hs
    · exact Or.inl (Or.inl (h3 hs))
    · exact Or.inl (Or.inr hs)
    · exact Or.inr hs

theorem revealsFrom_openAt {m : Prop} {b b1 : board} (hwf : b.wellFormed)
    (h : revealsFrom m b b1) {i j : Int} (ho : openAt b1.grid i j = true) :
    openAt b.grid i j = true := by
  rcases revealsFrom_cell hwf h i j with ⟨_, h1⟩ | ⟨c, c1, h0, h1, h2, h3, _⟩
  · simp [openAt, h1] at ho
  · simp only [openAt, h1] at ho
    simp only [openAt, h0]
    rw [h2] at ho
    have hr : c.revealed = false := by
      cases hr : c.revealed with
      | true => simp [h3 hr] at ho
      | false => rfl
    simp only [Bool.not_eq_true', Bool.or_eq_false_iff] at ho ⊢
    exact ⟨⟨hr, ho.1.2⟩, ho.2⟩

/-- A cell that a flood-fill has newly revealed was open. -/
theorem revealsFrom_new_open {b b1 : board} (hwf : b.wellFormed)
    (h : revealsFrom False b b1) {i j : Int} (hr : revealedAt b.grid i j = false)
    (hr1 : revealedAt b1.grid i j = true) : openAt b.grid i j = true := by
  rcases revealsFrom_cell hwf h i j with ⟨_, h1⟩ | ⟨c, c1, h0, h1, _, _, h4⟩
  · simp [revealedAt, h1] at hr1
  · simp only [revealedAt, h0] at hr
    simp only [revealedAt, h1] at hr1
    obtain ⟨hf, hm⟩ := h4 hr1 hr
    have hm2 : c.isMine = false := by
      cases hmm : c.isMine with
      | false => rfl
      | true => exact (hm hmm).elim
    simp [openAt, h0, hr, hf, hm2]

theorem revealsFrom_numNonneg {m : Prop} {b b1 : board} (hwf : b.wellFormed)
    (h : revealsFrom m b b1) (hnn : numNonneg b.grid) : numNonneg b1.grid := by
  intro i j c1 hc1
  rcases revealsFrom_cell hwf h i j with ⟨_, h1⟩ | ⟨c, c2, h0, h1, h2, _, _⟩
  · rw [h1] at hc1; cases hc1
  · rw [hc1] at h1
    cases h1
    rw [h2]
    exact hnn i j c h0

theorem spread_trans {nbrs : List (Int × Int)} {b : board} {p q r : Int × Int}
    (h1 : spread nbrs b p q) (h2 : spread nbrs b q r) : spread nbrs b p r := by
  induction h2 with
  | start => exact h1
  | next _ ho hz ha hw ih => exact spread.next ih ho hz ha hw

theorem spread_mono {nbrs : List (Int × Int)} {m : Prop} {b b1 : board} (hwf : b.wellFormed)
    (h : revealsFrom m b b1) {p q : Int × Int} (hs : spread nbrs b1 p q) :
    spread nbrs b p q := by
  induction hs with
  | start => exact spread.start
  | next _ ho hz ha hw ih =>
    refine spread.next ih (revealsFrom_openAt hwf h ho) ?_ ha ?_
    · rw [← revealsFrom_zeroAt hwf h]; exact hz
    · rw [← revealsFrom_within h]; exact hw

theorem settledAt_of_revealedAt {g : List (List cell)} {i j : Int}
    (h : revealedAt g i j = true) : settledAt g i j = true := by
  cases h0 : cellAt g i j with
  | none => simp [revealedAt, h0] at h
  | some c =>
    simp only [revealedAt, h0] at h
    simp [settledAt, h0, h]

theorem settledAt_of_not_openAt {g : List (List cell)} {i j : Int} {c : cell}
    (hc : cellAt g i j = some c) (h : openAt g i j = false) : settledAt g i j = true := by
  simp only [openAt, hc] at h
  simp only [settledAt, hc]
  cases h1 : (c.revealed || c.flagged || c.isMine) with
  | true => rfl
  | false => simp [h1] at h

theorem explorePost_of_closed (nbrs : List (Int × Int)) {b : board} (hwf : b.wellFormed)
    {x y : Int} (h : openAt b.grid x y = false) : explorePost nbrs b x y b := by
  refine ⟨revealsFrom_refl hwf, ?_, ?_, ?_⟩
  · intro ho; rw [h] at ho; cases ho
  · intro i j h1 h2; rw [h1] at h2; cases h2
  · intro i j h1 h2; rw [h1] at h2; cases h2

theorem visitNeighbors_spec (nbrs : List (Int × Int))
    (visit : board → Int → Int → Option board) (fuel : Nat) (x y : Int)
    (hv : ∀ b2 x2 y2, b2.wellFormed → b2.withinBoarder x2 y2 = true →
      countCells (fun c => !c.revealed) b2.grid < fuel → numNonneg b2.grid →
      ∃ b3, visit b2 x2 y2 = some b3 ∧ explorePost nbrs b2 x2 y2 b3)
    (ds : List (Int × Int)) (b : board) (hwf : b.wellFormed)
    (hlt : countCells (fun c => !c.revealed) b.grid < fuel) (hnn : numNonneg b.grid) :
    ∃ b1, visitNeighbors visit x y b ds = some b1 ∧ revealsFrom False b b1 ∧
      (∀ d ∈ ds, b.withinBoarder (x + d.1) (y + d.2) = true →
        settledAt b1.grid (x + d.1) (y + d.2) = true) ∧
      (∀ i j, revealedAt b.grid i j = false → revealedAt b1.grid i j = true →
        zeroAt b.grid i j = true → ∀ d ∈ nbrs, b.withinBoarder (i + d.1) (j + d.2) = true →
          settledAt b1.grid (i + d.1) (j + d.2) = true) ∧
      (∀ i j, revealedAt b.grid i j = false → revealedAt b1.grid i j = true →
        ∃ d ∈ ds, b.withinBoarder (x + d.1) (y + d.2) = true ∧
          spread nbrs b (x + d.1, y + d.2) (i, j)) := by
  induction ds generalizing b with
  | nil =>
    refine ⟨b, rfl, revealsFrom_refl hwf, ?_, ?_, ?_⟩
    · intro d hd; cases hd
    · intro i j h1 h2; rw [h1] at h2; cases h2
    · intro i j h1 h2; rw [h1] at h2; cases h2
  | cons d ds ih =>
    by_cases hin : b.withinBoarder (x + d.1) (y + d.2) = true
    · obtain ⟨b3, hb3, hr3, T3, K3, S3⟩ := hv b _ _ hwf hin hlt hnn
      have hwf3 := hr3.2.1
      have hlt3 : countCells (fun c => !c.revealed) b3.grid < fuel :=
        lt_of_le_of_lt hr3.2.2.2.1 hlt
      obtain ⟨b1, hb1, hr1, LT1, LK1, LS1⟩ :=
        ih b3 hwf3 hlt3 (revealsFrom_numNonneg hwf hr3 hnn)
      refine ⟨b1, ?_, revealsFrom_trans hr3 hr1, ?_, ?_, ?_⟩
      · simp only [visitNeighbors, hin, if_true, hb3]
        exact hb1
      · intro e he hine
        rcases List.mem_cons.1 he with rfl | he
        · obtain ⟨c, hc⟩ := (within_iff_cellAt hwf _ _).1 hin
          cases ho : openAt b.grid (x + e.1) (y + e.2) with
          | true =>
            exact settledAt_of_revealedAt (revealsFrom_revealedAt hwf3 hr1 (T3 ho))
          | false =>
            exact revealsFrom_settledAt hwf3 hr1
              (revealsFrom_settledAt hwf hr3 (settledAt_of_not_openAt hc ho))
        · exact LT1 e he (by rw [revealsFrom_within hr3]; exact hine)
      · intro i j h1 h2 hz e he hine
        cases h3 : revealedAt b3.grid i j with
        | true => exact revealsFrom_settledAt hwf3 hr1 (K3 i j h1 h3 hz e he hine)
        | false =>
          exact LK1 i j h3 h2 (by rw [revealsFrom_zeroAt hwf hr3]; exact hz) e he
            (by rw [revealsFrom_within hr3]; exact hine)
      · intro i j h1 h2
        cases h3 : revealedAt b3.grid i j with
        | true => exact ⟨d, List.mem_cons_self _ _, hin, S3 i j h1 h3⟩
        | false =>
          obtain ⟨e, he, hine, hs⟩ := LS1 i j h3 h2
          refine ⟨e, List.mem_cons_of_mem _ he, ?_, spread_mono hwf hr3 hs⟩
          rw [← revealsFrom_within hr3]; exact hine
    · obtain ⟨b1, hb1, hr1, LT1, LK1, LS1⟩ := ih b hwf hlt hnn
      refine ⟨b1, ?_, hr1, ?_, LK1, ?_⟩
      · simp only [visitNeighbors, hin]
        exact hb1
      · intro e he hine
        rcases List.mem_cons.1 he with rfl | he
        · exact absurd hine hin
        · exact LT1 e he hine
      · intro i j h1 h2
        obtain ⟨e, he, hine, hs⟩ := LS1 i j h1 h2
        exact ⟨e, List.mem_cons_of_mem _ he, hine, hs⟩

theorem revealedAt_updCell_reveal {g g1 : List (List cell)} {x y : Int}
    (hg : updCell g x y (fun c => { c with revealed := true }) = some g1) :
    revealedAt g1 x y = true ∧
      ∀ i j, revealedAt g i j = false → revealedAt g1 i j = true → i = x ∧ j = y := by
  constructor
  · have h1 := cellAt_updCell_same hg
    obtain ⟨_, _, row, c, hr, hc, _⟩ := (updCell_eq_some_iff g g1 x y _).1 hg
    have h2 : cellAt g x y = some c :=
      (cellAt_eq_some_iff g x y c).2 ⟨by assumption, by assumption, row, hr, hc⟩
    rw [h2] at h1
    simp [revealedAt, h1]
  · intro i j h1 h2
    by_contra hij
    have h3 := cellAt_updCell_other hg hij
    simp only [revealedAt, h3] at h2
    simp only [revealedAt] at h1
    rw [h1] at h2
    cases h2

/-- The flood-fill with enough fuel returns, and what it returns satisfies
`explorePost`. -/
theorem exploreAux_spec (nbrs : List (Int × Int)) (fuel : Nat) (b : board) (x y : Int)
    (hwf : b.wellFormed) (hin : b.withinBoarder x y = true)
    (hlt : countCells (fun c => !c.revealed) b.grid < fuel) (hnn : numNonneg b.grid) :
    ∃ b1, exploreAux nbrs fuel b x y = some b1 ∧ explorePost nbrs b x y b1 := by
  induction fuel generalizing b x y with
  | zero => omega
  | succ fuel ih =>
    obtain ⟨c, hc⟩ := (within_iff_cellAt hwf x y).1 hin
    by_cases hclosed : (c.revealed || c.flagged || c.isMine) = true
    · refine ⟨b, ?_, explorePost_of_closed nbrs hwf ?_⟩
      · simp only [exploreAux, hc, hclosed, if_true]
      · simp [openAt, hc, hclosed]
    · have hr : c.revealed = false := by
        cases h : c.revealed <;> simp [h] at hclosed ⊢
      have hf : c.flagged = false := by
        cases h : c.flagged <;> simp [h] at hclosed ⊢
      have hm : c.isMine = false := by
        cases h : c.isMine <;> simp [h] at hclosed ⊢
      have hnum : c.num ≥ 0 := hnn x y c hc
      have hopen : openAt b.grid x y = true := by simp [openAt, hc, hr, hf, hm]
      obtain ⟨g, hg⟩ := updCell_of_cellAt hc (fun c => { c with revealed := true })
      obtain ⟨hstep, hcount⟩ := revealsFrom_step False hwf hc hr hf (by simp [hm]) hg
      obtain ⟨hrevxy, honly⟩ := revealedAt_updCell_reveal hg
      by_cases hz : c.num = 0
      · have hzero : zeroAt b.grid x y = true := by simp [zeroAt, hc, hz]
        have hlt2 : countCells (fun c => !c.revealed)
            ({ b with grid := g, numRevealed := b.numRevealed + 1 } : board).grid < fuel := by
          show countCells (fun c => !c.revealed) g < fuel
          omega
        obtain ⟨b1, hb1, hr1, LT, LK, LS⟩ :=
          visitNeighbors_spec nbrs (exploreAux nbrs fuel) fuel x y
            (fun b2 x2 y2 h1 h2 h3 h4 => ih b2 x2 y2 h1 h2 h3 h4) nbrs _ hstep.2.1 hlt2
            (revealsFrom_numNonneg hwf hstep hnn)
        refine ⟨b1, ?_, revealsFrom_trans hstep hr1, ?_, ?_, ?_⟩
        · simp only [exploreAux, hc, hr, hf, hm, hnum, hg, hz, if_true, Bool.or_self,
            Bool.false_eq_true, if_false]
          exact hb1
        · intro _
          exact revealsFrom_revealedAt hstep.2.1 hr1 hrevxy
        · intro i j h1 h2 hzij e he hine
          cases h3 : revealedAt g i j with
          | true =>
            obtain ⟨rfl, rfl⟩ := honly i j h1 h3
            exact LT e he hine
          | false =>
            exact LK i j h3 h2 (by rw [revealsFrom_zeroAt hwf hstep]; exact hzij) e he hine
        · intro i j h1 h2
          cases h3 : revealedAt g i j with
          | true =>
            obtain ⟨rfl, rfl⟩ := honly i j h1 h3
            exact spread.start
          | false =>
            obtain ⟨e, he, hine, hs⟩ := LS i j h3 h2
            exact spread_trans
              (spread.next spread.start hopen hzero ⟨e, he, rfl⟩ hine)
              (spread_mono hwf hstep hs)
      · refine ⟨_, ?_, hstep, fun _ => hrevxy, ?_, ?_⟩
        · simp only [exploreAux, hc, hr, hf, hm, hnum, hg, hz, if_true, Bool.or_self,
            Bool.false_eq_true, if_false]
        · intro i j h1 h2 hzij
          obtain ⟨rfl, rfl⟩ := honly i j h1 h2
          simp [zeroAt, hc, hz] at hzij
        · intro i j h1 h2
          obtain ⟨rfl, rfl⟩ := honly i j h1 h2
          exact spread.start

/-! ## The zero region -/

theorem numNonneg_of_consistent {b : board} (h : b.consistent) : numNonneg b.grid := by
  intro x y c hc
  rw [h x y c hc]
  exact Int.natCast_nonneg _

theorem explore_spec (b : board) (x y : Int) (hwf : b.wellFormed)
    (hin : b.withinBoarder x y = true) (hnn : numNonneg b.grid) :
    ∃ b1, b.explore x y = some b1 ∧ explorePost neighbors b x y b1 := by
  have h := countCells_le_gridSize (fun c => !c.revealed) b.grid
  exact exploreAux_spec neighbors (gridSize b.grid + 1) b x y hwf hin (by omega) hnn

/-- Completeness of the flood-fill: every open cell it can get to is revealed. -/
theorem explorePost_complete {nbrs : List (Int × Int)} {b b1 : board} {x y : Int}
    (hwf : b.wellFormed) (hp : explorePost nbrs b x y b1)
    (hopen : openAt b.grid x y = true) {q : Int × Int}
    (hs : spread nbrs b (x, y) q) (hq : openAt b.grid q.1 q.2 = true) :
    revealedAt b1.grid q.1 q.2 = true := by
  obtain ⟨hr, T, K, _⟩ := hp
  induction hs with
  | start => exact T hopen
  | @next q1 r _ ho hz ha hw ih =>
    have h1 := ih ho
    have hunrev : revealedAt b.grid q1.1 q1.2 = false := by
      cases h0 : cellAt b.grid q1.1 q1.2 with
      | none => simp [revealedAt, h0]
      | some c =>
        simp only [openAt, h0] at ho
        simp only [revealedAt, h0]
        cases hrc : c.revealed with
        | false => rfl
        | true => simp [hrc] at ho
    obtain ⟨d, hd, rfl⟩ := ha
    have hset := K q1.1 q1.2 hunrev h1 hz d hd hw
    rcases revealsFrom_cell hwf hr (q1.1 + d.1) (q1.2 + d.2) with
      ⟨_, h1n⟩ | ⟨c, c1, h0, h1c, h2, _, _⟩
    · simp [settledAt, h1n] at hset
    · simp only [openAt, h0] at hq
      simp only [settledAt, h1c] at hset
      simp only [revealedAt, h1c]
      rw [h2] at hset
      cases hrc : c1.revealed with
      | true => rfl
      | false =>
        simp only [hrc, Bool.false_or] at hset
        simp only [Bool.not_eq_true', Bool.or_eq_false_iff] at hq
        rw [hq.1.2, hq.2] at hset
        cases hset

/-- A neighbour of a cell with `num = 0` is not a mine. -/
theorem not_mine_of_adjacent_zero {b : board} (hcons : b.consistent) {q r : Int × Int}
    (hz : zeroAt b.grid q.1 q.2 = true) (ha : adjacent q r)
    (hw : b.withinBoarder r.1 r.2 = true) : isMineAt b.grid r.1 r.2 = false := by
  cases h0 : cellAt b.grid q.1 q.2 with
  | none => simp [zeroAt, h0] at hz
  | some c =>
    simp only [zeroAt, h0, decide_eq_true_eq] at hz
    have h1 := hcons q.1 q.2 c h0
    rw [hz] at h1
    have h2 : mineNeighbors b q.1 q.2 = 0 := by omega
    unfold mineNeighbors at h2
    rw [List.countP_eq_zero] at h2
    obtain ⟨d, hd, rfl⟩ := ha
    have h3 := h2 d hd
    simp only [Bool.and_eq_true, not_and, Bool.not_eq_true] at h3
    exact h3 hw

/-- The call `updateOnReveal` on an open cell of an active board is the
flood-fill from that cell followed by the win check. -/
theorem updateOnReveal_open {b : board} (hinv : b.inv) {x y : Int} (t₁ t₂ : Nat)
    (hact : b.active = true) (hin : b.withinBoarder x y = true)
    (hopen : openAt b.grid x y = true) :
    ∃ b3, b.updateOnReveal x y t₁ t₂ = some (b3.checkWin t₂) ∧
      explorePost neighbors (b.startClock t₁) x y b3 := by
  have hinv0 := inv_startClock hinv t₁
  have hg0 : (b.startClock t₁).grid = b.grid := by rw [startClock_eq]
  have hin0 : (b.startClock t₁).withinBoarder x y = true := by
    have h1 : (b.startClock t₁).width = b.width := by rw [startClock_eq]
    have h2 : (b.startClock t₁).height = b.height := by rw [startClock_eq]
    simpa [board.withinBoarder, h1, h2] using hin
  obtain ⟨b3, hb3, hp3⟩ := explore_spec (b.startClock t₁) x y hinv0.1 hin0
    (numNonneg_of_consistent hinv0.2.1)
  refine ⟨b3, ?_, hp3⟩
  rcases updateOnReveal_cases b x y t₁ t₂ hinv.1 with
    ⟨h1 | h1, _⟩ | ⟨_, _, c, hc, ⟨h1, _⟩ | ⟨_, _, hm, _⟩ | ⟨_, _, _, b4, hb4, _, h1⟩⟩
  · rw [hin] at h1; cases h1
  · rw [hact] at h1; cases h1
  · simp only [openAt, hc] at hopen
    rcases h1 with h1 | h1 <;> simp [h1] at hopen
  · simp only [openAt, hc] at hopen
    simp [hm] at hopen
  · rw [hb3] at hb4
    cases hb4
    exact h1

theorem within_of_zeroAt {b : board} (hwf : b.wellFormed) {i j : Int}
    (h : zeroAt b.grid i j = true) : b.withinBoarder i j = true := by
  cases h0 : cellAt b.grid i j with
  | none => simp [zeroAt, h0] at h
  | some c => exact (within_iff_cellAt hwf i j).2 ⟨c, h0⟩

theorem openAt_of_parts {g : List (List cell)} {i j : Int} {c : cell}
    (hc : cellAt g i j = some c) (hr : revealedAt g i j = false)
    (hf : flaggedAt g i j = false) (hm : isMineAt g i j = false) : openAt g i j = true := by
  simp only [revealedAt, hc] at hr
  simp only [flaggedAt, hc] at hf
  simp only [isMineAt, hc] at hm
  simp [openAt, hc, hr, hf, hm]

/-- A path through free cells with `num = 0` is a way the flood-fill can go. -/
theorem spread_of_connected {b : board} (hwf : b.wellFormed) (hcons : b.consistent)
    {ok : Int → Int → Bool}
    (hok : ∀ i j, ok i j = true → zeroAt b.grid i j = true ∧
      revealedAt b.grid i j = false ∧ flaggedAt b.grid i j = false)
    {p q : Int × Int} (hp : openAt b.grid p.1 p.2 = true) (h : connected ok p q) :
    spread neighbors b p q ∧ openAt b.grid q.1 q.2 = true ∧
      zeroAt b.grid q.1 q.2 = true := by
  induction h with
  | start h0 => exact ⟨spread.start, hp, (hok _ _ h0).1⟩
  | @next q1 r _ ha hr ih =>
    obtain ⟨hs, ho, hz⟩ := ih
    obtain ⟨hzr, hrr, hfr⟩ := hok _ _ hr
    have hw := within_of_zeroAt hwf hzr
    have hm := not_mine_of_adjacent_zero hcons hz ha hw
    obtain ⟨c, hc⟩ := (within_iff_cellAt hwf _ _).1 hw
    exact ⟨spread.next hs ho hz ha hw, openAt_of_parts hc hrr hfr hm, hzr⟩

/-- The flood-fill property of a call of `updateOnReveal` on an open cell with
`num = 0`, on a board that satisfies the invariant. -/
theorem floodFill_of_inv {b : board} (hinv : b.inv) {x y : Int} {c : cell} (t₁ t₂ : Nat)
    (hact : b.active = true) (hin : b.withinBoarder x y = true)
    (hc : cellAt b.grid x y = some c) (hr : c.revealed = false) (hf : c.flagged = false)
    (hm : c.isMine = false) :
    ∃ b1, b.updateOnReveal x y t₁ t₂ = some b1 ∧ floodFillsFreeZeroRegion b b1 x y := by
  have hopen : openAt b.grid x y = true := by simp [openAt, hc, hr, hf, hm]
  obtain ⟨b3, hb3, hp3⟩ := updateOnReveal_open hinv t₁ t₂ hact hin hopen
  have hinv0 := inv_startClock hinv t₁
  have hg0 : (b.startClock t₁).grid = b.grid := by rw [startClock_eq]
  have hw0 : ∀ i j, (b.startClock t₁).withinBoarder i j = b.withinBoarder i j := by
    intro i j
    have h1 : (b.startClock t₁).width = b.width := by rw [startClock_eq]
    have h2 : (b.startClock t₁).height = b.height := by rw [startClock_eq]
    simp [board.withinBoarder, h1, h2]
  have hopen0 : openAt (b.startClock t₁).grid x y = true := by rw [hg0]; exact hopen
  have hok : ∀ i j, freeZeroAt b.grid i j = true → zeroAt (b.startClock t₁).grid i j = true ∧
      revealedAt (b.startClock t₁).grid i j = false ∧
      flaggedAt (b.startClock t₁).grid i j = false := by
    intro i j h
    rw [hg0]
    simpa [freeZeroAt, and_assoc] using h
  refine ⟨_, hb3, ?_, ?_, ?_⟩
  · intro q hq
    obtain ⟨hs, ho, _⟩ := spread_of_connected hinv0.1 hinv0.2.1 hok hopen0 hq
    rw [checkWin_grid]
    exact explorePost_complete hinv0.1 hp3 hopen0 hs ho
  · intro q r hq ha hw hfl
    obtain ⟨hs, ho, hz⟩ := spread_of_connected hinv0.1 hinv0.2.1 hok hopen0 hq
    rw [checkWin_grid]
    have hwr : (b.startClock t₁).withinBoarder r.1 r.2 = true := by rw [hw0]; exact hw
    have hmr := not_mine_of_adjacent_zero hinv0.2.1 hz ha hwr
    obtain ⟨cr, hcr⟩ := (within_iff_cellAt hinv0.1 _ _).1 hwr
    cases hrr : revealedAt (b.startClock t₁).grid r.1 r.2 with
    | true => exact revealsFrom_revealedAt hinv0.1 hp3.1 hrr
    | false =>
      have hor := openAt_of_parts hcr hrr (by rw [hg0]; exact hfl) hmr
      exact explorePost_complete hinv0.1 hp3 hopen0 (spread.next hs ho hz ha hwr) hor
  · intro i j hmine hunrev
    rw [checkWin_grid]
    cases hrr : revealedAt b3.grid i j with
    | false => rfl
    | true =>
      have ho := revealsFrom_new_open hinv0.1 hp3.1 (by rw [hg0]; exact hunrev) hrr
      rw [hg0] at ho
      cases h0 : cellAt b.grid i j with
      | none => simp [isMineAt, h0] at hmine
      | some c0 =>
        simp only [isMineAt, h0] at hmine
        simp [openAt, h0, hmine] at ho

theorem rowSet_ncard (p : cell → Bool) (row : List cell) :
    Set.Finite {j : Nat | ∃ c, row[j]? = some c ∧ p c = true} ∧
      Set.ncard {j : Nat | ∃ c, row[j]? = some c ∧ p c = true} = row.countP p := by
  induction row with
  | nil => simp
  | cons a tl ih =>
    obtain ⟨hfin, hcard⟩ := ih
    have hsplit : {j : Nat | ∃ c, (a :: tl)[j]? = some c ∧ p c = true} =
        {j : Nat | j = 0 ∧ p a = true} ∪
          Nat.succ '' {j : Nat | ∃ c, tl[j]? = some c ∧ p c = true} := by
      ext j
      cases j with
      | zero => simp
      | succ k => simp
    have hA : Set.Finite {j : Nat | j = 0 ∧ p a = true} :=
      Set.Finite.subset (Set.finite_singleton 0) (fun j hj => hj.1)
    have hB : Set.Finite (Nat.succ '' {j : Nat | ∃ c, tl[j]? = some c ∧ p c = true}) :=
      hfin.image _
    have hdisj : Disjoint {j : Nat | j = 0 ∧ p a = true}
        (Nat.succ '' {j : Nat | ∃ c, tl[j]? = some c ∧ p c = true}) := by
      rw [Set.disjoint_left]
      rintro j ⟨hj, _⟩ ⟨k, _, hk⟩
      omega
    have hAc : Set.ncard {j : Nat | j = 0 ∧ p a = true} = if p a = true then 1 else 0 := by
      by_cases hp : p a = true
      · have : {j : Nat | j = 0 ∧ p a = true} = {0} := by
          ext j; simp [hp]
        rw [this, Set.ncard_singleton, if_pos hp]
      · have : {j : Nat | j = 0 ∧ p a = true} = ∅ := by
          ext j; simp [hp]
        rw [this, Set.ncard_empty, if_neg hp]
    refine ⟨?_, ?_⟩
    · rw [hsplit]; exact hA.union hB
    · rw [hsplit, Set.ncard_union_eq hdisj hA hB,
        Set.ncard_image_of_injective _ Nat.succ_injective, hcard, hAc, List.countP_cons]
      omega

theorem gridSet_ncard (p : cell → Bool) (g : List (List cell)) :
    Set.Finite {q : Nat × Nat | ∃ row c, g[q.1]? = some row ∧ row[q.2]? = some c ∧
        p c = true} ∧
      Set.ncard {q : Nat × Nat | ∃ row c, g[q.1]? = some row ∧ row[q.2]? = some c ∧
        p c = true} = countCells p g := by
  induction g with
  | nil => simp [countCells]
  | cons r rest ih =>
    obtain ⟨hfin, hcard⟩ := ih
    obtain ⟨hrfin, hrcard⟩ := rowSet_ncard p r
    have hsplit : {q : Nat × Nat | ∃ row c, (r :: rest)[q.1]? = some row ∧
          row[q.2]? = some c ∧ p c = true} =
        (fun j => ((0 : Nat), j)) '' {j : Nat | ∃ c, r[j]? = some c ∧ p c = true} ∪
          (fun q : Nat × Nat => (q.1 + 1, q.2)) ''
            {q : Nat × Nat | ∃ row c, rest[q.1]? = some row ∧ row[q.2]? = some c ∧
              p c = true} := by
      ext ⟨i, j⟩
      cases i with
      | zero => simp
      | succ k => simp
    have hinjA : Function.Injective (fun j : Nat => ((0 : Nat), j)) := by
      intro a b h; simpa using h
    have hinjB : Function.Injective (fun q : Nat × Nat => (q.1 + 1, q.2)) := by
      rintro ⟨a1, a2⟩ ⟨b1, b2⟩ h
      simp only [Prod.mk.injEq] at h
      obtain ⟨h1, h2⟩ := h
      have : a1 = b1 := by omega
      rw [this, h2]
    have hdisj : Disjoint
        ((fun j => ((0 : Nat), j)) '' {j : Nat | ∃ c, r[j]? = some c ∧ p c = true})
        ((fun q : Nat × Nat => (q.1 + 1, q.2)) ''
            {q : Nat × Nat | ∃ row c, rest[q.1]? = some row ∧ row[q.2]? = some c ∧
              p c = true}) := by
      rw [Set.disjoint_left]
      rintro q ⟨j, _, rfl⟩ ⟨q2, _, hq2⟩
      simp only [Prod.mk.injEq] at hq2
      omega
    refine ⟨?_, ?_⟩
    · rw [hsplit]; exact (hrfin.image _).union (hfin.image _)
    · rw [hsplit, Set.ncard_union_eq hdisj (hrfin.image _) (hfin.image _),
        Set.ncard_image_of_injective _ hinjA, Set.ncard_image_of_injective _ hinjB,
        hcard, hrcard]
      simp [countCells]

/-- The number of cells that satisfy `p` is the size of the set of their
positions. -/
theorem countCells_eq_ncard (p : cell → Bool) (g : List (List cell)) :
    countCells p g =
      Set.ncard {q : Int × Int | ∃ c, cellAt g q.1 q.2 = some c ∧ p c = true} := by
  obtain ⟨_, hcard⟩ := gridSet_ncard p g
  have hinj : Function.Injective (fun q : Nat × Nat => ((q.1 : Int), (q.2 : Int))) := by
    rintro ⟨a1, a2⟩ ⟨b1, b2⟩ h
    simp only [Prod.mk.injEq, Nat.cast_inj] at h
    rw [h.1, h.2]
  have himg : {q : Int × Int | ∃ c, cellAt g q.1 q.2 = some c ∧ p c = true} =
      (fun q : Nat × Nat => ((q.1 : Int), (q.2 : Int))) ''
        {q : Nat × Nat | ∃ row c, g[q.1]? = some row ∧ row[q.2]? = some c ∧
          p c = true} := by
    ext ⟨i, j⟩
    simp only [Set.mem_setOf_eq, Set.mem_image, Prod.mk.injEq, Prod.exists]
    constructor
    · rintro ⟨c, hc, hp⟩
      obtain ⟨hi, hj, row, hr, hcc⟩ := (cellAt_eq_some_iff g i j c).1 hc
      exact ⟨i.toNat, j.toNat, ⟨row, c, hr, hcc, hp⟩, Int.toNat_of_nonneg hi,
        Int.toNat_of_nonneg hj⟩
    · rintro ⟨a, b, ⟨row, c, hr, hcc, hp⟩, rfl, rfl⟩
      exact ⟨c, (cellAt_eq_some_iff g _ _ c).2
        ⟨Int.natCast_nonneg _, Int.natCast_nonneg _, row, by simpa using hr,
          by simpa using hcc⟩, hp⟩
  rw [himg, Set.ncard_image_of_injective _ hinj, hcard]

theorem spread_congr {nbrs : List (Int × Int)} {b b1 : board} (hg : b1.grid = b.grid)
    (hw : ∀ i j, b1.withinBoarder i j = b.withinBoarder i j) {p q : Int × Int}
    (h : spread nbrs b p q) : spread nbrs b1 p q := by
  induction h with
  | start => exact spread.start
  | next _ ho hz ha hwr ih =>
    exact spread.next ih (by rw [hg]; exact ho) (by rw [hg]; exact hz) ha
      (by rw [hw]; exact hwr)

/-- From a cell whose `num` is not 0 the flood-fill gets nowhere. -/
theorem spread_of_not_zero {nbrs : List (Int × Int)} {b : board} {p q : Int × Int}
    (hz : zeroAt b.grid p.1 p.2 = false) (h : spread nbrs b p q) : q = p := by
  induction h with
  | start => rfl
  | next _ _ hzq _ _ ih =>
    rw [ih, hz] at hzq
    cases hzq

/-- From a cell with `num = 0` the flood-fill gets only to cells of the zero
region and to their in-border neighbours. -/
theorem spread_sub_region {b : board} {p q : Int × Int}
    (hz : zeroAt b.grid p.1 p.2 = true) (h : spread neighbors b p q) :
    connected (zeroAt b.grid) p q ∨
      ∃ z, connected (zeroAt b.grid) p z ∧ adjacent z q ∧
        b.withinBoarder q.1 q.2 = true := by
  induction h with
  | start => exact Or.inl (connected.start hz)
  | @next q1 r _ _ hzq ha hw ih =>
    rcases ih with h1 | ⟨z, hzc, haz, _⟩
    · exact Or.inr ⟨q1, h1, ha, hw⟩
    · exact Or.inr ⟨q1, connected.next hzc haz hzq, ha, hw⟩

/-- On a board without flags and without revealed cells, the cells the
flood-fill gets to from an open cell `p`, as far as they are open, are exactly
the expected ones. -/
theorem spread_iff_expected {b : board} (hwf : b.wellFormed) (hcons : b.consistent)
    (hunt : ∀ x y c, cellAt b.grid x y = some c → c.revealed = false ∧ c.flagged = false)
    {p : Int × Int} (hp : openAt b.grid p.1 p.2 = true) (q : Int × Int) :
    (spread neighbors b p q ∧ openAt b.grid q.1 q.2 = true) ↔ expectedRevealed b p q := by
  have hfree : ∀ i j, revealedAt b.grid i j = false ∧ flaggedAt b.grid i j = false := by
    intro i j
    cases h0 : cellAt b.grid i j with
    | none => simp [revealedAt, flaggedAt, h0]
    | some c => simpa [revealedAt, flaggedAt, h0] using hunt i j c h0
  have hok : ∀ i j, zeroAt b.grid i j = true → zeroAt b.grid i j = true ∧
      revealedAt b.grid i j = false ∧ flaggedAt b.grid i j = false :=
    fun i j h => ⟨h, (hfree i j).1, (hfree i j).2⟩
  cases hc : cellAt b.grid p.1 p.2 with
  | none => simp [openAt, hc] at hp
  | some c =>
    have hm : c.isMine = false := by
      simp only [openAt, hc] at hp
      cases h : c.isMine with
      | false => rfl
      | true => simp [h] at hp
    have hnn : 0 ≤ c.num := numNonneg_of_consistent hcons _ _ c hc
    by_cases hpos : 0 < c.num
    · have hz : zeroAt b.grid p.1 p.2 = false := by
        simp only [zeroAt, hc, decide_eq_false_iff_not]
        omega
      simp only [expectedRevealed, hc, hpos, or_true, if_true]
      constructor
      · rintro ⟨hs, _⟩
        exact spread_of_not_zero hz hs
      · rintro rfl
        exact ⟨spread.start, hp⟩
    · have hzn : c.num = 0 := by omega
      have hz : zeroAt b.grid p.1 p.2 = true := by
        simp [zeroAt, hc, hzn]
      have hcond : ¬ (c.isMine = true ∨ 0 < c.num) := by
        rw [hm]
        simp [hpos]
      simp only [expectedRevealed, hc, hcond, if_false]
      constructor
      · rintro ⟨hs, _⟩
        exact spread_sub_region hz hs
      · rintro (h1 | ⟨z, hzc, haz, hw⟩)
        · obtain ⟨hs, ho, _⟩ := spread_of_connected hwf hcons hok hp h1
          exact ⟨hs, ho⟩
        · obtain ⟨hs, ho, hzz⟩ := spread_of_connected hwf hcons hok hp hzc
          obtain ⟨cq, hcq⟩ := (within_iff_cellAt hwf _ _).1 hw
          exact ⟨spread.next hs ho hzz haz hw,
            openAt_of_parts hcq (hfree _ _).1 (hfree _ _).2
              (not_mine_of_adjacent_zero hcons hzz haz hw)⟩

/-- The cells revealed by `updateOnReveal` on a cell of a fresh board. -/
theorem revealedAt_fresh_reveal {b b1 : board} (hinv : b.inv) (hunt : b.untouched)
    {x y : Int} {t₁ t₂ : Nat} (hin : b.withinBoarder x y = true)
    (hb1 : b.updateOnReveal x y t₁ t₂ = some b1) (q : Int × Int) :
    revealedAt b1.grid q.1 q.2 = true ↔ expectedRevealed b (x, y) q := by
  obtain ⟨hcells, _, _, hact, _⟩ := hunt
  have hwf := hinv.1
  obtain ⟨c, hc⟩ := (within_iff_cellAt hwf x y).1 hin
  obtain ⟨hr, hf⟩ := hcells x y c hc
  have hg0 : (b.startClock t₁).grid = b.grid := by rw [startClock_eq]
  have hw0 : ∀ i j, (b.startClock t₁).withinBoarder i j = b.withinBoarder i j := by
    intro i j
    have h1 : (b.startClock t₁).width = b.width := by rw [startClock_eq]
    have h2 : (b.startClock t₁).height = b.height := by rw [startClock_eq]
    simp [board.withinBoarder, h1, h2]
  have hunrev : ∀ i j, revealedAt b.grid i j = false := by
    intro i j
    cases h0 : cellAt b.grid i j with
    | none => simp [revealedAt, h0]
    | some c0 => simpa [revealedAt, h0] using (hcells i j c0 h0).1
  cases hm : c.isMine with
  | true =>
    have hexp : expectedRevealed b (x, y) q ↔ q = (x, y) := by
      simp [expectedRevealed, hc, hm]
    rw [hexp]
    rcases updateOnReveal_cases b x y t₁ t₂ hwf with
      ⟨h1 | h1, _⟩ | ⟨_, _, c1, hc1, ⟨h1, _⟩ | ⟨_, _, _, g, hg, h1⟩ | ⟨_, _, hm1, _⟩⟩
    · rw [hin] at h1; cases h1
    · rw [hact] at h1; cases h1
    · rw [hc] at hc1; cases hc1
      rcases h1 with h1 | h1
      · rw [hr] at h1; cases h1
      · rw [hf] at h1; cases h1
    · rw [hb1] at h1
      cases h1
      rw [checkWin_grid]
      show revealedAt g q.1 q.2 = true ↔ _
      obtain ⟨hxy, honly⟩ := revealedAt_updCell_reveal hg
      constructor
      · intro h
        obtain ⟨h1, h2⟩ := honly q.1 q.2 (by rw [hg0]; exact hunrev _ _) h
        exact Prod.ext h1 h2
      · rintro rfl
        exact hxy
    · rw [hc] at hc1; cases hc1
      rw [hm] at hm1; cases hm1
  | false =>
    have hopen : openAt b.grid x y = true := by simp [openAt, hc, hr, hf, hm]
    have hopen0 : openAt (b.startClock t₁).grid x y = true := by rw [hg0]; exact hopen
    have hinv0 := inv_startClock hinv t₁
    obtain ⟨b3, hb3, hp3⟩ := updateOnReveal_open hinv t₁ t₂ hact hin hopen
    rw [hb1] at hb3
    cases hb3
    rw [checkWin_grid, ← spread_iff_expected hwf hinv.2.1 hcells hopen q]
    constructor
    · intro h
      have hu : revealedAt (b.startClock t₁).grid q.1 q.2 = false := by
        rw [hg0]; exact hunrev _ _
      refine ⟨spread_congr hg0.symm (fun i j => (hw0 i j).symm) (hp3.2.2.2 q.1 q.2 hu h), ?_⟩
      rw [← hg0]
      exact revealsFrom_new_open hinv0.1 hp3.1 hu h
    · rintro ⟨hs, ho⟩
      exact explorePost_complete hinv0.1 hp3 hopen0 (spread_congr hg0 hw0 hs)
        (by rw [hg0]; exact ho)

/-! ## Single-cell reveals, safety and frame -/

/-- The call `updateOnReveal` on an unrevealed, unflagged mine of an active
board: the cell is revealed, the game is over, and the win check follows. -/
theorem updateOnReveal_mine (b : board) (x y : Int) (c : cell) (t₁ t₂ : Nat)
    (hact : b.active = true) (hin : b.withinBoarder x y = true)
    (hc : cellAt b.grid x y = some c) (hr : c.revealed = false) (hf : c.flagged = false)
    (hm : c.isMine = true) :
    ∃ g, updCell b.grid x y (fun c => { c with revealed := true }) = some g ∧
      b.updateOnReveal x y t₁ t₂ = some (board.checkWin
        { b.startClock t₁ with
          grid := g, numRevealed := (b.startClock t₁).numRevealed + 1,
          gameDurationSeconds :=
            board.secondsElapsed
              { b.startClock t₁ with
                grid := g, numRevealed := (b.startClock t₁).numRevealed + 1 } t₂,
          active := false } t₂) := by
  have hg0 : (b.startClock t₁).grid = b.grid := by rw [startClock_eq]
  have hc0 : cellAt (b.startClock t₁).grid x y = some c := by rw [hg0]; exact hc
  obtain ⟨g, hg⟩ := updCell_of_cellAt hc0 (fun c => { c with revealed := true })
  refine ⟨g, by rw [← hg0]; exact hg, ?_⟩
  have h1 := cellAt_updCell_same hg
  rw [hc0] at h1
  have hex := explore_closed
    { b.startClock t₁ with
      grid := g, numRevealed := (b.startClock t₁).numRevealed + 1,
      gameDurationSeconds :=
        board.secondsElapsed
          { b.startClock t₁ with
            grid := g, numRevealed := (b.startClock t₁).numRevealed + 1 } t₂,
      active := false } x y _ h1 (by simp)
  simp only [board.updateOnReveal, hin, hact, hc0, hr, hf, hm, hg, hex, Bool.not_true,
    Bool.or_self, Bool.false_eq_true, if_false, if_true]

/-- The flood-fill on an open cell whose `num` is positive reveals that cell
and does not go further. -/
theorem explore_positive (b : board) (x y : Int) (c : cell)
    (hc : cellAt b.grid x y = some c) (hr : c.revealed = false) (hf : c.flagged = false)
    (hm : c.isMine = false) (hpos : 0 < c.num) :
    ∃ g, updCell b.grid x y (fun c => { c with revealed := true }) = some g ∧
      b.explore x y = some { b with grid := g, numRevealed := b.numRevealed + 1 } := by
  obtain ⟨g, hg⟩ := updCell_of_cellAt hc (fun c => { c with revealed := true })
  refine ⟨g, hg, ?_⟩
  have hnum : c.num ≥ 0 := by omega
  have hz : ¬ c.num = 0 := by omega
  simp only [board.explore, exploreAux, hc, hr, hf, hm, hnum, hg, hz, if_true, Bool.or_self,
    Bool.false_eq_true, if_false]

/-- The call `updateOnReveal` on an open cell with positive `num` of an active
board: the cell is revealed, and the win check follows. -/
theorem updateOnReveal_positive (b : board) (x y : Int) (c : cell) (t₁ t₂ : Nat)
    (hact : b.active = true) (hin : b.withinBoarder x y = true)
    (hc : cellAt b.grid x y = some c) (hr : c.revealed = false) (hf : c.flagged = false)
    (hm : c.isMine = false) (hpos : 0 < c.num) :
    ∃ g, updCell b.grid x y (fun c => { c with revealed := true }) = some g ∧
      b.updateOnReveal x y t₁ t₂ = some (board.checkWin
        { b.startClock t₁ with
          grid := g, numRevealed := (b.startClock t₁).numRevealed + 1 } t₂) := by
  have hg0 : (b.startClock t₁).grid = b.grid := by rw [startClock_eq]
  have hc0 : cellAt (b.startClock t₁).grid x y = some c := by rw [hg0]; exact hc
  obtain ⟨g, hg, hex⟩ := explore_positive (b.startClock t₁) x y c hc0 hr hf hm hpos
  refine ⟨g, by rw [← hg0]; exact hg, ?_⟩
  simp only [board.updateOnReveal, hin, hact, hc0, hr, hf, hm, hex, Bool.not_true,
    Bool.or_self, Bool.false_eq_true, if_false]

theorem sameLayout_refl (b : board) : sameLayout b b := ⟨rfl, rfl, rfl, fun _ _ => rfl⟩

theorem sameLayout_trans {b b1 b2 : board} (h1 : sameLayout b b1) (h2 : sameLayout b1 b2) :
    sameLayout b b2 := by
  obtain ⟨a1, a2, a3, a4⟩ := h1
  obtain ⟨c1, c2, c3, c4⟩ := h2
  exact ⟨by rw [c1, a1], by rw [c2, a2], by rw [c3, a3], fun i j => by rw [c4, a4]⟩

theorem sameLayout_updCell {b b1 : board} {x y : Int} {f : cell → cell}
    (hg : updCell b.grid x y f = some b1.grid)
    (hf : ∀ c, (f c).num = c.num ∧ (f c).isMine = c.isMine) (hw : b1.width = b.width)
    (hh : b1.height = b.height) (hm : b1.numMines = b.numMines) : sameLayout b b1 := by
  refine ⟨hw, hh, hm, ?_⟩
  intro i j
  by_cases hij : i = x ∧ j = y
  · obtain ⟨rfl, rfl⟩ := hij
    rw [cellAt_updCell_same hg]
    cases h0 : cellAt b.grid i j with
    | none => rfl
    | some c => simp [(hf c).1, (hf c).2]
  · rw [cellAt_updCell_other hg hij]

theorem sameLayout_startClock (b : board) (t₁ : Nat) : sameLayout b (b.startClock t₁) := by
  refine ⟨?_, ?_, ?_, ?_⟩
  · rw [startClock_eq]
  · rw [startClock_eq]
  · rw [startClock_eq]
  · intro i j
    have hg0 : (b.startClock t₁).grid = b.grid := by rw [startClock_eq]
    rw [hg0]

theorem sameLayout_checkWin (b : board) (t₂ : Nat) : sameLayout b (b.checkWin t₂) := by
  refine ⟨?_, ?_, ?_, ?_⟩
  · rw [checkWin_eq]
  · rw [checkWin_eq]
  · rw [checkWin_eq]
  · intro i j
    rw [checkWin_grid]

theorem visitNeighbors_sameLayout (visit : board → Int → Int → Option board) (x y : Int)
    (hv : ∀ b2 x2 y2 b3, visit b2 x2 y2 = some b3 → sameLayout b2 b3)
    (ds : List (Int × Int)) (b b1 : board)
    (h : visitNeighbors visit x y b ds = some b1) : sameLayout b b1 := by
  induction ds generalizing b with
  | nil =>
    simp only [visitNeighbors, Option.some.injEq] at h
    subst h
    exact sameLayout_refl b
  | cons d ds ih =>
    by_cases hin : b.withinBoarder (x + d.1) (y + d.2) = true
    · simp only [visitNeighbors, hin, if_true] at h
      cases hv1 : visit b (x + d.1) (y + d.2) with
      | none => simp [hv1] at h
      | some b3 =>
        simp only [hv1] at h
        exact sameLayout_trans (hv _ _ _ _ hv1) (ih b3 h)
    · simp only [visitNeighbors, hin] at h
      exact ih b h

/-- The flood-fill, whenever it returns, has left the layout alone. -/
theorem exploreAux_sameLayout (nbrs : List (Int × Int)) (fuel : Nat) (b : board) (x y : Int)
    (b1 : board) (h : exploreAux nbrs fuel b x y = some b1) : sameLayout b b1 := by
  induction fuel generalizing b x y b1 with
  | zero => simp [exploreAux] at h
  | succ fuel ih =>
    cases hc : cellAt b.grid x y with
    | none => simp [exploreAux, hc] at h
    | some c =>
      by_cases hclosed : (c.revealed || c.flagged || c.isMine) = true
      · simp only [exploreAux, hc, hclosed, if_true, Option.some.injEq] at h
        subst h
        exact sameLayout_refl b
      · have hclosed2 : (c.revealed || c.flagged || c.isMine) = false := by
          simpa using hclosed
        by_cases hnum : c.num ≥ 0
        · cases hg : updCell b.grid x y (fun c => { c with revealed := true }) with
          | none => simp [exploreAux, hc, hclosed2, hnum, hg] at h
          | some g =>
            have hstep : sameLayout b { b with grid := g, numRevealed := b.numRevealed + 1 } :=
              sameLayout_updCell hg (fun _ => ⟨rfl, rfl⟩) rfl rfl rfl
            by_cases hz : c.num = 0
            · simp only [exploreAux, hc, hclosed2, hnum, hg, hz, if_true,
                Bool.false_eq_true, if_false] at h
              exact sameLayout_trans hstep
                (visitNeighbors_sameLayout (exploreAux nbrs fuel) x y
                  (fun b2 x2 y2 b3 h3 => ih b2 x2 y2 b3 h3) nbrs _ b1 h)
            · simp only [exploreAux, hc, hclosed2, hnum, hg, hz, if_true,
                Bool.false_eq_true, if_false, Option.some.injEq] at h
              subst h
              exact hstep
        · have hz : ¬ c.num = 0 := by omega
          simp only [exploreAux, hc, hclosed2, hnum, hz, Bool.false_eq_true, if_false,
            Option.some.injEq] at h
          subst h
          exact sameLayout_refl b

theorem updateOnReveal_sameLayout {b b1 : board} {x y : Int} {t₁ t₂ : Nat}
    (h : b.updateOnReveal x y t₁ t₂ = some b1) : sameLayout b b1 := by
  by_cases hguard : (!b.withinBoarder x y || !b.active) = true
  · simp only [board.updateOnReveal, hguard, if_true, Option.some.injEq] at h
    subst h
    exact sameLayout_refl b
  · have hguard2 : (!b.withinBoarder x y || !b.active) = false := by simpa using hguard
    simp only [board.updateOnReveal, hguard2, Bool.false_eq_true, if_false] at h
    have h0 := sameLayout_startClock b t₁
    cases hc : cellAt (b.startClock t₁).grid x y with
    | none => simp [hc] at h
    | some c =>
      simp only [hc] at h
      by_cases hrf : (c.revealed || c.flagged) = true
      · simp only [hrf, if_true, Option.some.injEq] at h
        subst h
        exact h0
      · have hrf2 : (c.revealed || c.flagged) = false := by simpa using hrf
        simp only [hrf2, Bool.false_eq_true, if_false] at h
        cases hm : c.isMine with
        | true =>
          simp only [hm, if_true] at h
          cases hg : updCell (b.startClock t₁).grid x y
              (fun c => { c with revealed := true }) with
          | none => simp [hg] at h
          | some g =>
            simp only [hg] at h
            cases hex : board.explore
                { b.startClock t₁ with
                  grid := g, numRevealed := (b.startClock t₁).numRevealed + 1,
                  gameDurationSeconds :=
                    board.secondsElapsed
                      { b.startClock t₁ with
                        grid := g, numRevealed := (b.startClock t₁).numRevealed + 1 } t₂,
                  active := false } x y with
            | none => simp [hex] at h
            | some b3 =>
              simp only [hex, Option.some.injEq] at h
              subst h
              have h1 : sameLayout (b.startClock t₁)
                  { b.startClock t₁ with
                    grid := g, numRevealed := (b.startClock t₁).numRevealed + 1,
                    gameDurationSeconds :=
                      board.secondsElapsed
                        { b.startClock t₁ with
                          grid := g, numRevealed := (b.startClock t₁).numRevealed + 1 } t₂,
                    active := false } :=
                sameLayout_updCell hg (fun _ => ⟨rfl, rfl⟩) rfl rfl rfl
              exact sameLayout_trans h0 (sameLayout_trans h1
                (sameLayout_trans (exploreAux_sameLayout _ _ _ _ _ _ hex)
                  (sameLayout_checkWin b3 t₂)))
        | false =>
          simp only [hm, Bool.false_eq_true, if_false] at h
          cases hex : (b.startClock t₁).explore x y with
          | none => simp [hex] at h
          | some b3 =>
            simp only [hex, Option.some.injEq] at h
            subst h
            exact sameLayout_trans h0
              (sameLayout_trans (exploreAux_sameLayout _ _ _ _ _ _ hex)
                (sameLayout_checkWin b3 t₂))

theorem updateOnFlag_sameLayout {b b1 : board} {x y : Int} {t₁ t₂ : Nat}
    (h : b.updateOnFlag x y t₁ t₂ = some b1) : sameLayout b b1 := by
  by_cases hin : b.withinBoarder x y = true
  · cases hc : cellAt b.grid x y with
    | none => simp [board.updateOnFlag, hin, hc] at h
    | some c =>
      rcases updateOnFlag_cell b x y t₁ t₂ c hin hc with ⟨_, h1⟩ | ⟨_, _, g, hg, h1⟩
      · rw [h] at h1
        cases h1
        exact sameLayout_refl b
      · rw [h] at h1
        cases h1
        have h2 : sameLayout (b.startClock t₁)
            { b.startClock t₁ with
              grid := g,
              numFlagged := (b.startClock t₁).numFlagged + (if c.flagged then -1 else 1) } :=
          sameLayout_updCell hg (fun _ => ⟨rfl, rfl⟩) rfl rfl rfl
        exact sameLayout_trans (sameLayout_startClock b t₁)
          (sameLayout_trans h2 (sameLayout_checkWin _ t₂))
  · have hin2 : b.withinBoarder x y = false := by simpa using hin
    simp only [board.updateOnFlag, hin2, Bool.not_false, if_true, Option.some.injEq] at h
    subst h
    exact sameLayout_refl b

/-- No public call, on any board, changes the layout. -/
theorem step_sameLayout {b b1 : board} {a : action} (h : b.step a = some b1) :
    sameLayout b b1 := by
  cases a with
  | reveal x y t₁ t₂ => exact updateOnReveal_sameLayout h
  | flag x y t₁ t₂ => exact updateOnFlag_sameLayout h

theorem run_sameLayout {b b1 : board} (acts : List action) (h : b.run acts = some b1) :
    sameLayout b b1 := by
  induction acts generalizing b with
  | nil =>
    simp only [board.run, Option.some.injEq] at h
    subst h
    exact sameLayout_refl b
  | cons a rest ih =>
    cases h1 : b.step a with
    | none => simp [board.run, h1] at h
    | some b2 =>
      simp only [board.run, h1] at h
      exact sameLayout_trans (step_sameLayout h1) (ih h)

/-- On a board whose grid is `height × width` both public calls return, for all
integer coordinates. -/
theorem step_total {b : board} (hwf : b.wellFormed) (x y : Int) (t₁ t₂ : Nat) :
    (∃ b1, b.updateOnReveal x y t₁ t₂ = some b1) ∧
      (∃ b1, b.updateOnFlag x y t₁ t₂ = some b1) := by
  constructor
  · rcases updateOnReveal_cases b x y t₁ t₂ hwf with
      ⟨_, h⟩ | ⟨_, _, c, _, ⟨_, h⟩ | ⟨_, _, _, g, _, h⟩ | ⟨_, _, _, b3, _, _, h⟩⟩
    all_goals exact ⟨_, h⟩
  · rcases updateOnFlag_cases b x y t₁ t₂ hwf with
      ⟨_, h⟩ | ⟨_, c, _, ⟨_, h⟩ | ⟨_, _, g, _, h⟩⟩
    all_goals exact ⟨_, h⟩

/-- The construction facts in a state reached from a constructed board. -/
theorem reachable_layout {width height numMines : Int} {picks : List (Int × Int)}
    {b0 b : board} {acts : List action}
    (hmk : makeBoard width height numMines picks = some b0)
    (hrun : b0.run acts = some b) :
    sameLayout b0 b ∧
      countCells (fun c => c.isMine) b.grid = countCells (fun c => c.isMine) b0.grid ∧
      b.numMines = (countCells (fun c => c.isMine) b.grid : Int) ∧ b.consistent := by
  have hinv0 := inv_makeBoard hmk
  have hinv := reachable_inv hmk hrun
  have hl := run_sameLayout acts hrun
  refine ⟨hl, ?_, hinv.2.2.1, hinv.2.1⟩
  have h1 := hinv.2.2.1
  have h2 := hinv0.2.2.1
  have h3 := hl.2.2.1
  omega

theorem run_snoc {b b1 b2 : board} {acts : List action} {a : action}
    (h1 : b.run acts = some b1) (h2 : b1.step a = some b2) :
    b.run (acts ++ [a]) = some b2 := by
  induction acts generalizing b with
  | nil =>
    simp only [board.run, Option.some.injEq] at h1
    subst h1
    simp [board.run, h2]
  | cons a0 rest ih =>
    cases h3 : b.step a0 with
    | none => simp [board.run, h3] at h1
    | some b3 =>
      simp only [board.run, h3] at h1
      simp only [List.cons_append, board.run, h3]
      exact ih h1

/-! ## The flood-fill on arbitrary boards: exactness, fuel and order -/

theorem liveAt_false_of_revealedAt {g : List (List cell)} {i j : Int}
    (h : revealedAt g i j = true) : liveAt g i j = false := by
  cases h0 : cellAt g i j with
  | none => simp [liveAt, h0]
  | some c =>
    simp only [revealedAt, h0] at h
    simp [liveAt, h0, h]

theorem openAt_of_liveAt {g : List (List cell)} {i j : Int}
    (h : liveAt g i j = true) : openAt g i j = true := by
  cases h0 : cellAt g i j with
  | none => simp [liveAt, h0] at h
  | some c =>
    simp only [liveAt, h0, Bool.and_eq_true] at h
    simp only [openAt, h0]
    exact h.1

theorem revealsFrom_liveAt {m : Prop} {b b1 : board} (hwf : b.wellFormed)
    (h : revealsFrom m b b1) {i j : Int} (hl : liveAt b1.grid i j = true) :
    liveAt b.grid i j = true := by
  rcases revealsFrom_cell hwf h i j with ⟨_, h1⟩ | ⟨c, c1, h0, h1, h2, h3, _⟩
  · simp [liveAt, h1] at hl
  · simp only [liveAt, h1] at hl
    simp only [liveAt, h0]
    rw [h2] at hl
    have hr : c.revealed = false := by
      cases hr : c.revealed with
      | true => simp [h3 hr] at hl
      | false => rfl
    simp only [Bool.and_eq_true, Bool.not_eq_true', Bool.or_eq_false_iff,
      decide_eq_true_eq] at hl ⊢
    exact ⟨⟨⟨hr, hl.1.1.2⟩, hl.1.2⟩, hl.2⟩

theorem revealsFrom_not_liveAt {m : Prop} {b b1 : board} (hwf : b.wellFormed)
    (h : revealsFrom m b b1) {i j : Int} (hl : liveAt b.grid i j = false) :
    liveAt b1.grid i j = false := by
  cases h1 : liveAt b1.grid i j with
  | false => rfl
  | true =>
    rw [revealsFrom_liveAt hwf h h1] at hl
    cases hl

theorem exploreEffect_refl (nbrs : List (Int × Int)) {b : board} (hwf : b.wellFormed)
    {x y : Int} (h : liveAt b.grid x y = false) : exploreEffect nbrs b x y b := by
  refine ⟨revealsFrom_refl hwf, ?_, ?_, ?_⟩
  · intro ho; rw [h] at ho; cases ho
  · intro i j h1 h2; rw [h1] at h2; cases h2
  · intro i j h1 h2; rw [h1] at h2; cases h2

theorem visitNeighbors_effect (nbrs : List (Int × Int))
    (visit : board → Int → Int → Option board) (fuel : Nat) (x y : Int)
    (hv : ∀ b2 x2 y2, b2.wellFormed → b2.withinBoarder x2 y2 = true →
      countCells (fun c => !c.revealed) b2.grid < fuel →
      ∃ b3, visit b2 x2 y2 = some b3 ∧ exploreEffect nbrs b2 x2 y2 b3)
    (ds : List (Int × Int)) (b : board) (hwf : b.wellFormed)
    (hlt : countCells (fun c => !c.revealed) b.grid < fuel) :
    ∃ b1, visitNeighbors visit x y b ds = some b1 ∧ revealsFrom False b b1 ∧
      (∀ d ∈ ds, b.withinBoarder (x + d.1) (y + d.2) = true →
        liveAt b1.grid (x + d.1) (y + d.2) = false) ∧
      (∀ i j, revealedAt b.grid i j = false → revealedAt b1.grid i j = true →
        zeroAt b.grid i j = true → ∀ d ∈ nbrs, b.withinBoarder (i + d.1) (j + d.2) = true →
          liveAt b1.grid (i + d.1) (j + d.2) = false) ∧
      (∀ i j, revealedAt b.grid i j = false → revealedAt b1.grid i j = true →
        liveAt b.grid i j = true ∧
        ∃ d ∈ ds, b.withinBoarder (x + d.1) (y + d.2) = true ∧
          spread nbrs b (x + d.1, y + d.2) (i, j)) := by
  induction ds generalizing b with
  | nil =>
    refine ⟨b, rfl, revealsFrom_refl hwf, ?_, ?_, ?_⟩
    · intro d hd; cases hd
    · intro i j h1 h2; rw [h1] at h2; cases h2
    · intro i j h1 h2; rw [h1] at h2; cases h2
  | cons d ds ih =>
    by_cases hin : b.withinBoarder (x + d.1) (y + d.2) = true
    · obtain ⟨b3, hb3, hr3, T3, K3, S3⟩ := hv b _ _ hwf hin hlt
      have hwf3 := hr3.2.1
      have hlt3 : countCells (fun c => !c.revealed) b3.grid < fuel :=
        lt_of_le_of_lt hr3.2.2.2.1 hlt
      obtain ⟨b1, hb1, hr1, LT1, LK1, LS1⟩ := ih b3 hwf3 hlt3
      refine ⟨b1, ?_, revealsFrom_trans hr3 hr1, ?_, ?_, ?_⟩
      · simp only [visitNeighbors, hin, if_true, hb3]
        exact hb1
      · intro e he hine
        rcases List.mem_cons.1 he with rfl | he
        · cases ho : liveAt b.grid (x + e.1) (y + e.2) with
          | true =>
            exact liveAt_false_of_revealedAt (revealsFrom_revealedAt hwf3 hr1 (T3 ho))
          | false =>
            exact revealsFrom_not_liveAt hwf3 hr1 (revealsFrom_not_liveAt hwf hr3 ho)
        · exact LT1 e he (by rw [revealsFrom_within hr3]; exact hine)
      · intro i j h1 h2 hz e he hine
        cases h3 : revealedAt b3.grid i j with
        | true => exact revealsFrom_not_liveAt hwf3 hr1 (K3 i j h1 h3 hz e he hine)
        | false =>
          exact LK1 i j h3 h2 (by rw [revealsFrom_zeroAt hwf hr3]; exact hz) e he
            (by rw [revealsFrom_within hr3]; exact hine)
      · intro i j h1 h2
        cases h3 : revealedAt b3.grid i j with
        | true =>
          obtain ⟨hl, _, hs⟩ := S3 i j h1 h3
          exact ⟨hl, d, List.mem_cons_self _ _, hin, hs⟩
        | false =>
          obtain ⟨hl, e, he, hine, hs⟩ := LS1 i j h3 h2
          refine ⟨revealsFrom_liveAt hwf hr3 hl, e, List.mem_cons_of_mem _ he, ?_,
            spread_mono hwf hr3 hs⟩
          rw [← revealsFrom_within hr3]; exact hine
    · obtain ⟨b1, hb1, hr1, LT1, LK1, LS1⟩ := ih b hwf hlt
      refine ⟨b1, ?_, hr1, ?_, LK1, ?_⟩
      · simp only [visitNeighbors, hin]
        exact hb1
      · intro e he hine
        rcases List.mem_cons.1 he with rfl | he
        · exact absurd hine hin
        · exact LT1 e he hine
      · intro i j h1 h2
        obtain ⟨hl, e, he, hine, hs⟩ := LS1 i j h1 h2
        exact ⟨hl, e, List.mem_cons_of_mem _ he, hine, hs⟩

/-- On every board whose grid is `height × width`, the flood-fill with enough
fuel returns, and what it returns satisfies `exploreEffect`. -/
theorem exploreAux_effect (nbrs : List (Int × Int)) (fuel : Nat) (b : board) (x y : Int)
    (hwf : b.wellFormed) (hin : b.withinBoarder x y = true)
    (hlt : countCells (fun c => !c.revealed) b.grid < fuel) :
    ∃ b1, exploreAux nbrs fuel b x y = some b1 ∧ exploreEffect nbrs b x y b1 := by
  induction fuel generalizing b x y with
  | zero => omega
  | succ fuel ih =>
    obtain ⟨c, hc⟩ := (within_iff_cellAt hwf x y).1 hin
    by_cases hclosed : (c.revealed || c.flagged || c.isMine) = true
    · refine ⟨b, ?_, exploreEffect_refl nbrs hwf ?_⟩
      · simp only [exploreAux, hc, hclosed, if_true]
      · simp [liveAt, hc, hclosed]
    · have hr : c.revealed = false := by
        cases h : c.revealed <;> simp [h] at hclosed ⊢
      have hf : c.flagged = false := by
        cases h : c.flagged <;> simp [h] at hclosed ⊢
      have hm : c.isMine = false := by
        cases h : c.isMine <;> simp [h] at hclosed ⊢
      by_cases hnum : c.num ≥ 0
      · have hlive : liveAt b.grid x y = true := by simp [liveAt, hc, hr, hf, hm, hnum]
        have hopen : openAt b.grid x y = true := openAt_of_liveAt hlive
        obtain ⟨g, hg⟩ := updCell_of_cellAt hc (fun c => { c with revealed := true })
        obtain ⟨hstep, hcount⟩ := revealsFrom_step False hwf hc hr hf (by simp [hm]) hg
        obtain ⟨hrevxy, honly⟩ := revealedAt_updCell_reveal hg
        by_cases hz : c.num = 0
        · have hzero : zeroAt b.grid x y = true := by simp [zeroAt, hc, hz]
          have hlt2 : countCells (fun c => !c.revealed)
              ({ b with grid := g, numRevealed := b.numRevealed + 1 } : board).grid < fuel := by
            show countCells (fun c => !c.revealed) g < fuel
            omega
          obtain ⟨b1, hb1, hr1, LT, LK, LS⟩ :=
            visitNeighbors_effect nbrs (exploreAux nbrs fuel) fuel x y
              (fun b2 x2 y2 h1 h2 h3 => ih b2 x2 y2 h1 h2 h3) nbrs _ hstep.2.1 hlt2
          refine ⟨b1, ?_, revealsFrom_trans hstep hr1, ?_, ?_, ?_⟩
          · simp only [exploreAux, hc, hr, hf, hm, hnum, hg, hz, if_true, Bool.or_self,
              Bool.false_eq_true, if_false]
            exact hb1
          · intro _
            exact revealsFrom_revealedAt hstep.2.1 hr1 hrevxy
          · intro i j h1 h2 hzij e he hine
            cases h3 : revealedAt g i j with
            | true =>
              obtain ⟨rfl, rfl⟩ := honly i j h1 h3
              exact LT e he hine
            | false =>
              exact LK i j h3 h2 (by rw [revealsFrom_zeroAt hwf hstep]; exact hzij) e he hine
          · intro i j h1 h2
            cases h3 : revealedAt g i j with
            | true =>
              obtain ⟨rfl, rfl⟩ := honly i j h1 h3
              exact ⟨hlive, hlive, spread.start⟩
            | false =>
              obtain ⟨hl, e, he, hine, hs⟩ := LS i j h3 h2
              exact ⟨revealsFrom_liveAt hwf hstep hl, hlive, spread_trans
                (spread.next spread.start hopen hzero ⟨e, he, rfl⟩ hine)
                (spread_mono hwf hstep hs)⟩
        · refine ⟨_, ?_, hstep, fun _ => hrevxy, ?_, ?_⟩
          · simp only [exploreAux, hc, hr, hf, hm, hnum, hg, hz, if_true, Bool.or_self,
              Bool.false_eq_true, if_false]
          · intro i j h1 h2 hzij
            obtain ⟨rfl, rfl⟩ := honly i j h1 h2
            simp [zeroAt, hc, hz] at hzij
          · intro i j h1 h2
            obtain ⟨rfl, rfl⟩ := honly i j h1 h2
            exact ⟨hlive, hlive, spread.start⟩
      · refine ⟨b, ?_, exploreEffect_refl nbrs hwf ?_⟩
        · have hz : ¬ c.num = 0 := by omega
          simp only [exploreAux, hc, hr, hf, hm, hnum, hz, Bool.or_self,
            Bool.false_eq_true, if_false]
        · simp [liveAt, hc, hnum]

theorem liveAt_of_open_zero {g : List (List cell)} {i j : Int}
    (ho : openAt g i j = true) (hz : zeroAt g i j = true) : liveAt g i j = true := by
  cases h0 : cellAt g i j with
  | none => simp [openAt, h0] at ho
  | some c =>
    simp only [openAt, h0] at ho
    simp only [zeroAt, h0, decide_eq_true_eq] at hz
    simp only [liveAt, h0, ho, Bool.true_and, decide_eq_true_eq]
    omega

theorem revealedAt_of_live_then_not {m : Prop} {b b1 : board} (hwf : b.wellFormed)
    (h : revealsFrom m b b1) {i j : Int} (hl : liveAt b.grid i j = true)
    (hl1 : liveAt b1.grid i j = false) : revealedAt b1.grid i j = true := by
  rcases revealsFrom_cell hwf h i j with ⟨h0, _⟩ | ⟨c, c1, h0, h1, h2, _, _⟩
  · simp [liveAt, h0] at hl
  · simp only [liveAt, h0, Bool.and_eq_true, Bool.not_eq_true', Bool.or_eq_false_iff,
      decide_eq_true_eq] at hl
    simp only [liveAt, h1] at hl1
    simp only [revealedAt, h1]
    rw [h2] at hl1
    cases hr : c1.revealed with
    | true => rfl
    | false =>
      simp [hr, hl.1.1.2, hl.1.2, hl.2] at hl1

/-- Completeness of the flood-fill on any board: every live cell it can get to
is revealed. -/
theorem exploreEffect_complete {nbrs : List (Int × Int)} {b b1 : board} {x y : Int}
    (hwf : b.wellFormed) (hp : exploreEffect nbrs b x y b1)
    (hlive : liveAt b.grid x y = true) {q : Int × Int}
    (hs : spread nbrs b (x, y) q) (hq : liveAt b.grid q.1 q.2 = true) :
    revealedAt b1.grid q.1 q.2 = true := by
  obtain ⟨hr, T, K, _⟩ := hp
  induction hs with
  | start => exact T hlive
  | @next q1 r _ ho hz ha hw ih =>
    have h1 := ih (liveAt_of_open_zero ho hz)
    have hunrev : revealedAt b.grid q1.1 q1.2 = false := by
      cases h0 : cellAt b.grid q1.1 q1.2 with
      | none => simp [revealedAt, h0]
      | some c =>
        simp only [openAt, h0] at ho
        simp only [revealedAt, h0]
        cases hrc : c.revealed with
        | false => rfl
        | true => simp [hrc] at ho
    obtain ⟨d, hd, rfl⟩ := ha
    exact revealedAt_of_live_then_not hwf hr hq (K q1.1 q1.2 hunrev h1 hz d hd hw)

/-- Exactness of the flood-fill: the cells revealed when it returns are those
revealed before and, if the start cell was live, the live cells it can get
to. -/
theorem exploreEffect_iff {nbrs : List (Int × Int)} {b b1 : board} {x y : Int}
    (hwf : b.wellFormed) (hp : exploreEffect nbrs b x y b1) (i j : Int) :
    revealedAt b1.grid i j = true ↔
      (revealedAt b.grid i j = true ∨
        (liveAt b.grid x y = true ∧ liveAt b.grid i j = true ∧
          spread nbrs b (x, y) (i, j))) := by
  constructor
  · intro h
    cases h0 : revealedAt b.grid i j with
    | true => exact Or.inl rfl
    | false =>
      obtain ⟨h1, h2, h3⟩ := hp.2.2.2 i j h0 h
      exact Or.inr ⟨h2, h1, h3⟩
  · rintro (h | ⟨h1, h2, h3⟩)
    · exact revealsFrom_revealedAt hwf hp.1 h
    · exact exploreEffect_complete hwf hp h1 h3 h2

theorem spread_subset {nbrs nbrs2 : List (Int × Int)} {b : board} {p q : Int × Int}
    (hsub : ∀ d, d ∈ nbrs → d ∈ nbrs2) (h : spread nbrs b p q) : spread nbrs2 b p q := by
  induction h with
  | start => exact spread.start
  | next _ ho hz ha hw ih =>
    obtain ⟨d, hd, hr⟩ := ha
    exact spread.next ih ho hz ⟨d, hsub d hd, hr⟩ hw

theorem grid_ext {g1 g2 : List (List cell)} {h w : Nat}
    (hl1 : g1.length = h) (hr1 : ∀ row ∈ g1, row.length = w)
    (hl2 : g2.length = h) (hr2 : ∀ row ∈ g2, row.length = w)
    (hcell : ∀ i j : Int, cellAt g1 i j = cellAt g2 i j) : g1 = g2 := by
  apply List.ext_getElem (by rw [hl1, hl2])
  intro n h1 h2
  have hw1 := hr1 _ (List.getElem_mem h1)
  have hw2 := hr2 _ (List.getElem_mem h2)
  apply List.ext_getElem (by rw [hw1, hw2])
  intro m hm1 hm2
  have hc := hcell (n : Int) (m : Int)
  have e1 : cellAt g1 (n : Int) (m : Int) = some (g1[n][m]) :=
    (cellAt_eq_some_iff g1 _ _ _).2 ⟨by omega, by omega, g1[n],
      by simp,
      by simp⟩
  have e2 : cellAt g2 (n : Int) (m : Int) = some (g2[n][m]) :=
    (cellAt_eq_some_iff g2 _ _ _).2 ⟨by omega, by omega, g2[n],
      by simp,
      by simp⟩
  rw [e1, e2] at hc
  exact Option.some.inj hc

/-- Two results of revealing cells of the same board that show the same
revealed cells are the same board. -/
theorem revealsFrom_unique {b b1 b2 : board} (hwf : b.wellFormed)
    (h1 : revealsFrom False b b1) (h2 : revealsFrom False b b2)
    (hsame : ∀ i j, revealedAt b1.grid i j = revealedAt b2.grid i j) : b1 = b2 := by
  have hcell : ∀ i j : Int, cellAt b1.grid i j = cellAt b2.grid i j := by
    intro i j
    have hs := hsame i j
    rcases revealsFrom_cell hwf h1 i j with ⟨h0, ha⟩ | ⟨c, c1, h0, ha, ea, _, _⟩
    · rcases revealsFrom_cell hwf h2 i j with ⟨_, hb⟩ | ⟨c0, c2, h00, _, _, _, _⟩
      · rw [ha, hb]
      · rw [h0] at h00; cases h00
    · rcases revealsFrom_cell hwf h2 i j with ⟨h00, _⟩ | ⟨c0, c2, h00, hb, eb, _, _⟩
      · rw [h0] at h00; cases h00
      · rw [h0] at h00
        cases h00
        simp only [revealedAt, ha, hb] at hs
        rw [ha, hb, ea, eb, hs]
  obtain ⟨e1, w1, _, _, _, r1, _, _⟩ := id h1
  obtain ⟨e2, w2, _, _, _, r2, _, _⟩ := id h2
  have hw1 : b1.width = b.width := by rw [e1]
  have hh1 : b1.height = b.height := by rw [e1]
  have hw2 : b2.width = b.width := by rw [e2]
  have hh2 : b2.height = b.height := by rw [e2]
  have hg : b1.grid = b2.grid :=
    grid_ext w1.1 w1.2 (by rw [w2.1, hh2, hh1]) (fun row hrow => by rw [w2.2 row hrow, hw2, hw1])
      hcell
  have hn : b1.numRevealed = b2.numRevealed := by
    rw [hg] at r1
    omega
  rw [e1, e2, hg, hn]

theorem visitNeighbors_mono (v1 v2 : board → Int → Int → Option board) (x y : Int)
    (hv : ∀ b2 x2 y2 b3, v1 b2 x2 y2 = some b3 → v2 b2 x2 y2 = some b3)
    (ds : List (Int × Int)) (b b1 : board)
    (h : visitNeighbors v1 x y b ds = some b1) : visitNeighbors v2 x y b ds = some b1 := by
  induction ds generalizing b with
  | nil => exact h
  | cons d ds ih =>
    by_cases hin : b.withinBoarder (x + d.1) (y + d.2) = true
    · simp only [visitNeighbors, hin, if_true] at h ⊢
      cases hv1 : v1 b (x + d.1) (y + d.2) with
      | none => simp [hv1] at h
      | some b3 =>
        simp only [hv1] at h
        simp only [hv _ _ _ _ hv1]
        exact ih b3 h
    · simp only [visitNeighbors, hin] at h ⊢
      exact ih b h

/-- More fuel does not change what the flood-fill returns. -/
theorem exploreAux_fuel_succ (nbrs : List (Int × Int)) (fuel : Nat) (b : board) (x y : Int)
    (b1 : board) (h : exploreAux nbrs fuel b x y = some b1) :
    exploreAux nbrs (fuel + 1) b x y = some b1 := by
  induction fuel generalizing b x y b1 with
  | zero => simp [exploreAux] at h
  | succ fuel ih =>
    cases hc : cellAt b.grid x y with
    | none => simp [exploreAux, hc] at h
    | some c =>
      by_cases hclosed : (c.revealed || c.flagged || c.isMine) = true
      · simp only [exploreAux, hc, hclosed, if_true] at h ⊢
        exact h
      · have hclosed2 : (c.revealed || c.flagged || c.isMine) = false := by
          simpa using hclosed
        by_cases hnum : c.num ≥ 0
        · cases hg : updCell b.grid x y (fun c => { c with revealed := true }) with
          | none => simp [exploreAux, hc, hclosed2, hnum, hg] at h
          | some g =>
            by_cases hz : c.num = 0
            · simp only [exploreAux, hc, hclosed2, hnum, hg, hz, if_true,
                Bool.false_eq_true, if_false] at h
              have h2 := visitNeighbors_mono (exploreAux nbrs fuel) (exploreAux nbrs (fuel + 1))
                x y (fun b2 x2 y2 b3 h3 => ih b2 x2 y2 b3 h3) nbrs _ b1 h
              rw [exploreAux]
              simp only [hc, hclosed2, hnum, hg, hz, if_true, Bool.false_eq_true, if_false]
              exact h2
            · rw [exploreAux] at h ⊢
              simp only [hc, hclosed2, hnum, hg, hz, if_true, Bool.false_eq_true,
                if_false] at h ⊢
              exact h
        · have hz : ¬ c.num = 0 := by omega
          rw [exploreAux] at h ⊢
          simp only [hc, hclosed2, hnum, hz, Bool.false_eq_true, if_false] at h ⊢
          exact h

theorem exploreAux_fuel_le (nbrs : List (Int × Int)) {fuel fuel2 : Nat} (hle : fuel ≤ fuel2)
    (b : board) (x y : Int) (b1 : board) (h : exploreAux nbrs fuel b x y = some b1) :
    exploreAux nbrs fuel2 b x y = some b1 := by
  induction fuel2, hle using Nat.le_induction with
  | base => exact h
  | succ n _ ih => exact exploreAux_fuel_succ nbrs n b x y b1 ih

/-- The flood-fill returns the same board for every amount of fuel above the
number of unrevealed cells, and that board satisfies `exploreEffect`. -/
theorem exploreAux_stable (nbrs : List (Int × Int)) (b : board) (x y : Int)
    (hwf : b.wellFormed) (hin : b.withinBoarder x y = true) :
    ∃ b1, exploreEffect nbrs b x y b1 ∧
      ∀ fuel, countCells (fun c => !c.revealed) b.grid < fuel →
        exploreAux nbrs fuel b x y = some b1 := by
  obtain ⟨b1, hb1, hp⟩ := exploreAux_effect nbrs
    (countCells (fun c => !c.revealed) b.grid + 1) b x y hwf hin (by omega)
  exact ⟨b1, hp, fun fuel hf => exploreAux_fuel_le nbrs (by omega) b x y b1 hb1⟩

/-- The result of the flood-fill depends on the offset list only through the
offsets it contains. -/
theorem exploreAux_offsets (nbrs nbrs2 : List (Int × Int)) (b : board) (x y : Int)
    (hwf : b.wellFormed) (hin : b.withinBoarder x y = true)
    (hsame : ∀ d, d ∈ nbrs ↔ d ∈ nbrs2) :
    ∃ b1, ∀ fuel, countCells (fun c => !c.revealed) b.grid < fuel →
      exploreAux nbrs fuel b x y = some b1 ∧ exploreAux nbrs2 fuel b x y = some b1 := by
  obtain ⟨b1, hp1, hf1⟩ := exploreAux_stable nbrs b x y hwf hin
  obtain ⟨b2, hp2, hf2⟩ := exploreAux_stable nbrs2 b x y hwf hin
  have heq : b1 = b2 := by
    apply revealsFrom_unique hwf hp1.1 hp2.1
    intro i j
    rw [Bool.eq_iff_iff, exploreEffect_iff hwf hp1, exploreEffect_iff hwf hp2]
    constructor
    · rintro (h | ⟨h1, h2, h3⟩)
      · exact Or.inl h
      · exact Or.inr ⟨h1, h2, spread_subset (fun d hd => (hsame d).1 hd) h3⟩
    · rintro (h | ⟨h1, h2, h3⟩)
      · exact Or.inl h
      · exact Or.inr ⟨h1, h2, spread_subset (fun d hd => (hsame d).2 hd) h3⟩
  subst heq
  exact ⟨b1, fun fuel hf => ⟨hf1 fuel hf, hf2 fuel hf⟩⟩

/-- A flood-fill called on a live cell leaves strictly fewer unrevealed cells. -/
theorem exploreAux_live_decreases (nbrs : List (Int × Int)) (fuel : Nat) (b : board)
    (x y : Int) (hwf : b.wellFormed) (hin : b.withinBoarder x y = true)
    (hlt : countCells (fun c => !c.revealed) b.grid < fuel)
    (hlive : liveAt b.grid x y = true) :
    ∃ b1, exploreAux nbrs fuel b x y = some b1 ∧
      countCells (fun c => !c.revealed) b1.grid < countCells (fun c => !c.revealed) b.grid := by
  cases fuel with
  | zero => omega
  | succ fuel =>
    obtain ⟨c, hc⟩ := (within_iff_cellAt hwf x y).1 hin
    simp only [liveAt, hc, Bool.and_eq_true, Bool.not_eq_true', Bool.or_eq_false_iff,
      decide_eq_true_eq] at hlive
    obtain ⟨⟨⟨hr, hf⟩, hm⟩, hnum⟩ := hlive
    have hnum2 : c.num ≥ 0 := hnum
    obtain ⟨g, hg⟩ := updCell_of_cellAt hc (fun c => { c with revealed := true })
    obtain ⟨hstep, hcount⟩ := revealsFrom_step False hwf hc hr hf (by simp [hm]) hg
    by_cases hz : c.num = 0
    · have hlt2 : countCells (fun c => !c.revealed)
          ({ b with grid := g, numRevealed := b.numRevealed + 1 } : board).grid < fuel := by
        show countCells (fun c => !c.revealed) g < fuel
        omega
      obtain ⟨b1, hb1, hr1⟩ := visitNeighbors_total (exploreAux nbrs fuel) fuel x y
        (fun b2 x2 y2 h1 h2 h3 => exploreAux_total nbrs fuel b2 x2 y2 h1 h2 h3)
        nbrs _ hstep.2.1 hlt2
      refine ⟨b1, ?_, ?_⟩
      · simp only [exploreAux, hc, hr, hf, hm, hnum2, hg, hz, if_true, Bool.or_self,
          Bool.false_eq_true, if_false]
        exact hb1
      · have h5 := hr1.2.2.2.1
        have h6 : countCells (fun c => !c.revealed)
            ({ b with grid := g, numRevealed := b.numRevealed + 1 } : board).grid =
            countCells (fun c => !c.revealed) g := rfl
        omega
    · refine ⟨({ b with grid := g, numRevealed := b.numRevealed + 1 } : board), ?_, ?_⟩
      · simp only [exploreAux, hc, hr, hf, hm, hnum2, hg, hz, if_true, Bool.or_self,
          Bool.false_eq_true, if_false]
      · show countCells (fun c => !c.revealed) g < _
        omega

theorem liveAt_iff_not_settled {b : board} (hwf : b.wellFormed) (hnn : numNonneg b.grid)
    {x y : Int} (hin : b.withinBoarder x y = true) :
    liveAt b.grid x y = false ↔ settledAt b.grid x y = true := by
  obtain ⟨c, hc⟩ := (within_iff_cellAt hwf x y).1 hin
  have h := hnn x y c hc
  simp only [liveAt, settledAt, hc]
  cases h1 : (c.revealed || c.flagged || c.isMine) <;> simp [h]

/-- What one call of the flood-fill does, on any board whose grid is
`height × width`. -/
theorem explore_call (b : board) (x y : Int) (hwf : b.wellFormed)
    (hin : b.withinBoarder x y = true) :
    ∃ b1, b.explore x y = some b1 ∧
      (∀ fuel, countCells (fun c => !c.revealed) b.grid < fuel →
        exploreAux neighbors fuel b x y = some b1) ∧
      b1.wellFormed ∧
      (liveAt b.grid x y = false → b1 = b) ∧
      (liveAt b.grid x y = true →
        revealedAt b.grid x y = false ∧ revealedAt b1.grid x y = true ∧
        countCells (fun c => !c.revealed) b1.grid <
          countCells (fun c => !c.revealed) b.grid) ∧
      b1.numRevealed - b.numRevealed =
        (countCells (fun c => c.revealed) b1.grid : Int) -
          (countCells (fun c => c.revealed) b.grid : Int) ∧
      b1.numRevealed - b.numRevealed =
        (countCells (fun c => !c.revealed) b.grid : Int) -
          (countCells (fun c => !c.revealed) b1.grid : Int) ∧
      countCells (fun c => !c.revealed) b1.grid ≤
        countCells (fun c => !c.revealed) b.grid := by
  obtain ⟨b1, hp, hf⟩ := exploreAux_stable neighbors b x y hwf hin
  have hle := countCells_le_gridSize (fun c => !c.revealed) b.grid
  have hex : b.explore x y = some b1 := hf _ (by omega)
  obtain ⟨_, w1, _, l1, n1, r1, _, _⟩ := id hp.1
  refine ⟨b1, hex, hf, w1, ?_, ?_, by omega, by omega, l1⟩
  · intro hl
    apply revealsFrom_unique hwf hp.1 (revealsFrom_refl hwf)
    intro i j
    rw [Bool.eq_iff_iff, exploreEffect_iff hwf hp]
    constructor
    · rintro (h | ⟨h1, _, _⟩)
      · exact h
      · rw [hl] at h1; cases h1
    · intro h
      exact Or.inl h
  · intro hl
    obtain ⟨b2, hb2, hdec⟩ := exploreAux_live_decreases neighbors _ b x y hwf hin
      (Nat.lt_succ_self _) hl
    rw [hf _ (Nat.lt_succ_self _)] at hb2
    cases hb2
    refine ⟨?_, hp.2.1 hl, hdec⟩
    cases h0 : revealedAt b.grid x y with
    | false => rfl
    | true => rw [liveAt_false_of_revealedAt h0] at hl; cases hl

/-- A call on a cell that is not live returns at once, with the board
unchanged: one level of recursion is enough. -/
theorem exploreAux_not_live (nbrs : List (Int × Int)) (fuel : Nat) (b : board)
    (x y : Int) (hwf : b.wellFormed) (hin : b.withinBoarder x y = true)
    (hlive : liveAt b.grid x y = false) :
    exploreAux nbrs (fuel + 1) b x y = some b := by
  obtain ⟨c, hc⟩ := (within_iff_cellAt hwf x y).1 hin
  simp only [liveAt, hc] at hlive
  simp only [exploreAux, hc]
  by_cases hs : (c.revealed || c.flagged || c.isMine) = true
  · simp [hs]
  · have hneg : ¬ (c.num ≥ 0) := by
      intro h
      simp only [Bool.not_eq_true] at hs
      simp [hs, h] at hlive
    have hz : ¬ c.num = 0 := by omega
    simp [hs, hneg, hz]

/-! ## The order of the recursive calls -/

theorem visitNeighborsLog_fst (visit : board → Int → Int → Option board) (x y : Int)
    (ds : List (Int × Int)) (b : board) :
    (visitNeighborsLog visit x y b ds).map Prod.fst = visitNeighbors visit x y b ds := by
  induction ds generalizing b with
  | nil => rfl
  | cons d ds ih =>
    simp only [visitNeighborsLog, visitNeighbors]
    split
    · cases hv : visit b (x + d.1) (y + d.2) with
      | none => rfl
      | some b1 =>
        simp only
        rw [← ih b1]
        cases visitNeighborsLog visit x y b1 ds <;> rfl
    · exact ih b

/-- Erasing the record of calls from `exploreCalls` gives `exploreAux`. -/
theorem exploreCalls_fst (nbrs : List (Int × Int)) (fuel : Nat) (b : board) (x y : Int) :
    (exploreCalls nbrs fuel b x y).map Prod.fst = exploreAux nbrs fuel b x y := by
  cases fuel with
  | zero => rfl
  | succ fuel =>
    simp only [exploreCalls, exploreAux]
    cases cellAt b.grid x y with
    | none => rfl
    | some c =>
      by_cases hs : (c.revealed || c.flagged || c.isMine) = true
      · simp only [hs, if_true, Option.map_some']
      · by_cases hz : c.num = 0
        · cases hu : updCell b.grid x y (fun c => { c with revealed := true }) with
          | none => simp [hs, hz, hu]
          | some g =>
            simp only [hs, hz, hu, if_true, if_false, ge_iff_le, le_refl]
            exact visitNeighborsLog_fst _ _ _ _ _
        · by_cases hn : c.num ≥ 0
          · cases hu : updCell b.grid x y (fun c => { c with revealed := true }) with
            | none => simp [hs, hz, hu, hn]
            | some g => simp [hs, hz, hu, hn]
          · simp [hs, hz, hn]

theorem withinBoarder_dims {b b1 : board} (hw : b1.width = b.width)
    (hh : b1.height = b.height) (i j : Int) :
    b1.withinBoarder i j = b.withinBoarder i j := by
  simp only [board.withinBoarder, hw, hh]

/-- The loop calls `visit` on the in-bounds neighbours, in the order of the
offset list. -/
theorem visitNeighborsLog_snd (visit : board → Int → Int → Option board) (x y : Int)
    (hv : ∀ b2 x2 y2 b3, visit b2 x2 y2 = some b3 →
      b3.width = b2.width ∧ b3.height = b2.height)
    (ds : List (Int × Int)) (b b1 : board)
    (h : visitNeighbors visit x y b ds = some b1) :
    visitNeighborsLog visit x y b ds = some (b1,
      (ds.map (fun d => (x + d.1, y + d.2))).filter (fun p => b.withinBoarder p.1 p.2)) := by
  induction ds generalizing b with
  | nil =>
    simp only [visitNeighbors] at h
    cases h
    rfl
  | cons d ds ih =>
    simp only [visitNeighbors] at h
    simp only [visitNeighborsLog, List.map_cons, List.filter_cons]
    by_cases hin : b.withinBoarder (x + d.1) (y + d.2) = true
    · simp only [hin, if_true] at h ⊢
      cases hv2 : visit b (x + d.1) (y + d.2) with
      | none => rw [hv2] at h; cases h
      | some b2 =>
        rw [hv2] at h
        simp only at h ⊢
        rw [ih b2 h]
        obtain ⟨hw, hh⟩ := hv _ _ _ _ hv2
        have : (fun p : Int × Int => b2.withinBoarder p.1 p.2) =
            (fun p : Int × Int => b.withinBoarder p.1 p.2) := by
          funext p
          exact withinBoarder_dims hw hh _ _
        rw [this]
    · simp only [hin, if_false, Bool.false_eq_true] at h ⊢
      exact ih b h

/-! ## Counting arguments for the win check -/

theorem mem_of_cellAt {g : List (List cell)} {x y : Int} {c : cell}
    (h : cellAt g x y = some c) : ∃ row ∈ g, c ∈ row := by
  obtain ⟨_, _, row, hr, hc⟩ := (cellAt_eq_some_iff g x y c).1 h
  exact ⟨row, List.getElem?_mem hr, List.getElem?_mem hc⟩

theorem countP_le_of_imp {p q : cell → Bool} (l : List cell)
    (himp : ∀ c ∈ l, p c = true → q c = true) : l.countP p ≤ l.countP q :=
  List.countP_mono_left himp

theorem countP_eq_of_imp {p q : cell → Bool} (l : List cell)
    (himp : ∀ c ∈ l, p c = true → q c = true) (hle : l.countP q ≤ l.countP p) :
    ∀ c ∈ l, q c = true → p c = true := by
  induction l with
  | nil => intro c hc; cases hc
  | cons a l ih =>
    have hmono := countP_le_of_imp l (fun c hc => himp c (List.mem_cons_of_mem a hc))
    have ha := himp a (List.mem_cons_self a l)
    simp only [List.countP_cons] at hle
    intro c hc hq
    rcases List.mem_cons.1 hc with rfl | hc
    · cases hp : p c with
      | true => rfl
      | false =>
        simp only [hq, hp, if_true, Bool.false_eq_true, if_false] at hle
        omega
    · refine ih (fun c hc => himp c (List.mem_cons_of_mem a hc)) ?_ c hc hq
      cases hp : p a with
      | true =>
        rw [ha hp] at hle
        simpa [hp] using hle
      | false =>
        cases hq2 : q a with
        | true =>
          simp only [hq2, hp, if_true, Bool.false_eq_true, if_false] at hle
          omega
        | false => simpa [hp, hq2] using hle

theorem countCells_mono {p q : cell → Bool} (g : List (List cell))
    (himp : ∀ row ∈ g, ∀ c ∈ row, p c = true → q c = true) :
    countCells p g ≤ countCells q g := by
  induction g with
  | nil => simp [countCells]
  | cons row rest ih =>
    have h1 := countP_le_of_imp row (himp row (List.mem_cons_self row rest))
    have h2 := ih (fun r hr => himp r (List.mem_cons_of_mem row hr))
    simp only [countCells, List.map_cons, List.sum_cons] at h2 ⊢
    omega

/-- Of two properties of cells, one implying the other on the grid and holding
of at least as many cells, both hold of the same cells. -/
theorem countCells_eq_of_imp {p q : cell → Bool} (g : List (List cell))
    (himp : ∀ x y c, cellAt g x y = some c → p c = true → q c = true)
    (hle : countCells q g ≤ countCells p g) :
    ∀ x y c, cellAt g x y = some c → q c = true → p c = true := by
  have key : ∀ g : List (List cell),
      (∀ row ∈ g, ∀ c ∈ row, p c = true → q c = true) →
      countCells q g ≤ countCells p g → ∀ row ∈ g, ∀ c ∈ row, q c = true → p c = true := by
    intro g
    induction g with
    | nil => intro _ _ row hrow; cases hrow
    | cons row rest ih =>
      intro himp hle
      have h1 := countP_le_of_imp row (himp row (List.mem_cons_self row rest))
      have h2 := countCells_mono rest (fun r hr => himp r (List.mem_cons_of_mem row hr))
      simp only [countCells, List.map_cons, List.sum_cons] at hle h2
      intro r hr
      rcases List.mem_cons.1 hr with rfl | hr
      · exact countP_eq_of_imp r (himp r (List.mem_cons_self r rest)) (by omega)
      · exact ih (fun r hr => himp r (List.mem_cons_of_mem row hr))
          (by simp only [countCells]; omega) r hr
  intro x y c hc
  obtain ⟨row, hrow, hmem⟩ := mem_of_cellAt hc
  refine key g ?_ hle row hrow c hmem
  intro row hrow c hc
  obtain ⟨x, y, hxy⟩ := cellAt_of_mem hrow hc
  exact himp x y c hxy

theorem countCells_add_not (p : cell → Bool) (g : List (List cell)) :
    countCells p g + countCells (fun c => !p c) g = gridSize g := by
  induction g with
  | nil => simp [countCells, gridSize]
  | cons row rest ih =>
    have h := List.length_eq_countP_add_countP p row
    have h2 : List.countP (fun a => decide ¬p a = true) row =
        List.countP (fun c => !p c) row := by
      congr 1
      funext a
      cases p a <;> rfl
    simp only [countCells, gridSize, List.map_cons, List.sum_cons] at ih ⊢
    omega

theorem cellAt_of_countCells_zero {p : cell → Bool} {g : List (List cell)}
    (h : countCells p g = 0) : ∀ x y c, cellAt g x y = some c → p c = false := by
  intro x y c hc
  obtain ⟨row, hrow, hmem⟩ := mem_of_cellAt hc
  unfold countCells at h
  rw [List.sum_eq_zero_iff] at h
  have h1 := h _ (List.mem_map_of_mem _ hrow)
  rw [List.countP_eq_zero] at h1
  simpa using h1 c hmem

theorem noMineShown_of_count {g : List (List cell)}
    (h : countCells (fun c => c.isMine && c.revealed) g = 0) :
    ∀ i j c, cellAt g i j = some c → c.isMine = true → c.revealed = false := by
  intro i j c hc hm
  have h1 := cellAt_of_countCells_zero h i j c hc
  simpa [hm] using h1

/-- A constructed board has no negative number of rows, nor rows of negative
length. -/
theorem makeBoard_dims {width height numMines : Int} {picks : List (Int × Int)} {b : board}
    (hret : makeBoard width height numMines picks = some b) :
    0 ≤ height ∧ (0 < height → 0 ≤ width) := by
  unfold makeBoard at hret
  by_cases h1 : height < 0
  · simp [h1] at hret
  by_cases h2 : 0 < height ∧ width < 0
  · simp [h1, h2] at hret
  constructor
  · omega
  · intro h
    by_contra h3
    exact h2 ⟨h, by omega⟩

theorem gridSize_eq_mul {b : board} (hwf : b.wellFormed) (hh : 0 ≤ b.height)
    (hw : 0 < b.height → 0 ≤ b.width) : (gridSize b.grid : Int) = b.width * b.height := by
  rw [gridSize_of_wellFormed hwf]
  rcases hh.eq_or_lt with h0 | hpos
  · rw [← h0]
    simp
  · have := hw hpos
    push_cast
    rw [Int.toNat_of_nonneg hh, Int.toNat_of_nonneg this, mul_comm]

/-- When the counters satisfy the win check and no mine is revealed, the flags
are on the mines and everything else is revealed. -/
theorem win_exact {b : board} (hinv : b.inv) (hh : 0 ≤ b.height)
    (hw : 0 < b.height → 0 ≤ b.width) (hwin : b.isWin = true)
    (hno : ∀ i j c, cellAt b.grid i j = some c → c.isMine = true → c.revealed = false) :
    ∀ i j c, cellAt b.grid i j = some c →
      (c.flagged = true ↔ c.isMine = true) ∧ (c.revealed = true ↔ c.isMine = false) := by
  obtain ⟨hwf, _, hM, hR, hF, hex, _⟩ := hinv
  obtain ⟨hf, hr⟩ := (isWin_iff b).1 hwin
  have hG := gridSize_eq_mul hwf hh hw
  have hsum := countCells_add_not (fun c => c.isMine) b.grid
  have hrev : ∀ i j c, cellAt b.grid i j = some c →
      (fun c : cell => !c.isMine) c = true → (fun c : cell => c.revealed) c = true := by
    apply countCells_eq_of_imp
    · intro x y c hc hrv
      have := hno x y c hc
      cases hm : c.isMine with
      | false => rfl
      | true => rw [this hm] at hrv; cases hrv
    · omega
  have hflag : ∀ i j c, cellAt b.grid i j = some c →
      (fun c : cell => c.isMine) c = true → (fun c : cell => c.flagged) c = true := by
    apply countCells_eq_of_imp
    · intro x y c hc hfl
      cases hm : c.isMine with
      | true => rfl
      | false =>
        have h1 := hrev x y c hc (by simp [hm])
        exact absurd ⟨h1, hfl⟩ (hex x y c hc)
    · omega
  intro i j c hc
  refine ⟨⟨?_, hflag i j c hc⟩, ⟨?_, ?_⟩⟩
  · intro hfl
    cases hm : c.isMine with
    | true => rfl
    | false =>
      have h1 := hrev i j c hc (by simp [hm])
      exact absurd ⟨h1, hfl⟩ (hex i j c hc)
  · intro hrv
    cases hm : c.isMine with
    | false => rfl
    | true => rw [hno i j c hc hm] at hrv; cases hrv
  · intro hm
    exact hrev i j c hc (by simp [hm])

theorem reachable_wellFormed (width height numMines : Int) (picks : List (Int × Int))
    (b0 b : board) (acts : List action)
    (hmk : makeBoard width height numMines picks = some b0)
    (hrun : b0.run acts = some b) : b.wellFormed :=
  (reachable_inv hmk hrun).1

/-! ## The rendering, line by line -/

theorem foldl_append_flatMap {α β : Type} (f : α → List β) (l : List α) (init : List β) :
    l.foldl (fun acc a => acc ++ f a) init = init ++ l.flatMap f := by
  induction l generalizing init with
  | nil => simp
  | cons a l ih => simp [ih]

theorem replicate_append_cons (n : Nat) (a : Char) (l : List Char) :
    List.replicate n a ++ a :: l = List.replicate (n + 1) a ++ l := by
  induction n with
  | zero => rfl
  | succ n ih =>
    show a :: (List.replicate n a ++ a :: l) = a :: (List.replicate (n + 1) a ++ l)
    rw [ih]

theorem padLoop_eq (numDigits : Int) (char : Char) (fuel : Nat) (result : List Char)
    (h : numDigits.toNat - result.length ≤ fuel) :
    padLoop numDigits char fuel result =
      List.replicate (numDigits.toNat - result.length) char ++ result := by
  induction fuel generalizing result with
  | zero =>
    have : numDigits.toNat - result.length = 0 := by omega
    simp [padLoop, this]
  | succ fuel ih =>
    simp only [padLoop]
    by_cases hlt : (result.length : Int) < numDigits
    · simp only [hlt, if_true]
      rw [ih (char :: result) (by simp only [List.length_cons]; omega)]
      have h2 : numDigits.toNat - result.length =
          (numDigits.toNat - (char :: result).length) + 1 := by
        simp only [List.length_cons]; omega
      rw [h2]
      exact replicate_append_cons _ _ _
    · simp only [hlt, if_false]
      have : numDigits.toNat - result.length = 0 := by omega
      simp [this]

/-- Go `pad` puts `s` at the right end of a field of `numDigits` bytes. -/
theorem pad_eq (s : List Char) (numDigits : Int) (char : Char) :
    pad s numDigits char = rightAlign numDigits.toNat char s :=
  padLoop_eq numDigits char numDigits.toNat s (by omega)

theorem rightAlign_length (w : Nat) (fill : Char) (s : List Char) (h : s.length ≤ w) :
    (rightAlign w fill s).length = w := by
  simp only [rightAlign, List.length_append, List.length_replicate]
  omega

theorem itoaNat_length_pos (fuel n : Nat) (h : n < fuel) : 0 < (itoaNat fuel n).length := by
  cases fuel with
  | zero => omega
  | succ fuel =>
    simp only [itoaNat]
    split <;> simp

theorem itoaNat_length_mono (f1 f2 n m : Nat) (h1 : n < f1) (h2 : m < f2) (hle : n ≤ m) :
    (itoaNat f1 n).length ≤ (itoaNat f2 m).length := by
  induction f1 generalizing f2 n m with
  | zero => omega
  | succ k ih =>
    by_cases hn : n < 10
    · have := itoaNat_length_pos f2 m h2
      simp only [itoaNat, hn, if_true, List.length_singleton]
      omega
    · cases f2 with
      | zero => omega
      | succ j =>
        have hm : ¬ m < 10 := by omega
        simp only [itoaNat, hn, hm, if_false, List.length_append, List.length_singleton]
        have := ih j (n / 10) (m / 10) (by omega) (by omega) (Nat.div_le_div_right hle)
        omega

theorem itoa_length_mono (n m : Int) (h0 : 0 ≤ n) (hle : n ≤ m) :
    (itoa n).length ≤ (itoa m).length := by
  have hn : ¬ n < 0 := by omega
  have hm : ¬ m < 0 := by omega
  simp only [itoa, hn, hm, if_false]
  exact itoaNat_length_mono _ _ _ _ (by omega) (by omega) (Int.toNat_le_toNat hle)

theorem itoa_digit (n : Int) (h0 : 0 ≤ n) (h9 : n ≤ 9) :
    itoa n = [Nat.digitChar n.toNat] := by
  have hn : ¬ n < 0 := by omega
  have h10 : n.toNat < 10 := by omega
  simp only [itoa, hn, if_false, itoaNat, h10, if_true]

theorem flatMap_length_const {α β : Type} (f : α → List β) (l : List α) (k : Nat)
    (h : ∀ a ∈ l, (f a).length = k) : (l.flatMap f).length = l.length * k := by
  induction l with
  | nil => simp
  | cons a l ih =>
    simp only [List.flatMap_cons, List.length_append, List.length_cons]
    rw [h a (List.mem_cons_self a l), ih (fun a1 h1 => h a1 (List.mem_cons_of_mem a h1))]
    ring

theorem flatten_replicate_singleton (n : Nat) (a : Char) :
    (List.replicate n [a]).flatten = List.replicate n a := by
  induction n with
  | zero => rfl
  | succ n ih =>
    show a :: (List.replicate n [a]).flatten = a :: List.replicate n a
    rw [ih]

theorem strRepeat_char (a : Char) (count : Int) (h : 0 ≤ count) :
    strRepeat [a] count = some (List.replicate count.toNat a) := by
  have : ¬ count < 0 := by omega
  simp only [strRepeat, this, if_false, flatten_replicate_singleton]

theorem toNat_mul_succ (w : Int) (n : Nat) (hw : 0 ≤ w) :
    (w * ((n : Int) + 1)).toNat = w.toNat * (n + 1) := by
  obtain ⟨k, rfl⟩ := Int.eq_ofNat_of_zero_le hw
  have h3 : (k : Int) * ((n : Int) + 1) = ((k * (n + 1) : Nat) : Int) := by
    push_cast
    ring
  rw [h3, Int.toNat_ofNat, Int.toNat_ofNat]

/-- The text of a cell is its glyph at the right end of a field of
`digitsHorizontal + 1` bytes. -/
theorem cellText_eq (n : Nat) (c : cell) :
    cellText (n : Int) c = rightAlign (n + 1) ' ' (glyph c) := by
  have h : ((n : Int) + 1).toNat = n + 1 := by omega
  simp only [cellText, glyph, pad_eq, h]
  cases c.flagged <;> cases c.revealed <;> cases c.isMine <;> simp

/-- The output of `String`, line by line. -/
theorem String_lines (b : board) (elapsed : List Char) (row0 : List cell)
    (h0 : b.grid[0]? = some row0) (hlen : row0.length = b.width.toNat) (hw : 0 ≤ b.width) :
    b.String elapsed = some (headerText b elapsed ++ labelLine b ++ ['\n'] ++ ruleLine b ++
      ['\n'] ++ b.grid.enum.flatMap (fun rr => rowLine b rr.1 rr.2 ++ ['\n'])) := by
  have hrow : (fun (result : List Char) (rr : Nat × List cell) =>
      rr.2.foldl (fun result cell => result ++ cellText (indexDigits b.width : Int) cell)
        (result ++ pad (itoa rr.1) (indexDigits b.height : Int) '0' ++ ['|']) ++ ['\n']) =
      (fun result rr => result ++ (rowLine b rr.1 rr.2 ++ ['\n'])) := by
    funext result rr
    rw [foldl_append_flatMap]
    have : cellText (indexDigits b.width : Int) =
        fun c => rightAlign (indexDigits b.width + 1) ' ' (glyph c) := by
      funext c
      exact cellText_eq _ c
    rw [this, pad_eq]
    simp only [rowLine, Int.toNat_ofNat, List.append_assoc]
  have hlab : (fun (result : List Char) (c : Nat) =>
      result ++ (' ' :: pad (itoa c) (indexDigits b.width : Int) '0')) =
      (fun (result : List Char) (c : Nat) =>
        result ++ (' ' :: rightAlign (indexDigits b.width) '0' (itoa c))) := by
    funext result c
    rw [pad_eq]
    simp only [Int.toNat_ofNat]
  have h1 : strRepeat [' '] ((indexDigits b.height : Int) + 1) =
      some (List.replicate (indexDigits b.height + 1) ' ') := by
    rw [strRepeat_char _ _ (by omega)]
    congr 2
  have h2 : strRepeat ['-'] (b.width * ((indexDigits b.width : Int) + 1)) =
      some (List.replicate (b.width.toNat * (indexDigits b.width + 1)) '-') := by
    rw [strRepeat_char _ _ (by positivity)]
    congr 2
    exact toNat_mul_succ _ _ hw
  simp only [indexDigits] at h1 h2 hrow hlab
  simp only [board.String, h1, h0, h2, Option.some_bind, Option.pure_def,
    Option.bind_eq_bind]
  rw [hrow, hlab, foldl_append_flatMap, foldl_append_flatMap, hlen]
  simp only [labelLine, ruleLine, headerText, indexDigits, List.append_assoc]

theorem glyph_length (c : cell) (h0 : 0 ≤ c.num) (h8 : c.num ≤ 8) : (glyph c).length = 1 := by
  simp only [glyph]
  split
  · rfl
  · split
    · rfl
    · split
      · rfl
      · rw [itoa_digit c.num h0 (by omega)]
        rfl

theorem labelLine_length (b : board) (hw : 0 < b.width) :
    (labelLine b).length =
      indexDigits b.height + 1 + b.width.toNat * (indexDigits b.width + 1) := by
  simp only [labelLine, List.length_append, List.length_replicate]
  rw [flatMap_length_const _ _ (indexDigits b.width + 1), List.length_range]
  intro c hc
  rw [List.mem_range] at hc
  rw [List.length_cons, rightAlign_length]
  exact itoa_length_mono _ _ (by omega) (by omega)

theorem ruleLine_length (b : board) :
    (ruleLine b).length =
      indexDigits b.height + 1 + b.width.toNat * (indexDigits b.width + 1) := by
  simp only [ruleLine, List.length_append, List.length_replicate]

theorem rowLine_length (b : board) (r : Nat) (row : List cell) (hr : (r : Int) < b.height)
    (hlen : row.length = b.width.toNat) (hnum : ∀ c ∈ row, 0 ≤ c.num ∧ c.num ≤ 8) :
    (rightAlign (indexDigits b.height) '0' (itoa r)).length = indexDigits b.height ∧
      (∀ c ∈ row, (glyph c).length = 1 ∧
        (rightAlign (indexDigits b.width + 1) ' ' (glyph c)).length =
          indexDigits b.width + 1) ∧
      (rowLine b r row).length =
        indexDigits b.height + 1 + b.width.toNat * (indexDigits b.width + 1) := by
  have h1 : (rightAlign (indexDigits b.height) '0' (itoa r)).length = indexDigits b.height :=
    rightAlign_length _ _ _ (itoa_length_mono _ _ (by omega) (by omega))
  have h2 : ∀ c ∈ row, (glyph c).length = 1 ∧
      (rightAlign (indexDigits b.width + 1) ' ' (glyph c)).length =
        indexDigits b.width + 1 := by
    intro c hc
    have hg := glyph_length c (hnum c hc).1 (hnum c hc).2
    exact ⟨hg, rightAlign_length _ _ _ (by omega)⟩
  refine ⟨h1, h2, ?_⟩
  simp only [rowLine, List.length_append, h1, List.length_singleton]
  rw [flatMap_length_const _ _ (indexDigits b.width + 1) (fun c hc => (h2 c hc).2), hlen]

theorem grid_head_of_wellFormed {b : board} (hwf : b.wellFormed) (hh : 0 < b.height) :
    ∃ row0, b.grid[0]? = some row0 ∧ row0.length = b.width.toNat := by
  obtain ⟨hl, hrows⟩ := hwf
  have hpos : 0 < b.grid.length := by omega
  refine ⟨b.grid[0], List.getElem?_eq_getElem hpos, hrows _ (List.getElem_mem hpos)⟩

/-! ## The claims -/

/-- C1: for `width > 0`, `height > 0`, `0 ≤ numMines < width * height` and any
in-range random picks on which `makeBoard` returns, the returned board (a
`height × width` grid) has exactly `numMines` cells with `isMine = true`, its
`numMines` field equals that number, and every cell's `num`, mine cells
included, is the number of its in-border 8-neighbours that are mines. -/
theorem makeBoard_mines_and_counts (width height numMines : Int)
    (picks : List (Int × Int)) (b : board)
    (_hw : 0 < width) (_hh : 0 < height) (hn0 : 0 ≤ numMines)
    (_hn : numMines < width * height)
    (_hpicks : ∀ p ∈ picks, 0 ≤ p.1 ∧ p.1 < height ∧ 0 ≤ p.2 ∧ p.2 < width)
    (hret : makeBoard width height numMines picks = some b) :
    (b.width = width ∧ b.height = height ∧ b.wellFormed) ∧
      (countCells (fun c => c.isMine) b.grid : Int) = numMines ∧
      b.numMines = numMines ∧
      ∀ x y c, cellAt b.grid x y = some c → c.num = (mineNeighbors b x y : Int) := by
  obtain ⟨h1, h2, _, h4, h5, h6, h7⟩ := makeBoard_spec width height numMines picks b hret
  exact ⟨⟨h6, h7, h1⟩, by rw [← h4, h5 hn0], h5 hn0, h2⟩

/-- C1 at the fixture of `TestReveal`: the 8×8 board with the ten mines of the
layout printed in the test. -/
theorem makeBoard_mines_and_counts_witness :
    ∃ b, makeBoard 8 8 10 fixturePicks = some b ∧
      (b.width = 8 ∧ b.height = 8 ∧ b.wellFormed) ∧
      (countCells (fun c => c.isMine) b.grid : Int) = 10 ∧
      b.numMines = 10 ∧
      ∀ x y c, cellAt b.grid x y = some c → c.num = (mineNeighbors b x y : Int) :=
  ⟨_, rfl, makeBoard_mines_and_counts 8 8 10 fixturePicks _ (by decide) (by decide)
    (by decide) (by decide) (by decide) rfl⟩

/-- C2: in every board state reached from a board returned by `makeBoard` by a
finite sequence of `updateOnReveal` / `updateOnFlag` calls with arbitrary
integer coordinates, `numRevealed` is the number of cells with
`revealed = true` and `numFlagged` the number of cells with `flagged = true`. -/
theorem counters_match_reachable (width height numMines : Int) (picks : List (Int × Int))
    (b0 b : board) (acts : List action)
    (hmk : makeBoard width height numMines picks = some b0)
    (hrun : b0.run acts = some b) :
    b.numRevealed = (countCells (fun c => c.revealed) b.grid : Int) ∧
      b.numFlagged = (countCells (fun c => c.flagged) b.grid : Int) := by
  obtain ⟨_, _, _, h4, h5, _⟩ := reachable_inv hmk hrun
  exact ⟨h4, h5⟩

/-- C2 on the test fixture, after the calls of `TestFlag`: one flag, sixteen
revealed cells. -/
theorem counters_match_reachable_witness :
    ∃ b0 b, makeBoard 8 8 10 fixturePicks = some b0 ∧
      b0.run [.flag 0 0 1 2, .reveal 7 0 3 4, .flag 7 0 5 6] = some b ∧
      (b.numRevealed = 16 ∧ b.numFlagged = 1) ∧
      b.numRevealed = (countCells (fun c => c.revealed) b.grid : Int) ∧
      b.numFlagged = (countCells (fun c => c.flagged) b.grid : Int) :=
  ⟨_, _, rfl, rfl, ⟨rfl, rfl⟩,
    counters_match_reachable 8 8 10 fixturePicks _ _
      [.flag 0 0 1 2, .reveal 7 0 3 4, .flag 7 0 5 6] rfl rfl⟩

/-- C3: in every board state reached from a board returned by `makeBoard` by a
finite sequence of `updateOnReveal` / `updateOnFlag` calls, no cell is both
revealed and flagged. -/
theorem never_revealed_and_flagged (width height numMines : Int) (picks : List (Int × Int))
    (b0 b : board) (acts : List action)
    (hmk : makeBoard width height numMines picks = some b0)
    (hrun : b0.run acts = some b) :
    ∀ x y c, cellAt b.grid x y = some c → ¬ (c.revealed = true ∧ c.flagged = true) := by
  obtain ⟨_, _, _, _, _, h6, _⟩ := reachable_inv hmk hrun
  exact h6

/-- C3 on the test fixture: after flagging (7,1) and revealing (7,0) the flood
fill has stopped at the flag. -/
theorem never_revealed_and_flagged_witness :
    ∃ b0 b, makeBoard 8 8 10 fixturePicks = some b0 ∧
      b0.run [.flag 7 1 1 2, .reveal 7 0 3 4] = some b ∧
      (flaggedAt b.grid 7 1 = true ∧ revealedAt b.grid 7 1 = false) ∧
      ∀ x y c, cellAt b.grid x y = some c → ¬ (c.revealed = true ∧ c.flagged = true) :=
  ⟨_, _, rfl, rfl, ⟨rfl, rfl⟩,
    never_revealed_and_flagged 8 8 10 fixturePicks _ _
      [.flag 7 1 1 2, .reveal 7 0 3 4] rfl rfl⟩

/-- C4: in every state reached from a constructed board, `updateOnReveal` on a
flagged cell returns the board unchanged (every cell, both counters, `active`,
the start time and the frozen duration), and `updateOnFlag` on a revealed cell
returns the board unchanged as well. -/
theorem settled_cell_noop (width height numMines : Int) (picks : List (Int × Int))
    (b0 b : board) (acts : List action) (x y : Int) (c : cell) (t₁ t₂ : Nat)
    (hmk : makeBoard width height numMines picks = some b0)
    (hrun : b0.run acts = some b) (hc : cellAt b.grid x y = some c) :
    (c.flagged = true → b.updateOnReveal x y t₁ t₂ = some b) ∧
      (c.revealed = true → b.updateOnFlag x y t₁ t₂ = some b) := by
  have hinv := reachable_inv hmk hrun
  constructor
  · intro hf
    have hs : b.started ≠ none := by
      intro hnone
      have := (hinv.2.2.2.2.2.2 hnone x y c hc).2
      rw [hf] at this
      cases this
    rcases updateOnReveal_cases b x y t₁ t₂ hinv.1 with
      ⟨_, h1⟩ | ⟨_, _, c1, hc1, ⟨_, h1⟩ | ⟨_, hf1, _⟩ | ⟨_, hf1, _⟩⟩
    · exact h1
    · rw [h1, startClock_of_started hs]
    · rw [hc] at hc1; cases hc1; rw [hf] at hf1; cases hf1
    · rw [hc] at hc1; cases hc1; rw [hf] at hf1; cases hf1
  · intro hr
    rcases updateOnFlag_cases b x y t₁ t₂ hinv.1 with
      ⟨_, h1⟩ | ⟨_, c1, hc1, ⟨_, h1⟩ | ⟨hr1, _⟩⟩
    · exact h1
    · exact h1
    · rw [hc] at hc1; cases hc1; rw [hr] at hr1; cases hr1

/-- C4 on the test fixture, as in `TestFlag`: after flagging (0,0) and
revealing (7,0), flagging the revealed (7,0) and revealing the flagged (0,0)
both return the same board, whose `numFlagged` is 1. -/
theorem settled_cell_noop_witness :
    ∃ b0 b, makeBoard 8 8 10 fixturePicks = some b0 ∧
      b0.run [.flag 0 0 1 2, .reveal 7 0 3 4] = some b ∧
      b.updateOnFlag 7 0 5 6 = some b ∧ b.updateOnReveal 0 0 7 8 = some b ∧
      b.numFlagged = 1 :=
  ⟨_, _, rfl, rfl,
    (settled_cell_noop 8 8 10 fixturePicks _ _ [.flag 0 0 1 2, .reveal 7 0 3 4] 7 0 _ 5 6
      rfl rfl rfl).2 rfl,
    (settled_cell_noop 8 8 10 fixturePicks _ _ [.flag 0 0 1 2, .reveal 7 0 3 4] 0 0 _ 7 8
      rfl rfl rfl).1 rfl,
    rfl⟩

/-- C5, counterexample.  (1) On the 1×3 board with its mine at (0,2), flag
(0,1) and then reveal the zero cell (0,0): its in-border neighbour (0,1) stays
unrevealed, because the flood-fill does not reveal flagged cells.  (2) On the
1×7 board with its mine at (0,6), flag (0,1) and (0,3), reveal (0,2), remove
both flags and reveal (0,0): no flag is left, yet the fill stops at the
already revealed zero cell (0,2), and (0,3), connected to (0,0) through zero
cells, stays unrevealed. -/
theorem flood_fill_blocked_counterexample :
    (∃ b0 b b1, makeBoard 3 1 1 [(0, 2)] = some b0 ∧ b0.run [.flag 0 1 1 2] = some b ∧
      b.active = true ∧ b.withinBoarder 0 0 = true ∧
      cellAt b.grid 0 0 = some ⟨0, false, false, false⟩ ∧
      b.updateOnReveal 0 0 3 4 = some b1 ∧ ¬ floodFillsZeroRegion b b1 0 0) ∧
    (∃ b0 b b1, makeBoard 7 1 1 [(0, 6)] = some b0 ∧
      b0.run [.flag 0 1 1 2, .flag 0 3 1 2, .reveal 0 2 1 2, .flag 0 1 1 2, .flag 0 3 1 2]
        = some b ∧
      b.active = true ∧ b.withinBoarder 0 0 = true ∧
      cellAt b.grid 0 0 = some ⟨0, false, false, false⟩ ∧
      countCells (fun c => c.flagged) b.grid = 0 ∧
      b.updateOnReveal 0 0 3 4 = some b1 ∧ ¬ floodFillsZeroRegion b b1 0 0) :=
  ⟨⟨_, _, _, rfl, rfl, rfl, rfl, rfl, rfl, fun h =>
      absurd (h.2.1 (0, 0) (0, 1) (connected.start rfl) ⟨(0, 1), by decide, rfl⟩ rfl)
        (by decide)⟩,
    ⟨_, _, _, rfl, rfl, rfl, rfl, rfl, rfl, rfl, fun h =>
      absurd (h.1 (0, 3)
        (connected.next (connected.next (connected.next (connected.start rfl)
          ⟨(0, 1), by decide, rfl⟩ rfl) ⟨(0, 1), by decide, rfl⟩ rfl)
          ⟨(0, 1), by decide, rfl⟩ rfl))
        (by decide)⟩⟩

/-- C5, amended: in every active state reached from a constructed board, for
every in-bounds cell `c` that is unrevealed, unflagged, not a mine and has
`num = 0`, after `updateOnReveal` on `c`: every cell connected to `c` by a path
of 8-adjacent cells that all have `num = 0` and were neither revealed nor
flagged before the call is revealed; every in-bounds 8-neighbour of such a cell
that is not flagged is revealed; and no mine that was unrevealed before the
call is revealed after it. -/
theorem flood_fill_free_zero_region (width height numMines : Int)
    (picks : List (Int × Int)) (b0 b : board) (acts : List action) (x y : Int) (c : cell)
    (t₁ t₂ : Nat)
    (hmk : makeBoard width height numMines picks = some b0)
    (hrun : b0.run acts = some b)
    (hact : b.active = true) (hin : b.withinBoarder x y = true)
    (hc : cellAt b.grid x y = some c) (hr : c.revealed = false) (hf : c.flagged = false)
    (hm : c.isMine = false) (_hz : c.num = 0) :
    ∃ b1, b.updateOnReveal x y t₁ t₂ = some b1 ∧ floodFillsFreeZeroRegion b b1 x y :=
  floodFill_of_inv (reachable_inv hmk hrun) t₁ t₂ hact hin hc hr hf hm

/-- C5, amended, on the test fixture: with (5,0) flagged, revealing (7,0)
reveals the zero region below the flag and its border, 11 cells. -/
theorem flood_fill_free_zero_region_witness :
    ∃ b0 b, makeBoard 8 8 10 fixturePicks = some b0 ∧ b0.run [.flag 5 0 1 2] = some b ∧
      (b.updateOnReveal 7 0 3 4).map (fun b1 => b1.numRevealed) = some 11 ∧
      ∃ b1, b.updateOnReveal 7 0 3 4 = some b1 ∧ floodFillsFreeZeroRegion b b1 7 0 :=
  ⟨_, _, rfl, rfl, rfl,
    flood_fill_free_zero_region 8 8 10 fixturePicks _ _ [.flag 5 0 1 2] 7 0 _ 3 4
      rfl rfl rfl rfl rfl rfl rfl rfl rfl⟩

/-- C6: on a freshly constructed board and for every in-bounds cell `c`, after
`updateOnReveal` on `c` the revealed cells are exactly `c` alone when `c` is a
mine or has `num > 0`, and otherwise the cells connected to `c` through
8-adjacent cells with `num = 0` together with all in-bounds 8-neighbours of
these; and `numRevealed` is the size of that set. -/
theorem reveal_on_fresh_board (width height numMines : Int) (picks : List (Int × Int))
    (b0 : board) (x y : Int) (t₁ t₂ : Nat)
    (hmk : makeBoard width height numMines picks = some b0)
    (hin : b0.withinBoarder x y = true) :
    ∃ b1, b0.updateOnReveal x y t₁ t₂ = some b1 ∧
      (∀ q : Int × Int, revealedAt b1.grid q.1 q.2 = true ↔ expectedRevealed b0 (x, y) q) ∧
      b1.numRevealed = (Set.ncard {q : Int × Int | expectedRevealed b0 (x, y) q} : Int) := by
  obtain ⟨_, _, hunt, _⟩ := makeBoard_spec width height numMines picks b0 hmk
  have hinv := inv_makeBoard hmk
  obtain ⟨b1, hb1, hinv1⟩ := inv_updateOnReveal hinv x y t₁ t₂
  have hiff := revealedAt_fresh_reveal hinv hunt hin hb1
  refine ⟨b1, hb1, hiff, ?_⟩
  rw [hinv1.2.2.2.1, countCells_eq_ncard]
  congr 2
  ext q
  rw [Set.mem_setOf_eq, Set.mem_setOf_eq, ← hiff q]
  cases h0 : cellAt b1.grid q.1 q.2 with
  | none => simp [revealedAt, h0]
  | some c => simp [revealedAt, h0]

/-- C6 on the fixture of `TestReveal`: revealing (7,0) gives `numRevealed = 16`,
revealing (2,3) gives 1 and revealing the mine (0,0) gives 1. -/
theorem reveal_on_fresh_board_witness :
    ∃ b0, makeBoard 8 8 10 fixturePicks = some b0 ∧
      (b0.updateOnReveal 7 0 1 2).map (fun b => b.numRevealed) = some 16 ∧
      (b0.updateOnReveal 2 3 1 2).map (fun b => b.numRevealed) = some 1 ∧
      (b0.updateOnReveal 0 0 1 2).map (fun b => b.numRevealed) = some 1 ∧
      ∃ b1, b0.updateOnReveal 7 0 1 2 = some b1 ∧
        (∀ q : Int × Int, revealedAt b1.grid q.1 q.2 = true ↔ expectedRevealed b0 (7, 0) q) ∧
        b1.numRevealed = (Set.ncard {q : Int × Int | expectedRevealed b0 (7, 0) q} : Int) :=
  ⟨_, rfl, rfl, rfl, rfl, reveal_on_fresh_board 8 8 10 fixturePicks _ 7 0 1 2 rfl rfl⟩

/-- C7: in every state `b` reached from a board constructed with `width > 0`,
`height > 0`, `0 ≤ numMines < width * height` (so `b` carries these three
values): `active` is false iff a mine is revealed or the win condition
`numFlagged = numMines ∧ numRevealed = width * height - numMines` holds; and
if `b` is active, every `updateOnReveal` / `updateOnFlag` call returns, and
when the call reveals no mine the board is inactive after it iff the win
condition holds in the state after it. -/
theorem win_iff_joint_condition (width height numMines : Int) (picks : List (Int × Int))
    (b0 b : board) (acts : List action)
    (hw : 0 < width) (hh : 0 < height) (hn0 : 0 ≤ numMines)
    (_hn : numMines < width * height)
    (hmk : makeBoard width height numMines picks = some b0)
    (hrun : b0.run acts = some b) :
    (b.width = width ∧ b.height = height ∧ b.numMines = numMines) ∧
      (b.active = false ↔
        ((∃ x y c, cellAt b.grid x y = some c ∧ c.isMine = true ∧ c.revealed = true) ∨
          (b.numFlagged = b.numMines ∧
            b.numRevealed = b.width * b.height - b.numMines))) ∧
      (b.active = true → ∀ a : action, ∃ b1, b.step a = some b1 ∧
        ((∀ x y, isMineAt b1.grid x y = true → revealedAt b1.grid x y = true →
            revealedAt b.grid x y = true) →
          (b1.active = false ↔
            (b1.numFlagged = b1.numMines ∧
              b1.numRevealed = b1.width * b1.height - b1.numMines)))) := by
  have hinv := reachable_inv hmk hrun
  have hia := reachable_invActive hw hh hmk hrun
  refine ⟨?_, ?_, ?_⟩
  · obtain ⟨_, _, _, _, h5, h6, h7⟩ := makeBoard_spec width height numMines picks b0 hmk
    obtain ⟨e1, e2, e3⟩ := run_dims (inv_makeBoard hmk) acts hrun
    exact ⟨by rw [e1, h6], by rw [e2, h7], by rw [e3, h5 hn0]⟩
  · constructor
    · intro ha
      rcases hia.2 ha with h | h
      · exact Or.inr ((isWin_iff b).1 h)
      · exact Or.inl h
    · intro h
      cases ha : b.active with
      | false => rfl
      | true =>
        obtain ⟨hnw, hno⟩ := hia.1 ha
        rcases h with ⟨x, y, c, hc, hm, hr⟩ | h
        · exact absurd ⟨hm, hr⟩ (hno x y c hc)
        · rw [(isWin_iff b).2 h] at hnw
          cases hnw
  · intro hact a
    obtain ⟨b1, h1, _⟩ := inv_step hinv a
    have hia1 : b1.invActive := by
      cases a with
      | reveal x y t₁ t₂ => exact invActive_updateOnReveal hinv.1 hia h1
      | flag x y t₁ t₂ => exact invActive_updateOnFlag hinv.1 hia h1
    refine ⟨b1, h1, ?_⟩
    intro hno
    constructor
    · intro ha
      rcases hia1.2 ha with h | ⟨x, y, c1, hc1, hm1, hr1⟩
      · exact (isWin_iff b1).1 h
      · exfalso
        have hmA : isMineAt b1.grid x y = true := by simp [isMineAt, hc1, hm1]
        have hrA : revealedAt b1.grid x y = true := by simp [revealedAt, hc1, hr1]
        have hrB := hno x y hmA hrA
        have hmB : isMineAt b.grid x y = true := by
          rw [← step_isMineAt hinv.1 h1]; exact hmA
        cases hc : cellAt b.grid x y with
        | none => simp [revealedAt, hc] at hrB
        | some c =>
          simp only [revealedAt, hc] at hrB
          simp only [isMineAt, hc] at hmB
          exact (hia.1 hact).2 x y c hc ⟨hmB, hrB⟩
    · intro h
      cases ha : b1.active with
      | false => rfl
      | true =>
        have := (hia1.1 ha).1
        rw [(isWin_iff b1).2 h] at this
        cases this

/-- C7 on the 1×2 board with its mine at (0,1): after (0,0) has been revealed
the game is active; flagging the mine completes the win condition and the board
is inactive after the call. -/
theorem win_iff_joint_condition_witness :
    ∃ b0 b, makeBoard 2 1 1 [(0, 1)] = some b0 ∧ b0.run [.reveal 0 0 1 2] = some b ∧
      b.active = true ∧ (b.step (.flag 0 1 3 4)).map (fun b1 => b1.active) = some false ∧
      (b.width = 2 ∧ b.height = 1 ∧ b.numMines = 1) ∧
      (b.active = false ↔
        ((∃ x y c, cellAt b.grid x y = some c ∧ c.isMine = true ∧ c.revealed = true) ∨
          (b.numFlagged = b.numMines ∧
            b.numRevealed = b.width * b.height - b.numMines))) ∧
      (b.active = true → ∀ a : action, ∃ b1, b.step a = some b1 ∧
        ((∀ x y, isMineAt b1.grid x y = true → revealedAt b1.grid x y = true →
            revealedAt b.grid x y = true) →
          (b1.active = false ↔
            (b1.numFlagged = b1.numMines ∧
              b1.numRevealed = b1.width * b1.height - b1.numMines)))) :=
  ⟨_, _, rfl, rfl, rfl, rfl,
    win_iff_joint_condition 2 1 1 [(0, 1)] _ _ [.reveal 0 0 1 2]
      (by decide) (by decide) (by decide) (by decide) rfl rfl⟩

/-- C8: on every board with `active = false`, for all integer coordinates,
`updateOnReveal` and (the grid being `height × width`) `updateOnFlag` return
the very same board, and `secondsElapsed` returns `gameDurationSeconds`
whatever the clock reads. -/
theorem inactive_noop (b : board) (x y : Int) (t₁ t₂ now : Nat) (hact : b.active = false) :
    b.updateOnReveal x y t₁ t₂ = some b ∧
      (b.wellFormed → b.updateOnFlag x y t₁ t₂ = some b) ∧
      b.secondsElapsed now = b.gameDurationSeconds := by
  refine ⟨?_, ?_, ?_⟩
  · simp [board.updateOnReveal, hact]
  · intro hwf
    rcases updateOnFlag_cases b x y t₁ t₂ hwf with
      ⟨_, h1⟩ | ⟨_, c1, hc1, ⟨_, h1⟩ | ⟨_, ha, _⟩⟩
    · exact h1
    · exact h1
    · rw [hact] at ha; cases ha
  · simp [board.secondsElapsed, hact]

/-- C8 on the test fixture: after the mine (0,0) has been revealed the game is
over, and revealing (7,0) or flagging (7,0) changes nothing. -/
theorem inactive_noop_witness :
    ∃ b0 b, makeBoard 8 8 10 fixturePicks = some b0 ∧
      b0.run [.reveal 0 0 1 2] = some b ∧ b.active = false ∧
      b.updateOnReveal 7 0 3 4 = some b ∧ b.updateOnFlag 7 0 3 4 = some b ∧
      b.secondsElapsed 99 = b.gameDurationSeconds :=
  ⟨_, _, rfl, rfl, rfl,
    (inactive_noop _ 7 0 3 4 99 rfl).1,
    (inactive_noop _ 7 0 3 4 99 rfl).2.1
      (@reachable_inv 8 8 10 fixturePicks _ _ [.reveal 0 0 1 2] rfl rfl).1,
    (inactive_noop _ 7 0 3 4 99 rfl).2.2⟩

/-- C9, counterexample: on the 1×2 board with its mine at (0,1), after (0,0) has
been revealed the game is active and (0,1) is an in-bounds unrevealed cell;
the first flag on (0,1) completes the win condition, the game ends, and the
second flag is ignored: the cell stays flagged and `numFlagged` stays 1. -/
theorem flag_twice_after_win_counterexample :
    ∃ b0 b b2, makeBoard 2 1 1 [(0, 1)] = some b0 ∧
      b0.run [.reveal 0 0 1 2] = some b ∧
      b.active = true ∧ b.withinBoarder 0 1 = true ∧ revealedAt b.grid 0 1 = false ∧
      b.flagTwice 0 1 3 4 5 6 = some b2 ∧
      flaggedAt b.grid 0 1 = false ∧ flaggedAt b2.grid 0 1 = true ∧
      b.numFlagged = 0 ∧ b2.numFlagged = 1 :=
  ⟨_, _, _, rfl, rfl, rfl, rfl, rfl, rfl, rfl, rfl, rfl, rfl⟩

/-- C9, amended: in every active state reached from a constructed board and for
every in-bounds unrevealed cell, two successive `updateOnFlag` calls on the
cell return its `flagged` bit and `numFlagged` to their values before the two
calls, provided the game is still active after the first call; when the first
call has ended the game (win), the second call returns the board unchanged. -/
theorem flag_twice_restores (width height numMines : Int) (picks : List (Int × Int))
    (b0 b : board) (acts : List action) (x y : Int) (c : cell) (t₁ t₂ t₃ t₄ : Nat)
    (_hmk : makeBoard width height numMines picks = some b0)
    (_hrun : b0.run acts = some b)
    (hact : b.active = true) (hin : b.withinBoarder x y = true)
    (hc : cellAt b.grid x y = some c) (hr : c.revealed = false) :
    ∃ b1 b2, b.updateOnFlag x y t₁ t₂ = some b1 ∧ b1.updateOnFlag x y t₃ t₄ = some b2 ∧
      b.flagTwice x y t₁ t₂ t₃ t₄ = some b2 ∧
      (b1.active = true →
        flaggedAt b2.grid x y = c.flagged ∧ b2.numFlagged = b.numFlagged) ∧
      (b1.active = false → b2 = b1) := by
  obtain ⟨b1, h1, hc1, hf1, _, _, hw1, hh1, _⟩ :=
    updateOnFlag_toggle b x y c t₁ t₂ hact hin hc hr
  have hin1 : b1.withinBoarder x y = true := by
    simpa [board.withinBoarder, hw1, hh1] using hin
  cases ha : b1.active with
  | false =>
    have h2 : b1.updateOnFlag x y t₃ t₄ = some b1 := by
      rcases updateOnFlag_cell b1 x y t₃ t₄ _ hin1 hc1 with ⟨_, h⟩ | ⟨_, h, _⟩
      · exact h
      · rw [ha] at h; cases h
    refine ⟨b1, b1, h1, h2, ?_, ?_, fun _ => rfl⟩
    · simp only [board.flagTwice, h1, h2]
    · intro h; rw [ha] at h; cases h
  | true =>
    obtain ⟨b2, h2, hc2, hf2, _⟩ :=
      updateOnFlag_toggle b1 x y _ t₃ t₄ ha hin1 hc1 hr
    refine ⟨b1, b2, h1, h2, ?_, ?_, ?_⟩
    · simp only [board.flagTwice, h1, h2]
    · intro _
      constructor
      · simp only [flaggedAt, hc2, Bool.not_not]
      · rw [hf2, hf1]
        cases c.flagged <;> simp
    · intro h; rw [ha] at h; cases h

/-- C9, amended, on the test fixture: flag (0,0) then flag (0,0) again gives
`numFlagged = 0` and an unflagged cell. -/
theorem flag_twice_restores_witness :
    ∃ b0, makeBoard 8 8 10 fixturePicks = some b0 ∧
      (b0.flagTwice 0 0 1 2 3 4).map (fun b => b.numFlagged) = some 0 ∧
      ∃ b1 b2, b0.updateOnFlag 0 0 1 2 = some b1 ∧ b1.updateOnFlag 0 0 3 4 = some b2 ∧
        b0.flagTwice 0 0 1 2 3 4 = some b2 ∧
        (b1.active = true → flaggedAt b2.grid 0 0 = false ∧ b2.numFlagged = 0) ∧
        (b1.active = false → b2 = b1) :=
  ⟨_, rfl, rfl,
    flag_twice_restores 8 8 10 fixturePicks _ _ [] 0 0 _ 1 2 3 4 rfl rfl rfl rfl rfl rfl⟩

/-- C10: on every active board and for every in-bounds unrevealed cell,
whatever `numFlagged` is, `updateOnFlag` negates the cell's `flagged` bit,
changes `numFlagged` by exactly +1 if the cell was unflagged and by exactly -1
if it was flagged, and changes no other cell and not `numRevealed`. -/
theorem flag_toggles (b : board) (x y : Int) (c : cell) (t₁ t₂ : Nat)
    (hact : b.active = true) (hin : b.withinBoarder x y = true)
    (hc : cellAt b.grid x y = some c) (hr : c.revealed = false) :
    ∃ b1, b.updateOnFlag x y t₁ t₂ = some b1 ∧
      cellAt b1.grid x y = some { c with flagged := !c.flagged } ∧
      b1.numFlagged = b.numFlagged + (if c.flagged then -1 else 1) ∧
      (∀ i j, ¬ (i = x ∧ j = y) → cellAt b1.grid i j = cellAt b.grid i j) ∧
      b1.numRevealed = b.numRevealed := by
  obtain ⟨b1, h1, h2, h3, h4, h5, _⟩ := updateOnFlag_toggle b x y c t₁ t₂ hact hin hc hr
  exact ⟨b1, h1, h2, h3, h4, h5⟩

/-- C10 on the test fixture: with ten flags (as many as there are mines)
already placed on non-mine cells, flagging (7,0) still succeeds and gives
`numFlagged = 11`. -/
theorem flag_toggles_witness :
    ∃ b0 b, makeBoard 8 8 10 fixturePicks = some b0 ∧
      b0.run [.flag 7 7 1 2, .flag 7 6 1 2, .flag 7 5 1 2, .flag 6 7 1 2, .flag 6 6 1 2,
        .flag 5 7 1 2, .flag 5 6 1 2, .flag 4 7 1 2, .flag 4 6 1 2, .flag 3 7 1 2] = some b ∧
      b.numFlagged = 10 ∧
      ∃ b1, b.updateOnFlag 7 0 3 4 = some b1 ∧
        cellAt b1.grid 7 0 = some ⟨0, false, true, false⟩ ∧
        b1.numFlagged = 10 + 1 ∧
        (∀ i j, ¬ (i = 7 ∧ j = 0) → cellAt b1.grid i j = cellAt b.grid i j) ∧
        b1.numRevealed = 0 :=
  ⟨_, _, rfl, rfl, rfl, flag_toggles _ 7 0 ⟨0, false, false, false⟩ 3 4 rfl rfl rfl rfl⟩

/-- C11: on every active board and for every in-bounds cell that is a mine,
unrevealed and unflagged, `updateOnReveal` marks exactly that cell revealed,
increases `numRevealed` by exactly 1, changes no other cell, leaves
`numFlagged` unchanged and sets `active = false`. -/
theorem reveal_mine_ends_game (b : board) (x y : Int) (c : cell) (t₁ t₂ : Nat)
    (hact : b.active = true) (hin : b.withinBoarder x y = true)
    (hc : cellAt b.grid x y = some c) (hr : c.revealed = false) (hf : c.flagged = false)
    (hm : c.isMine = true) :
    ∃ b1, b.updateOnReveal x y t₁ t₂ = some b1 ∧
      cellAt b1.grid x y = some { c with revealed := true } ∧
      (∀ i j, ¬ (i = x ∧ j = y) → cellAt b1.grid i j = cellAt b.grid i j) ∧
      b1.numRevealed = b.numRevealed + 1 ∧ b1.numFlagged = b.numFlagged ∧
      b1.active = false := by
  obtain ⟨g, hg, h1⟩ := updateOnReveal_mine b x y c t₁ t₂ hact hin hc hr hf hm
  refine ⟨_, h1, ?_, ?_, ?_, ?_, ?_⟩
  · rw [checkWin_grid]
    have h2 := cellAt_updCell_same hg
    rw [hc] at h2
    exact h2
  · intro i j hij
    rw [checkWin_grid]
    exact cellAt_updCell_other hg hij
  · rw [checkWin_eq]
    show (b.startClock t₁).numRevealed + 1 = _
    rw [startClock_eq]
  · rw [checkWin_eq]
    show (b.startClock t₁).numFlagged = _
    rw [startClock_eq]
  · rw [checkWin_active]
    rfl

/-- C11 on the test fixture: revealing the mine (0,0) on the fresh board gives
`numRevealed = 1` and ends the game. -/
theorem reveal_mine_ends_game_witness :
    ∃ b0, makeBoard 8 8 10 fixturePicks = some b0 ∧
      ∃ b1, b0.updateOnReveal 0 0 1 2 = some b1 ∧
        cellAt b1.grid 0 0 = some ⟨1, true, false, true⟩ ∧
        (∀ i j, ¬ (i = 0 ∧ j = 0) → cellAt b1.grid i j = cellAt b0.grid i j) ∧
        b1.numRevealed = 0 + 1 ∧ b1.numFlagged = 0 ∧ b1.active = false :=
  ⟨_, rfl, reveal_mine_ends_game _ 0 0 ⟨1, false, false, true⟩ 1 2 rfl rfl rfl rfl rfl rfl⟩

/-- C14: on every active board and for every in-bounds cell that is unrevealed,
unflagged, not a mine and has `num > 0`, `updateOnReveal` marks exactly that
cell revealed and increases `numRevealed` by exactly 1; no other cell
changes. -/
theorem reveal_positive_cell (b : board) (x y : Int) (c : cell) (t₁ t₂ : Nat)
    (hact : b.active = true) (hin : b.withinBoarder x y = true)
    (hc : cellAt b.grid x y = some c) (hr : c.revealed = false) (hf : c.flagged = false)
    (hm : c.isMine = false) (hpos : 0 < c.num) :
    ∃ b1, b.updateOnReveal x y t₁ t₂ = some b1 ∧
      cellAt b1.grid x y = some { c with revealed := true } ∧
      (∀ i j, ¬ (i = x ∧ j = y) → cellAt b1.grid i j = cellAt b.grid i j) ∧
      b1.numRevealed = b.numRevealed + 1 := by
  obtain ⟨g, hg, h1⟩ := updateOnReveal_positive b x y c t₁ t₂ hact hin hc hr hf hm hpos
  refine ⟨_, h1, ?_, ?_, ?_⟩
  · rw [checkWin_grid]
    have h2 := cellAt_updCell_same hg
    rw [hc] at h2
    exact h2
  · intro i j hij
    rw [checkWin_grid]
    exact cellAt_updCell_other hg hij
  · rw [checkWin_eq]
    show (b.startClock t₁).numRevealed + 1 = _
    rw [startClock_eq]

/-- C14 on the test fixture: revealing (2,3), whose count is 2, on the fresh
board gives `numRevealed = 1`. -/
theorem reveal_positive_cell_witness :
    ∃ b0, makeBoard 8 8 10 fixturePicks = some b0 ∧
      ∃ b1, b0.updateOnReveal 2 3 1 2 = some b1 ∧
        cellAt b1.grid 2 3 = some ⟨2, true, false, false⟩ ∧
        (∀ i j, ¬ (i = 2 ∧ j = 3) → cellAt b1.grid i j = cellAt b0.grid i j) ∧
        b1.numRevealed = 0 + 1 :=
  ⟨_, rfl,
    reveal_positive_cell _ 2 3 ⟨2, false, false, false⟩ 1 2 rfl rfl rfl rfl rfl rfl
      (by decide)⟩

/-- C12: on every board whose grid has exactly `height` rows of exactly `width`
cells and for every pair of integers, `updateOnReveal` and `updateOnFlag`, with
the recursive `explore`, return a board (no index is out of range); and when
the pair is out of bounds they return the board unchanged. -/
theorem never_out_of_bounds (b : board) (x y : Int) (t₁ t₂ : Nat) (hwf : b.wellFormed) :
    (∃ b1, b.updateOnReveal x y t₁ t₂ = some b1) ∧
      (∃ b1, b.updateOnFlag x y t₁ t₂ = some b1) ∧
      (b.withinBoarder x y = true → ∃ b1, b.explore x y = some b1) ∧
      (b.withinBoarder x y = false →
        b.updateOnReveal x y t₁ t₂ = some b ∧ b.updateOnFlag x y t₁ t₂ = some b) := by
  obtain ⟨h1, h2⟩ := step_total hwf x y t₁ t₂
  refine ⟨h1, h2, ?_, ?_⟩
  · intro hin
    obtain ⟨b1, hb1, _⟩ := explore_total b x y hwf hin
    exact ⟨b1, hb1⟩
  · intro hout
    constructor
    · simp [board.updateOnReveal, hout]
    · simp [board.updateOnFlag, hout]

/-- C12 on the test fixture: the coordinates (-1, 3), (8, 0) and (2, 100) are
absorbed, and a reveal at (7,0) returns. -/
theorem never_out_of_bounds_witness :
    ∃ b0, makeBoard 8 8 10 fixturePicks = some b0 ∧
      (b0.updateOnReveal (-1) 3 1 2 = some b0 ∧ b0.updateOnFlag (-1) 3 1 2 = some b0) ∧
      (b0.updateOnReveal 8 0 1 2 = some b0 ∧ b0.updateOnFlag 8 0 1 2 = some b0) ∧
      (b0.updateOnReveal 2 100 1 2 = some b0 ∧ b0.updateOnFlag 2 100 1 2 = some b0) ∧
      ∃ b1, b0.updateOnReveal 7 0 1 2 = some b1 :=
  ⟨_, rfl,
    (never_out_of_bounds _ (-1) 3 1 2 (makeBoard_spec 8 8 10 fixturePicks _ rfl).1).2.2.2 rfl,
    (never_out_of_bounds _ 8 0 1 2 (makeBoard_spec 8 8 10 fixturePicks _ rfl).1).2.2.2 rfl,
    (never_out_of_bounds _ 2 100 1 2 (makeBoard_spec 8 8 10 fixturePicks _ rfl).1).2.2.2 rfl,
    (never_out_of_bounds _ 7 0 1 2 (makeBoard_spec 8 8 10 fixturePicks _ rfl).1).1⟩

/-- C13: for every board and every `updateOnReveal` or `updateOnFlag` call with
any integer coordinates that returns, `width`, `height`, `numMines` and every
cell's `isMine` and `num` are the same after the call as before it; hence, when
the board was reached from a constructed one, the number of mine cells is the
one `makeBoard` produced and every `num` still counts the neighbouring mines,
before and after the call. -/
theorem layout_is_fixed (b b1 : board) (a : action) (hstep : b.step a = some b1) :
    (b1.width = b.width ∧ b1.height = b.height ∧ b1.numMines = b.numMines ∧
      ∀ i j, (cellAt b1.grid i j).map (fun c => (c.num, c.isMine)) =
        (cellAt b.grid i j).map (fun c => (c.num, c.isMine))) ∧
      ∀ (width height numMines : Int) (picks : List (Int × Int)) (b0 : board)
        (acts : List action),
        makeBoard width height numMines picks = some b0 → b0.run acts = some b →
        (sameLayout b0 b ∧
          countCells (fun c => c.isMine) b.grid = countCells (fun c => c.isMine) b0.grid ∧
          b.numMines = (countCells (fun c => c.isMine) b.grid : Int) ∧ b.consistent) ∧
        (sameLayout b0 b1 ∧
          countCells (fun c => c.isMine) b1.grid = countCells (fun c => c.isMine) b0.grid ∧
          b1.numMines = (countCells (fun c => c.isMine) b1.grid : Int) ∧ b1.consistent) := by
  refine ⟨step_sameLayout hstep, ?_⟩
  intro width height numMines picks b0 acts hmk hrun
  exact ⟨reachable_layout hmk hrun, reachable_layout hmk (run_snoc hrun hstep)⟩

/-- C13 on the test fixture: after flagging (0,0), the reveal of (7,0) leaves
the dimensions, the ten mines and all counts in place. -/
theorem layout_is_fixed_witness :
    ∃ b0 b b1, makeBoard 8 8 10 fixturePicks = some b0 ∧
      b0.run [.flag 0 0 1 2] = some b ∧ b.step (.reveal 7 0 3 4) = some b1 ∧
      (b1.width = 8 ∧ b1.height = 8 ∧ b1.numMines = 10) ∧
      countCells (fun c => c.isMine) b1.grid = 10 ∧
      ((b1.width = b.width ∧ b1.height = b.height ∧ b1.numMines = b.numMines ∧
        ∀ i j, (cellAt b1.grid i j).map (fun c => (c.num, c.isMine)) =
          (cellAt b.grid i j).map (fun c => (c.num, c.isMine))) ∧
        ∀ (width height numMines : Int) (picks : List (Int × Int)) (b0 : board)
          (acts : List action),
          makeBoard width height numMines picks = some b0 → b0.run acts = some b →
          (sameLayout b0 b ∧
            countCells (fun c => c.isMine) b.grid =
              countCells (fun c => c.isMine) b0.grid ∧
            b.numMines = (countCells (fun c => c.isMine) b.grid : Int) ∧ b.consistent) ∧
          (sameLayout b0 b1 ∧
            countCells (fun c => c.isMine) b1.grid =
              countCells (fun c => c.isMine) b0.grid ∧
            b1.numMines = (countCells (fun c => c.isMine) b1.grid : Int) ∧
            b1.consistent)) :=
  ⟨_, _, _, rfl, rfl, rfl, ⟨rfl, rfl, rfl⟩, rfl,
    layout_is_fixed _ _ (.reveal 7 0 3 4) rfl⟩

/-- C15: for every board whose grid is `height × width` and every in-bounds
start cell, `explore` terminates, with the same result at every recursion depth
above the number of unrevealed cells; a call either returns at once with the
board unchanged (the cell is revealed, flagged or a mine, when no `num` is
negative) or reveals a previously unrevealed cell and leaves strictly fewer
unrevealed cells; and one call reveals at most as many cells as were unrevealed
before it. -/
theorem explore_terminates (b : board) (x y : Int) (hwf : b.wellFormed)
    (hin : b.withinBoarder x y = true) :
    ∃ b1, b.explore x y = some b1 ∧
      (∀ fuel, countCells (fun c => !c.revealed) b.grid < fuel →
        exploreAux neighbors fuel b x y = some b1) ∧
      b1.wellFormed ∧
      (liveAt b.grid x y = false → b1 = b ∧ exploreAux neighbors 1 b x y = some b) ∧
      (liveAt b.grid x y = true →
        revealedAt b.grid x y = false ∧ revealedAt b1.grid x y = true ∧
        countCells (fun c => !c.revealed) b1.grid <
          countCells (fun c => !c.revealed) b.grid) ∧
      (numNonneg b.grid → (liveAt b.grid x y = false ↔ settledAt b.grid x y = true)) ∧
      b1.numRevealed - b.numRevealed =
        (countCells (fun c => c.revealed) b1.grid : Int) -
          (countCells (fun c => c.revealed) b.grid : Int) ∧
      b1.numRevealed - b.numRevealed =
        (countCells (fun c => !c.revealed) b.grid : Int) -
          (countCells (fun c => !c.revealed) b1.grid : Int) ∧
      b1.numRevealed - b.numRevealed ≤ (countCells (fun c => !c.revealed) b.grid : Int) := by
  obtain ⟨b1, h1, h2, h3, h4, h5, h6, h7, h8⟩ := explore_call b x y hwf hin
  refine ⟨b1, h1, h2, h3, ?_, h5, ?_, h6, h7, by omega⟩
  · intro hl
    exact ⟨h4 hl, exploreAux_not_live neighbors 0 b x y hwf hin hl⟩
  · intro hnn
    exact liveAt_iff_not_settled hwf hnn hin

/-- C15 on the test fixture: the flood-fill from (7,0) on the fresh board
returns, reveals 16 of the 64 unrevealed cells, and returns the same board at
recursion depth 65 and above. -/
theorem explore_terminates_witness :
    ∃ b0, makeBoard 8 8 10 fixturePicks = some b0 ∧
      b0.wellFormed ∧ b0.withinBoarder 7 0 = true ∧
      countCells (fun c => !c.revealed) b0.grid = 64 ∧
      (b0.explore 7 0).map (fun b => b.numRevealed) = some 16 ∧
      ∃ b1, b0.explore 7 0 = some b1 ∧
        (∀ fuel, countCells (fun c => !c.revealed) b0.grid < fuel →
          exploreAux neighbors fuel b0 7 0 = some b1) ∧
        b1.wellFormed ∧
        (liveAt b0.grid 7 0 = false → b1 = b0 ∧ exploreAux neighbors 1 b0 7 0 = some b0) ∧
        (liveAt b0.grid 7 0 = true →
          revealedAt b0.grid 7 0 = false ∧ revealedAt b1.grid 7 0 = true ∧
          countCells (fun c => !c.revealed) b1.grid <
            countCells (fun c => !c.revealed) b0.grid) ∧
        (numNonneg b0.grid →
          (liveAt b0.grid 7 0 = false ↔ settledAt b0.grid 7 0 = true)) ∧
        b1.numRevealed - b0.numRevealed =
          (countCells (fun c => c.revealed) b1.grid : Int) -
            (countCells (fun c => c.revealed) b0.grid : Int) ∧
        b1.numRevealed - b0.numRevealed =
          (countCells (fun c => !c.revealed) b0.grid : Int) -
            (countCells (fun c => !c.revealed) b1.grid : Int) ∧
        b1.numRevealed - b0.numRevealed ≤
          (countCells (fun c => !c.revealed) b0.grid : Int) :=
  ⟨_, rfl, (makeBoard_spec 8 8 10 fixturePicks _ rfl).1, rfl, rfl, rfl,
    explore_terminates _ 7 0 (makeBoard_spec 8 8 10 fixturePicks _ rfl).1 rfl⟩

/-- C16: for every board whose grid is `height × width`, every in-bounds start
cell and every permutation of the eight neighbour offsets, `explore` run with
the permuted offset list returns the same board (the same grid, hence the same
revealed cells, and the same `numRevealed`) as `explore` run with the original
list. -/
theorem explore_order_independent (b : board) (x y : Int) (nbrs : List (Int × Int))
    (hwf : b.wellFormed) (hin : b.withinBoarder x y = true)
    (hperm : nbrs.Perm neighbors) :
    ∃ b1, b.explore x y = some b1 ∧
      exploreAux nbrs (gridSize b.grid + 1) b x y = some b1 ∧
      ∀ fuel, countCells (fun c => !c.revealed) b.grid < fuel →
        exploreAux nbrs fuel b x y = some b1 ∧ exploreAux neighbors fuel b x y = some b1 := by
  obtain ⟨b1, h⟩ := exploreAux_offsets nbrs neighbors b x y hwf hin
    (fun d => hperm.mem_iff)
  have hle := countCells_le_gridSize (fun c => !c.revealed) b.grid
  exact ⟨b1, (h _ (by omega)).2, (h _ (by omega)).1, h⟩

/-- C16 on the test fixture: the flood-fill from (7,0) with the offsets visited
in reverse order gives the board of the original order. -/
theorem explore_order_independent_witness :
    ∃ b0, makeBoard 8 8 10 fixturePicks = some b0 ∧
      b0.wellFormed ∧ b0.withinBoarder 7 0 = true ∧
      neighbors.reverse.Perm neighbors ∧ neighbors.reverse ≠ neighbors ∧
      ∃ b1, b0.explore 7 0 = some b1 ∧
        exploreAux neighbors.reverse (gridSize b0.grid + 1) b0 7 0 = some b1 ∧
        ∀ fuel, countCells (fun c => !c.revealed) b0.grid < fuel →
          exploreAux neighbors.reverse fuel b0 7 0 = some b1 ∧
            exploreAux neighbors fuel b0 7 0 = some b1 :=
  ⟨_, rfl, (makeBoard_spec 8 8 10 fixturePicks _ rfl).1, rfl,
    List.reverse_perm neighbors, by decide,
    explore_order_independent _ 7 0 neighbors.reverse
      (makeBoard_spec 8 8 10 fixturePicks _ rfl).1 rfl (List.reverse_perm neighbors)⟩

/-- C17, as the code has it: when `explore` propagates from an unrevealed,
unflagged, mine-free cell (row, col) with `num = 0`, it calls itself on the
in-bounds neighbours in the order of the (row, col) offsets (-1,-1), (0,-1),
(1,-1), (-1,0), (1,0), (-1,1), (0,1), (1,1), that is NW, W, SW, N, S, NE, E, SE
with N being row - 1 and W being col - 1. -/
theorem explore_visit_order (b : board) (x y : Int) (c : cell) (hwf : b.wellFormed)
    (hc : cellAt b.grid x y = some c) (hr : c.revealed = false) (hf : c.flagged = false)
    (hm : c.isMine = false) (hz : c.num = 0) :
    ∃ b1, b.explore x y = some b1 ∧
      exploreCalls neighbors (gridSize b.grid + 1) b x y = some (b1,
        (([(-1, -1), (0, -1), (1, -1), (-1, 0), (1, 0), (-1, 1), (0, 1), (1, 1)] :
            List (Int × Int)).map (fun d => (x + d.1, y + d.2))).filter
          (fun p => b.withinBoarder p.1 p.2)) := by
  have hin : b.withinBoarder x y = true := (within_iff_cellAt hwf x y).2 ⟨c, hc⟩
  obtain ⟨b1, hb1, _⟩ := explore_total b x y hwf hin
  obtain ⟨g, hg⟩ := updCell_of_cellAt hc (fun c => { c with revealed := true })
  have h2 : visitNeighbors (exploreAux neighbors (gridSize b.grid)) x y
      ({ b with grid := g, numRevealed := b.numRevealed + 1 } : board) neighbors =
      some b1 := by
    have h3 := hb1
    simp only [board.explore, exploreAux, hc, hr, hf, hm, hz, hg, if_true, if_false,
      Bool.or_self, Bool.false_eq_true, ge_iff_le, le_refl] at h3
    exact h3
  refine ⟨b1, hb1, ?_⟩
  simp only [exploreCalls, hc, hr, hf, hm, hz, hg, if_true, if_false,
      Bool.or_self, Bool.false_eq_true, ge_iff_le, le_refl]
  exact visitNeighborsLog_snd _ x y
    (fun b2 x2 y2 b3 h => ⟨(exploreAux_sameLayout _ _ _ _ _ _ h).1,
      (exploreAux_sameLayout _ _ _ _ _ _ h).2.1⟩) neighbors _ b1 h2

/-- C17 on a 3 × 3 board without mines: from the centre the calls go to (0,0),
(1,0), (2,0), (0,1), (2,1), (0,2), (1,2), (2,2). -/
theorem explore_visit_order_witness :
    ∃ b0, makeBoard 3 3 0 [] = some b0 ∧ b0.wellFormed ∧
      cellAt b0.grid 1 1 = some ⟨0, false, false, false⟩ ∧
      ((([(-1, -1), (0, -1), (1, -1), (-1, 0), (1, 0), (-1, 1), (0, 1), (1, 1)] :
            List (Int × Int)).map (fun d => ((1 : Int) + d.1, (1 : Int) + d.2))).filter
          (fun p => b0.withinBoarder p.1 p.2) =
        [(0, 0), (1, 0), (2, 0), (0, 1), (2, 1), (0, 2), (1, 2), (2, 2)]) ∧
      ∃ b1, b0.explore 1 1 = some b1 ∧
        exploreCalls neighbors (gridSize b0.grid + 1) b0 1 1 = some (b1,
          (([(-1, -1), (0, -1), (1, -1), (-1, 0), (1, 0), (-1, 1), (0, 1), (1, 1)] :
              List (Int × Int)).map (fun d => ((1 : Int) + d.1, (1 : Int) + d.2))).filter
            (fun p => b0.withinBoarder p.1 p.2)) :=
  ⟨_, rfl, (makeBoard_spec 3 3 0 [] _ rfl).1, rfl, by decide,
    explore_visit_order _ 1 1 ⟨0, false, false, false⟩
      (makeBoard_spec 3 3 0 [] _ rfl).1 rfl rfl rfl rfl rfl⟩

/-- C17 fails as stated: on a 3 × 3 board without mines, `explore` called on the
centre (1,1) calls itself on (0,0), (1,0), (2,0), (0,1), (2,1), (0,2), (1,2),
(2,2) in this order, whereas NW, N, NE, W, E, SW, S, SE would be (0,0), (0,1),
(0,2), (1,0), (1,2), (2,0), (2,1), (2,2). -/
theorem visit_order_counterexample :
    ∃ b0, makeBoard 3 3 0 [] = some b0 ∧
      cellAt b0.grid 1 1 = some ⟨0, false, false, false⟩ ∧
      (exploreCalls neighbors (gridSize b0.grid + 1) b0 1 1).map Prod.snd =
        some [(0, 0), (1, 0), (2, 0), (0, 1), (2, 1), (0, 2), (1, 2), (2, 2)] ∧
      specOrder.map (fun d => ((1 : Int) + d.1, (1 : Int) + d.2)) =
        [(0, 0), (0, 1), (0, 2), (1, 0), (1, 2), (2, 0), (2, 1), (2, 2)] ∧
      (exploreCalls neighbors (gridSize b0.grid + 1) b0 1 1).map Prod.snd ≠
        some ((specOrder.map (fun d => ((1 : Int) + d.1, (1 : Int) + d.2))).filter
          (fun p => b0.withinBoarder p.1 p.2)) :=
  ⟨_, rfl, rfl, rfl, rfl, by decide⟩

/-- C18 on a 2 × 1 board with its mine at (0,1): after the cell (0,0), which is
no mine, has been flagged, the board is active; the reveal of the mine then
leaves `numFlagged = numMines` and `numRevealed = width * height - numMines`, so
`isWin` is true in the state after the call that revealed a mine. -/
theorem reveal_mine_then_win :
    ∃ b0 b b1, makeBoard 2 1 1 [(0, 1)] = some b0 ∧
      b0.run [.flag 0 0 1 2] = some b ∧ b.active = true ∧ b.isWin = false ∧
      cellAt b.grid 0 1 = some ⟨0, false, false, true⟩ ∧
      b.updateOnReveal 0 1 3 4 = some b1 ∧
      cellAt b1.grid 0 1 = some ⟨0, true, false, true⟩ ∧
      b1.numFlagged = 1 ∧ b1.numRevealed = 1 ∧ b1.numMines = 1 ∧
      b1.isWin = true ∧ b1.active = false :=
  ⟨_, _, _, rfl, rfl, rfl, rfl, rfl, rfl, rfl, rfl, rfl, rfl, rfl, rfl⟩

/-- C19: in every board state reached from a constructed board by
`updateOnReveal` and `updateOnFlag` calls, if `isWin` holds and no mine cell is
revealed, then the flagged cells are exactly the mine cells and the revealed
cells are exactly the cells that are no mines. -/
theorem win_check_sound (width height numMines : Int) (picks : List (Int × Int))
    (b0 b : board) (acts : List action)
    (hmk : makeBoard width height numMines picks = some b0)
    (hrun : b0.run acts = some b) (hwin : b.isWin = true)
    (hno : ∀ i j c, cellAt b.grid i j = some c → c.isMine = true → c.revealed = false) :
    ∀ i j c, cellAt b.grid i j = some c →
      (c.flagged = true ↔ c.isMine = true) ∧ (c.revealed = true ↔ c.isMine = false) := by
  obtain ⟨_, _, _, _, _, hw0, hh0⟩ := makeBoard_spec width height numMines picks b0 hmk
  obtain ⟨hw, hh, _⟩ := run_dims (inv_makeBoard hmk) acts hrun
  obtain ⟨h1, h2⟩ := makeBoard_dims hmk
  refine win_exact (reachable_inv hmk hrun) ?_ ?_ hwin hno
  · rw [hh, hh0]
    exact h1
  · rw [hh, hh0, hw, hw0]
    exact h2

/-- C19 on a 2 × 1 board with its mine at (0,1): after the reveal of (0,0) and
the flag on (0,1) the game is won, the flag is on the mine and the other cell is
revealed. -/
theorem win_check_sound_witness :
    ∃ b0 b, makeBoard 2 1 1 [(0, 1)] = some b0 ∧
      b0.run [.reveal 0 0 1 2, .flag 0 1 3 4] = some b ∧ b.isWin = true ∧
      (∀ i j c, cellAt b.grid i j = some c → c.isMine = true → c.revealed = false) ∧
      cellAt b.grid 0 0 = some ⟨1, true, false, false⟩ ∧
      cellAt b.grid 0 1 = some ⟨0, false, true, true⟩ ∧
      ∀ i j c, cellAt b.grid i j = some c →
        (c.flagged = true ↔ c.isMine = true) ∧ (c.revealed = true ↔ c.isMine = false) :=
  ⟨_, _, rfl, rfl, rfl, noMineShown_of_count rfl, rfl, rfl,
    win_check_sound 2 1 1 [(0, 1)] _ _ [.reveal 0 0 1 2, .flag 0 1 3 4] rfl rfl rfl
      (noMineShown_of_count rfl)⟩

/-- C20: for every board whose grid is `height × width` with `width > 0`,
`height > 0` and every `num` in 0..8, the output of `String` is the header, the
column-label line, the separator line and one line per row; the line of a row
is the row index zero-padded to the digit count of `height - 1`, then a bar,
then for each cell in column order a right-aligned field of (digit count of
`width - 1`) + 1 bytes holding `#` if the cell is flagged, otherwise `-` if it
is not revealed, otherwise `X` if it is a mine, otherwise the decimal `num`;
and the label line, the separator line and every row line have the same
length. -/
theorem render_rows (b : board) (elapsed : List Char) (hwf : b.wellFormed)
    (hw : 0 < b.width) (hh : 0 < b.height)
    (hnum : ∀ row ∈ b.grid, ∀ c ∈ row, 0 ≤ c.num ∧ c.num ≤ 8) :
    b.String elapsed = some (headerText b elapsed ++ labelLine b ++ ['\n'] ++ ruleLine b ++
      ['\n'] ++ b.grid.enum.flatMap (fun rr => rowLine b rr.1 rr.2 ++ ['\n'])) ∧
      (labelLine b).length =
        indexDigits b.height + 1 + b.width.toNat * (indexDigits b.width + 1) ∧
      (ruleLine b).length =
        indexDigits b.height + 1 + b.width.toNat * (indexDigits b.width + 1) ∧
      ∀ rr ∈ b.grid.enum,
        (rightAlign (indexDigits b.height) '0' (itoa rr.1)).length = indexDigits b.height ∧
        (∀ c ∈ rr.2, (glyph c).length = 1 ∧
          (rightAlign (indexDigits b.width + 1) ' ' (glyph c)).length =
            indexDigits b.width + 1) ∧
        (rowLine b rr.1 rr.2).length =
          indexDigits b.height + 1 + b.width.toNat * (indexDigits b.width + 1) := by
  obtain ⟨row0, h0, hlen⟩ := grid_head_of_wellFormed hwf hh
  refine ⟨String_lines b elapsed row0 h0 hlen (by omega), labelLine_length b hw,
    ruleLine_length b, ?_⟩
  intro rr hrr
  have h1 := List.fst_lt_of_mem_enum hrr
  have h2 := List.snd_mem_of_mem_enum hrr
  exact rowLine_length b rr.1 rr.2 (by rw [hwf.1] at h1; omega) (hwf.2 _ h2) (hnum _ h2)

/-- C20 on a 2 × 1 board with its mine at (0,1), after the reveal of (0,0): the
label line, the separator line and the row line are six bytes each. -/
theorem render_rows_witness :
    ∃ b0 b, makeBoard 2 1 1 [(0, 1)] = some b0 ∧ b0.run [.reveal 0 0 1 2] = some b ∧
      b.wellFormed ∧ 0 < b.width ∧ 0 < b.height ∧
      (∀ row ∈ b.grid, ∀ c ∈ row, 0 ≤ c.num ∧ c.num ≤ 8) ∧
      b.String ['1'] = some ("Mines remaining: 1\nTime elapsed: 1 seconds\n".toList ++
        "   0 1\n".toList ++ "  ----\n".toList ++ "0| 1 -\n".toList) ∧
      (b.String ['1'] = some (headerText b ['1'] ++ labelLine b ++ ['\n'] ++ ruleLine b ++
        ['\n'] ++ b.grid.enum.flatMap (fun rr => rowLine b rr.1 rr.2 ++ ['\n'])) ∧
        (labelLine b).length =
          indexDigits b.height + 1 + b.width.toNat * (indexDigits b.width + 1) ∧
        (ruleLine b).length =
          indexDigits b.height + 1 + b.width.toNat * (indexDigits b.width + 1) ∧
        ∀ rr ∈ b.grid.enum,
          (rightAlign (indexDigits b.height) '0' (itoa rr.1)).length =
            indexDigits b.height ∧
          (∀ c ∈ rr.2, (glyph c).length = 1 ∧
            (rightAlign (indexDigits b.width + 1) ' ' (glyph c)).length =
              indexDigits b.width + 1) ∧
          (rowLine b rr.1 rr.2).length =
            indexDigits b.height + 1 + b.width.toNat * (indexDigits b.width + 1)) :=
  ⟨_, _, rfl, rfl,
    reachable_wellFormed 2 1 1 [(0, 1)] _ _ [.reveal 0 0 1 2] rfl rfl,
    by decide, by decide, by decide, by decide,
    render_rows _ ['1']
      (reachable_wellFormed 2 1 1 [(0, 1)] _ _ [.reveal 0 0 1 2] rfl rfl)
      (by decide) (by decide) (by decide)⟩

end Minesweeper
